import Mathlib

/-!
# LazyLang compiler: lexer, parser and code generator

A shallow embedding of `internal/lexer/lexer.go`, `internal/parser/{ast,parser}.go`,
`internal/codegen/codegen.go` and `runDiagnostics` of `internal/lsp/lsp.go`.

Source text is a sequence of runes (`List Char`, that is, valid UTF-8).  The
lexer drives Go's `text/scanner` in mode `ScanIdents | ScanInts | ScanFloats`;
the part of that scanner which this mode reaches is embedded below, with the
number syntax of Go 1.13 and later.  Scanner diagnostics go to standard error
only and change no result, so they are not represented.

Go pointers: an `Expression` interface value is `Expression.nil` (the nil
interface) or a node; a `Statement` interface value is `Statement.nil`, a node,
or a nil pointer of a concrete statement type held in a non-nil interface
(`Statement.nilPtr`), which is what `parseStatement` returns when a statement
rule fails.  A run-time panic is the result `none` of the function concerned.
-/

namespace LazyLang

/-! ## Go runtime routines taken as parameters -/

/-- An IEEE-754 binary64 value, identified by its bit pattern. -/
structure Float64 where
  bits : Nat
  deriving DecidableEq, Repr

/-- Library routines of the Go runtime that the program calls and that are not
part of the repository: the Unicode tables (used only for runes outside ASCII)
and the two `strconv` float conversions, `ParseFloat(s, 64)` with its error
discarded and `FormatFloat(v, 'f', -1, 64)`. -/
structure GoRuntime where
  IsLetter : Char → Bool
  IsDigit : Char → Bool
  ParseFloat : String → Float64
  FormatFloat : Float64 → String

/-! ## text/scanner -/

/-- Result of `Scanner.Scan`: one of the negative token classes or the rune itself. -/
inductive ScanTok where
  | EOF
  | Ident
  | Int
  | Float
  | rune (ch : Char)
  deriving DecidableEq, Repr

/-- `GoWhitespace`: tab, newline, carriage return and space. -/
def isWhitespace (ch : Char) : Bool :=
  ch == '\t' || ch == '\n' || ch == '\r' || ch == ' '

/-- `unicode.IsLetter`; on ASCII it is exactly the Latin letters. -/
def isLetter (rt : GoRuntime) (ch : Char) : Bool :=
  if ch.toNat < 128 then ch.isAlpha else rt.IsLetter ch

/-- `unicode.IsDigit`; on ASCII it is exactly `0`..`9`. -/
def isDigit (rt : GoRuntime) (ch : Char) : Bool :=
  if ch.toNat < 128 then ch.isDigit else rt.IsDigit ch

/-- `Scanner.isIdentRune` with the default predicate (`IsIdentRune == nil`). -/
def isIdentRune (rt : GoRuntime) (ch : Char) (i : Nat) : Bool :=
  ch == '_' || isLetter rt ch || (isDigit rt ch && decide (0 < i))

/-- `lower(ch)`: the rune with bit `0x20` set. -/
def lower (ch : Char) : Nat := ch.toNat ||| 0x20

/-- `isDecimal`. -/
def isDecimal (ch : Char) : Bool := decide ('0'.toNat ≤ ch.toNat) && decide (ch.toNat ≤ '9'.toNat)

/-- `isHex`. -/
def isHex (ch : Char) : Bool :=
  isDecimal ch || (decide ('a'.toNat ≤ lower ch) && decide (lower ch ≤ 'f'.toNat))

/-- `Scanner.digits`: the maximal run of digits of the base and `_` separators;
returns the run and what follows it. -/
def digits (base : Nat) (src : List Char) : List Char × List Char :=
  if base ≤ 10 then src.span (fun ch => isDecimal ch || ch == '_')
  else src.span (fun ch => isHex ch || ch == '_')

/-- The optional exponent of `scanNumber`: `e`/`p` in either case, an optional
sign, decimal digits.  Returns whether an exponent was read, its text and the rest. -/
def scanExponent (src : List Char) : Bool × List Char × List Char :=
  match src with
  | [] => (false, [], [])
  | ch :: rest =>
    if lower ch = 'e'.toNat ∨ lower ch = 'p'.toNat then
      match rest with
      | [] => (true, [ch], [])
      | sg :: rest1 =>
        if sg = '+' ∨ sg = '-' then (true, ch :: sg :: (digits 10 rest1).1, (digits 10 rest1).2)
        else (true, ch :: (digits 10 rest).1, (digits 10 rest).2)
    else (false, [], src)

/-- The fractional part and exponent of `scanNumber`, entered with `seenDot`
known; `base` is the base chosen by the integer part. -/
def scanFraction (base : Nat) (seenDot : Bool) (src : List Char) :
    ScanTok × List Char × List Char :=
  let fr := if seenDot then digits base src else ([], src)
  let ex := scanExponent fr.2
  (if seenDot || ex.1 then ScanTok.Float else ScanTok.Int, fr.1 ++ ex.2.1, ex.2.2)

/-- The integer part of `scanNumber`, up to the test for a `.`: the base, the
prefix read (`0`, `0x`, `0o`, `0b` or none) and the rest. -/
def scanPrefix (src : List Char) : Nat × List Char × List Char :=
  match src with
  | [] => (10, [], src)
  | ch0 :: rest0 =>
    if ch0 = '0' then
      match rest0 with
      | [] => (8, ['0'], [])
      | ch :: rest1 =>
        if lower ch = 'x'.toNat then (16, ['0', ch], rest1)
        else if lower ch = 'o'.toNat then (8, ['0', ch], rest1)
        else if lower ch = 'b'.toNat then (2, ['0', ch], rest1)
        else (8, ['0'], rest0)
    else (10, [], src)

/-- The rest of `scanNumber` after the digits of the integer part: a `.` makes
`seenDot` true, then the fractional part and exponent follow. -/
def scanAfterInt (base : Nat) (src : List Char) : ScanTok × List Char × List Char :=
  match src with
  | [] => scanFraction base false src
  | ch :: rest =>
    if ch = '.' then
      ((scanFraction base true rest).1, '.' :: (scanFraction base true rest).2.1,
        (scanFraction base true rest).2.2)
    else scanFraction base false src

/-- `Scanner.scanNumber(ch, seenDot)` where `src` starts at `ch`.  Returns the
token class, the text read from `ch` on, and the unread rest. -/
def scanNumber (src : List Char) (seenDot : Bool) : ScanTok × List Char × List Char :=
  if seenDot then scanFraction 10 true src
  else
    let pre := scanPrefix src
    let ds := digits pre.1 pre.2.2
    let tl := scanAfterInt pre.1 ds.2
    (tl.1, pre.2.1 ++ ds.1 ++ tl.2.1, tl.2.2)

/-- The `switch` of `Scanner.Scan` on the first rune `ch` that is not whitespace,
`rest` being the source after it. -/
def scanToken (rt : GoRuntime) (ch : Char) (rest : List Char) : ScanTok × String × List Char :=
  if isIdentRune rt ch 0 then
    (ScanTok.Ident, String.mk (ch :: (rest.span (fun c => isIdentRune rt c 1)).1),
      (rest.span (fun c => isIdentRune rt c 1)).2)
  else if isDecimal ch then
    ((scanNumber (ch :: rest) false).1, String.mk (scanNumber (ch :: rest) false).2.1,
      (scanNumber (ch :: rest) false).2.2)
  else if ch = '.' then
    match rest with
    | [] => (ScanTok.rune ch, String.mk [ch], rest)
    | d :: _ =>
      if isDecimal d then
        ((scanNumber rest true).1, String.mk ('.' :: (scanNumber rest true).2.1),
          (scanNumber rest true).2.2)
      else (ScanTok.rune ch, String.mk [ch], rest)
  else (ScanTok.rune ch, String.mk [ch], rest)

/-- `Scanner.Scan` in mode `ScanIdents | ScanInts | ScanFloats` on the unread
source `src` (whose head is the scanner's current rune): whitespace is skipped,
then one token is read.  Returns the token, the token text (`TokenText()`) and
the unread rest. -/
def Scan (rt : GoRuntime) (src : List Char) : ScanTok × String × List Char :=
  match src.dropWhile isWhitespace with
  | [] => (ScanTok.EOF, "", [])
  | ch :: rest => scanToken rt ch rest

/-! ## lexer.go -/

/-- Token types. -/
inductive TokenType where
  | ILLEGAL | EOF | IDENT | NUMBER | VAR | IF | ELSE | FOR | ARRAY | WHILE | PRINT
  | PLUS | MINUS | MULTIPLY | DIVIDE | ASSIGN | DECREMENT | INCREMENT
  | LPAREN | RPAREN | LBRACE | RBRACE | LSBREC | RSBREC | SEMICOLON | COMMA
  | GT | LT | GT_EQ | LT_EQ | EQ | NOT_EQ | IN
  deriving DecidableEq, Repr

/-- Token; `Kind` is the Go field `Type` (a reserved word here). -/
structure Token where
  Kind : TokenType
  Literal : String
  deriving DecidableEq, Repr

/-- Lexer for tokenizing: `scanner` is the scanner's unread source, `token` the
token it scanned last (the Go field `token`) and `text` that token's text. -/
structure Lexer where
  scanner : List Char
  token : ScanTok
  text : String
  deriving DecidableEq, Repr

/-- The lexer state right after the scanner has scanned one token from `src`. -/
def Lexer.scan (rt : GoRuntime) (src : List Char) : Lexer :=
  { scanner := (Scan rt src).2.2, token := (Scan rt src).1, text := (Scan rt src).2.1 }

/-- `Scanner.Init` followed by the first `Peek`: a leading byte order mark is ignored. -/
def scannerInit (input : List Char) : List Char :=
  match input with
  | ch :: rest => if ch.toNat = 0xFEFF then rest else input
  | [] => []

def NewLexer (rt : GoRuntime) (input : List Char) : Lexer :=
  Lexer.scan rt (scannerInit input)

/-- The keyword table of `NextToken`. -/
def keyword (literal : String) : TokenType :=
  if literal = "lazy" then TokenType.VAR
  else if literal = "lazyArray" then TokenType.ARRAY
  else if literal = "if" then TokenType.IF
  else if literal = "el" then TokenType.ELSE
  else if literal = "lazyPrint" then TokenType.PRINT
  else if literal = "for" then TokenType.FOR
  else if literal = "while" then TokenType.WHILE
  else if literal = "in" then TokenType.IN
  else TokenType.IDENT

/-- `l.scanner.Peek() == '='` followed, when true, by `l.scanner.Next()`:
returns whether the next rune is `=` and the scanner after the conditional `Next`. -/
def peekEq (src : List Char) : Bool × List Char :=
  match src with
  | ch :: rest => if ch = '=' then (true, rest) else (false, src)
  | [] => (false, [])

/-- The `switch` of `NextToken`: the token for `l.token`, and the scanner's
unread source after the `Next()` that a two-character operator performs. -/
def Lexer.switchToken (l : Lexer) : Token × List Char :=
  match l.token with
  | ScanTok.EOF => (⟨TokenType.EOF, ""⟩, l.scanner)
  | ScanTok.Ident => (⟨keyword l.text, l.text⟩, l.scanner)
  | ScanTok.Int => (⟨TokenType.NUMBER, l.text⟩, l.scanner)
  | ScanTok.Float => (⟨TokenType.NUMBER, l.text⟩, l.scanner)
  | ScanTok.rune ch =>
    if ch = '+' then (⟨TokenType.PLUS, "+"⟩, l.scanner)
    else if ch = '-' then (⟨TokenType.MINUS, "-"⟩, l.scanner)
    else if ch = '*' then (⟨TokenType.MULTIPLY, "*"⟩, l.scanner)
    else if ch = '/' then (⟨TokenType.DIVIDE, "/"⟩, l.scanner)
    else if ch = '=' then
      if (peekEq l.scanner).1 then (⟨TokenType.EQ, "=="⟩, (peekEq l.scanner).2)
      else (⟨TokenType.ASSIGN, "="⟩, (peekEq l.scanner).2)
    else if ch = '(' then (⟨TokenType.LPAREN, "("⟩, l.scanner)
    else if ch = ')' then (⟨TokenType.RPAREN, ")"⟩, l.scanner)
    else if ch = '{' then (⟨TokenType.LBRACE, "\x7b"⟩, l.scanner)
    else if ch = '[' then (⟨TokenType.LSBREC, "["⟩, l.scanner)
    else if ch = ']' then (⟨TokenType.RSBREC, "]"⟩, l.scanner)
    else if ch = ';' then (⟨TokenType.SEMICOLON, ";"⟩, l.scanner)
    else if ch = ',' then (⟨TokenType.COMMA, ","⟩, l.scanner)
    else if ch = '}' then (⟨TokenType.RBRACE, "\x7d"⟩, l.scanner)
    else if ch = '>' then
      if (peekEq l.scanner).1 then (⟨TokenType.GT_EQ, ">="⟩, (peekEq l.scanner).2)
      else (⟨TokenType.GT, ">"⟩, (peekEq l.scanner).2)
    else if ch = '<' then
      if (peekEq l.scanner).1 then (⟨TokenType.LT_EQ, "<="⟩, (peekEq l.scanner).2)
      else (⟨TokenType.LT, "<"⟩, (peekEq l.scanner).2)
    else (⟨TokenType.ILLEGAL, l.text⟩, l.scanner)

/-- `Lexer.NextToken`: the token of the switch, and the lexer after the closing
`l.token = l.scanner.Scan()`. -/
def Lexer.NextToken (rt : GoRuntime) (l : Lexer) : Token × Lexer :=
  (l.switchToken.1, Lexer.scan rt l.switchToken.2)

/-- The tokens returned by repeated `NextToken` up to, and not including, the
first end-of-input token; at most `n` of them. -/
def Lexer.tokens (rt : GoRuntime) : Nat → Lexer → List Token
  | 0, _ => []
  | n + 1, l =>
    if (l.NextToken rt).1.Kind = TokenType.EOF then []
    else (l.NextToken rt).1 :: Lexer.tokens rt n (l.NextToken rt).2

/-- The whole token sequence of a lexer: every later scan consumes a rune, so
`scanner.length + 1` calls reach end of input. -/
def Lexer.allTokens (rt : GoRuntime) (l : Lexer) : List Token :=
  Lexer.tokens rt (l.scanner.length + 1) l

/-! ## ast.go -/

/-- An `Expression` interface value: `nil` is the nil interface, every other
constructor a pointer to a node of that type. -/
inductive Expression where
  | nil
  | Identifier (Value : String)
  | NumberLiteral (Value : Float64)
  | InfixExpression (Left : Expression) (Operator : String) (Right : Expression)
  | IndexExpression (Array : Expression) (Index : Expression)
  deriving DecidableEq, Repr

/-- The concrete statement node types. -/
inductive StatementType where
  | VarStatement | ArrayStatement | IfStatement | ForStatement | PrintStatement
  deriving DecidableEq, Repr

/-- A `Statement` interface value: `nil` is the nil interface, `nilPtr T` is a nil
`*T` held in a non-nil interface, every other constructor a pointer to a node. -/
inductive Statement where
  | nil
  | nilPtr (T : StatementType)
  | VarStatement (Name : String) (Value : Expression)
  | ArrayStatement (Name : String) (Values : List Expression)
  | IfStatement (Condition : Expression) (Consequence : List Statement)
      (Alternative : List Statement)
  | ForStatement (Init : Statement) (Condition : Expression) (Post : Statement)
      (Body : List Statement)
  | PrintStatement (Value : Expression)
  deriving Repr

/-- Program is the root node of the AST. -/
structure Program where
  Statements : List Statement
  deriving Repr

mutual
/-- Structural equality test on statements. -/
def Statement.beq : Statement → Statement → Bool
  | Statement.nil, Statement.nil => true
  | Statement.nilPtr T, Statement.nilPtr T1 => decide (T = T1)
  | Statement.VarStatement n v, Statement.VarStatement n1 v1 => decide (n = n1) && decide (v = v1)
  | Statement.ArrayStatement n vs, Statement.ArrayStatement n1 vs1 =>
    decide (n = n1) && decide (vs = vs1)
  | Statement.IfStatement c a b, Statement.IfStatement c1 a1 b1 =>
    decide (c = c1) && Statement.beqList a a1 && Statement.beqList b b1
  | Statement.ForStatement i c q b, Statement.ForStatement i1 c1 q1 b1 =>
    Statement.beq i i1 && decide (c = c1) && Statement.beq q q1 && Statement.beqList b b1
  | Statement.PrintStatement v, Statement.PrintStatement v1 => decide (v = v1)
  | _, _ => false
/-- Structural equality test on statement lists. -/
def Statement.beqList : List Statement → List Statement → Bool
  | [], [] => true
  | a :: as, b :: bs => Statement.beq a b && Statement.beqList as bs
  | _, _ => false
end

mutual
theorem Statement.eq_of_beq : ∀ (a b : Statement), Statement.beq a b = true → a = b
  | Statement.nil, b, h => by cases b <;> simp_all [Statement.beq]
  | Statement.nilPtr T, b, h => by cases b <;> simp_all [Statement.beq]
  | Statement.VarStatement n v, b, h => by cases b <;> simp_all [Statement.beq]
  | Statement.ArrayStatement n vs, b, h => by cases b <;> simp_all [Statement.beq]
  | Statement.PrintStatement v, b, h => by cases b <;> simp_all [Statement.beq]
  | Statement.IfStatement c a b, Statement.IfStatement c1 a1 b1, h => by
    simp only [Statement.beq, Bool.and_eq_true, decide_eq_true_eq] at h
    rw [h.1.1, Statement.eq_of_beqList a a1 h.1.2, Statement.eq_of_beqList b b1 h.2]
  | Statement.IfStatement c a b, Statement.nil, h => by simp [Statement.beq] at h
  | Statement.IfStatement c a b, Statement.nilPtr _, h => by simp [Statement.beq] at h
  | Statement.IfStatement c a b, Statement.VarStatement _ _, h => by simp [Statement.beq] at h
  | Statement.IfStatement c a b, Statement.ArrayStatement _ _, h => by simp [Statement.beq] at h
  | Statement.IfStatement c a b, Statement.ForStatement _ _ _ _, h => by
    simp [Statement.beq] at h
  | Statement.IfStatement c a b, Statement.PrintStatement _, h => by simp [Statement.beq] at h
  | Statement.ForStatement i c q b, Statement.ForStatement i1 c1 q1 b1, h => by
    simp only [Statement.beq, Bool.and_eq_true, decide_eq_true_eq] at h
    rw [Statement.eq_of_beq i i1 h.1.1.1, h.1.1.2, Statement.eq_of_beq q q1 h.1.2,
      Statement.eq_of_beqList b b1 h.2]
  | Statement.ForStatement i c q b, Statement.nil, h => by simp [Statement.beq] at h
  | Statement.ForStatement i c q b, Statement.nilPtr _, h => by simp [Statement.beq] at h
  | Statement.ForStatement i c q b, Statement.VarStatement _ _, h => by
    simp [Statement.beq] at h
  | Statement.ForStatement i c q b, Statement.ArrayStatement _ _, h => by
    simp [Statement.beq] at h
  | Statement.ForStatement i c q b, Statement.IfStatement _ _ _, h => by
    simp [Statement.beq] at h
  | Statement.ForStatement i c q b, Statement.PrintStatement _, h => by
    simp [Statement.beq] at h
theorem Statement.eq_of_beqList :
    ∀ (as bs : List Statement), Statement.beqList as bs = true → as = bs
  | [], [], _ => rfl
  | [], _ :: _, h => by simp [Statement.beqList] at h
  | _ :: _, [], h => by simp [Statement.beqList] at h
  | a :: as, b :: bs, h => by
    simp only [Statement.beqList, Bool.and_eq_true] at h
    rw [Statement.eq_of_beq a b h.1, Statement.eq_of_beqList as bs h.2]
end

mutual
theorem Statement.beq_self : ∀ (a : Statement), Statement.beq a a = true
  | Statement.nil => by simp [Statement.beq]
  | Statement.nilPtr T => by simp [Statement.beq]
  | Statement.VarStatement n v => by simp [Statement.beq]
  | Statement.ArrayStatement n vs => by simp [Statement.beq]
  | Statement.PrintStatement v => by simp [Statement.beq]
  | Statement.IfStatement c a b => by
    simp [Statement.beq, Statement.beqList_self a, Statement.beqList_self b]
  | Statement.ForStatement i c q b => by
    simp [Statement.beq, Statement.beq_self i, Statement.beq_self q, Statement.beqList_self b]
theorem Statement.beqList_self : ∀ (as : List Statement), Statement.beqList as as = true
  | [] => rfl
  | a :: as => by simp [Statement.beqList, Statement.beq_self a, Statement.beqList_self as]
end

instance : DecidableEq Statement := fun a b =>
  if h : Statement.beq a b = true then isTrue (Statement.eq_of_beq a b h)
  else isFalse (fun e => h (e ▸ Statement.beq_self a))

instance : DecidableEq Program := fun a b =>
  if h : a.Statements = b.Statements then
    isTrue (by cases a; cases b; simp_all)
  else isFalse (fun e => h (e ▸ rfl))

/-- The `String()` methods of the expression nodes; `none` is the run-time panic
of calling a method through a nil interface. -/
def Expression.String (rt : GoRuntime) : Expression → Option String
  | Expression.nil => none
  | Expression.Identifier v => some v
  | Expression.NumberLiteral v => some (rt.FormatFloat v)
  | Expression.InfixExpression l op r =>
    match Expression.String rt l, Expression.String rt r with
    | some ls, some rs => some ("(" ++ ls ++ " " ++ op ++ " " ++ rs ++ ")")
    | _, _ => none
  | Expression.IndexExpression a i =>
    match Expression.String rt a, Expression.String rt i with
    | some as, some is => some (as ++ "[" ++ is ++ "]")
    | _, _ => none

/-! ## parser.go -/

/-- Parser builds the AST. -/
structure Parser where
  lexer : Lexer
  currentToken : Token
  peekToken : Token
  deriving DecidableEq, Repr

def Parser.nextToken (rt : GoRuntime) (p : Parser) : Parser :=
  { lexer := (p.lexer.NextToken rt).2, currentToken := p.peekToken,
    peekToken := (p.lexer.NextToken rt).1 }

/-- `NewParser`; both token fields start as the zero `Token`. -/
def NewParser (rt : GoRuntime) (l : Lexer) : Parser :=
  let p : Parser :=
    { lexer := l, currentToken := ⟨TokenType.ILLEGAL, ""⟩, peekToken := ⟨TokenType.ILLEGAL, ""⟩ }
  (p.nextToken rt).nextToken rt

def Parser.expectCurrent (p : Parser) (t : TokenType) : Bool :=
  decide (p.currentToken.Kind = t)

def Parser.expectPeek (rt : GoRuntime) (p : Parser) (t : TokenType) : Bool × Parser :=
  if p.peekToken.Kind = t then (true, p.nextToken rt) else (false, p)

def precedence (tokenType : TokenType) : Nat :=
  match tokenType with
  | TokenType.LSBREC => 4
  | TokenType.MULTIPLY | TokenType.DIVIDE => 3
  | TokenType.PLUS | TokenType.MINUS => 2
  | TokenType.GT | TokenType.LT | TokenType.EQ | TokenType.NOT_EQ | TokenType.GT_EQ
  | TokenType.LT_EQ => 1
  | _ => 0

def Parser.parsePrimary (rt : GoRuntime) (p : Parser) : Expression :=
  match p.currentToken.Kind with
  | TokenType.IDENT => Expression.Identifier p.currentToken.Literal
  | TokenType.NUMBER => Expression.NumberLiteral (rt.ParseFloat p.currentToken.Literal)
  | _ => Expression.nil

/-! The recursive rules take a step budget as first argument after the runtime:
every call and every loop iteration spends one unit, and `none` means the budget
ran out before the rule returned. -/

mutual
def parseExpression (rt : GoRuntime) : Nat → Parser → Option (Expression × Parser)
  | 0, _ => none
  | fuel + 1, p => parseExpressionWithPrecedence rt fuel p 0
def parseExpressionWithPrecedence (rt : GoRuntime) :
    Nat → Parser → Nat → Option (Expression × Parser)
  | 0, _, _ => none
  | fuel + 1, p, prec =>
    match p.parsePrimary rt with
    | Expression.nil => some (Expression.nil, p)
    | left => parseExpressionLoop rt fuel p prec left
/-- The `for` loop of `parseExpressionWithPrecedence`, entered with the current `left`. -/
def parseExpressionLoop (rt : GoRuntime) :
    Nat → Parser → Nat → Expression → Option (Expression × Parser)
  | 0, _, _, _ => none
  | fuel + 1, p, prec, left =>
    if p.peekToken.Kind ≠ TokenType.EOF ∧ p.peekToken.Kind ≠ TokenType.SEMICOLON ∧
        p.peekToken.Kind ≠ TokenType.RPAREN ∧ p.peekToken.Kind ≠ TokenType.RBRACE ∧
        prec < precedence p.peekToken.Kind then
      match p.peekToken.Kind with
      | TokenType.PLUS | TokenType.MINUS | TokenType.MULTIPLY | TokenType.DIVIDE
      | TokenType.GT | TokenType.LT | TokenType.EQ | TokenType.GT_EQ | TokenType.LT_EQ
      | TokenType.NOT_EQ =>
        match parseInfixExpression rt fuel (p.nextToken rt) left with
        | none => none
        | some (left1, p1) => parseExpressionLoop rt fuel p1 prec left1
      | TokenType.LSBREC =>
        match parseIndexExpression rt fuel (p.nextToken rt) left with
        | none => none
        | some (left1, p1) => parseExpressionLoop rt fuel p1 prec left1
      | _ => some (left, p)
    else some (left, p)
def parseInfixExpression (rt : GoRuntime) :
    Nat → Parser → Expression → Option (Expression × Parser)
  | 0, _, _ => none
  | fuel + 1, p, left =>
    match parseExpressionWithPrecedence rt fuel (p.nextToken rt)
        (precedence p.currentToken.Kind) with
    | none => none
    | some (right, p1) =>
      some (Expression.InfixExpression left p.currentToken.Literal right, p1)
def parseIndexExpression (rt : GoRuntime) :
    Nat → Parser → Expression → Option (Expression × Parser)
  | 0, _, _ => none
  | fuel + 1, p, left =>
    match parseExpression rt fuel (p.nextToken rt) with
    | none => none
    | some (index, p1) =>
      match p1.expectPeek rt TokenType.RSBREC with
      | (false, p2) => some (Expression.nil, p2)
      | (true, p2) => some (Expression.IndexExpression left index, p2)
end

def parseVarStatement (rt : GoRuntime) (fuel : Nat) (p : Parser) : Option (Statement × Parser) :=
  match p.expectPeek rt TokenType.IDENT with
  | (false, p1) => some (Statement.nilPtr StatementType.VarStatement, p1)
  | (true, p1) =>
    match p1.expectPeek rt TokenType.ASSIGN with
    | (false, p2) => some (Statement.nilPtr StatementType.VarStatement, p2)
    | (true, p2) =>
      match parseExpression rt fuel (p2.nextToken rt) with
      | none => none
      | some (value, p3) => some (Statement.VarStatement p1.currentToken.Literal value, p3)

/-- The loop of `parseArray` over the remaining, comma-separated elements. -/
def parseArrayLoop (rt : GoRuntime) :
    Nat → Parser → List Expression → Option (List Expression × Parser)
  | 0, _, _ => none
  | fuel + 1, p, values =>
    if p.peekToken.Kind = TokenType.COMMA then
      match parseExpression rt fuel ((p.nextToken rt).nextToken rt) with
      | none => none
      | some (value, p1) => parseArrayLoop rt fuel p1 (values ++ [value])
    else some (values, p)

def parseArray (rt : GoRuntime) (fuel : Nat) (p : Parser) : Option (Statement × Parser) :=
  match p.expectPeek rt TokenType.IDENT with
  | (false, p1) => some (Statement.nilPtr StatementType.ArrayStatement, p1)
  | (true, p1) =>
    match p1.expectPeek rt TokenType.ASSIGN with
    | (false, p2) => some (Statement.nilPtr StatementType.ArrayStatement, p2)
    | (true, p2) =>
      match p2.expectPeek rt TokenType.LSBREC with
      | (false, p3) => some (Statement.nilPtr StatementType.ArrayStatement, p3)
      | (true, p3) =>
        let elements : Option (List Expression × Parser) :=
          if p3.peekToken.Kind ≠ TokenType.RSBREC then
            match parseExpression rt fuel (p3.nextToken rt) with
            | none => none
            | some (value, p4) => parseArrayLoop rt fuel p4 [value]
          else some ([], p3)
        match elements with
        | none => none
        | some (values, p5) =>
          match p5.expectPeek rt TokenType.RSBREC with
          | (false, p6) => some (Statement.nilPtr StatementType.ArrayStatement, p6)
          | (true, p6) => some (Statement.ArrayStatement p1.currentToken.Literal values, p6)

def parsePrintStatement (rt : GoRuntime) (fuel : Nat) (p : Parser) :
    Option (Statement × Parser) :=
  match p.expectPeek rt TokenType.LPAREN with
  | (false, p1) => some (Statement.nilPtr StatementType.PrintStatement, p1)
  | (true, p1) =>
    match parseExpression rt fuel (p1.nextToken rt) with
    | none => none
    | some (value, p2) =>
      match p2.expectPeek rt TokenType.RPAREN with
      | (false, p3) => some (Statement.nilPtr StatementType.PrintStatement, p3)
      | (true, p3) => some (Statement.PrintStatement value, p3)

/-- The assignment `identifier = expression` that `parseForStatement` reads for
its init and for its post part, entered on the first token of the part.  The
inner `none` is the `return nil` of `parseForStatement`. -/
def parseForAssign (rt : GoRuntime) (fuel : Nat) (p : Parser) :
    Option (Option Statement × Parser) :=
  if p.currentToken.Kind = TokenType.IDENT then
    match p.expectPeek rt TokenType.ASSIGN with
    | (false, p1) => some (none, p1)
    | (true, p1) =>
      match parseExpression rt fuel (p1.nextToken rt) with
      | none => none
      | some (value, p2) =>
        some (some (Statement.VarStatement p.currentToken.Literal value), p2)
  else some (none, p)

/-- The init section of `parseForStatement` (lines 160-184), entered on the token
after `(`. -/
def parseForInit (rt : GoRuntime) (fuel : Nat) (p : Parser) :
    Option (Option Statement × Parser) :=
  if p.currentToken.Kind ≠ TokenType.SEMICOLON then
    match parseForAssign rt fuel p with
    | none => none
    | some (none, p1) => some (none, p1)
    | some (some init, p1) =>
      match p1.expectPeek rt TokenType.SEMICOLON with
      | (false, p2) => some (none, p2)
      | (true, p2) => some (some init, p2)
  else some (some Statement.nil, p.nextToken rt)

/-- The condition section of `parseForStatement` (lines 186-192). -/
def parseForCondition (rt : GoRuntime) (fuel : Nat) (p : Parser) :
    Option (Option Expression × Parser) :=
  let condition : Option (Expression × Parser) :=
    if p.currentToken.Kind ≠ TokenType.SEMICOLON then parseExpression rt fuel p
    else some (Expression.nil, p)
  match condition with
  | none => none
  | some (cond, p1) =>
    match p1.expectPeek rt TokenType.SEMICOLON with
    | (false, p2) => some (none, p2)
    | (true, p2) => some (some cond, p2)

/-- The post section of `parseForStatement` and the two tokens `)`, `{` after it
(lines 194-222). -/
def parseForPost (rt : GoRuntime) (fuel : Nat) (p : Parser) :
    Option (Option Statement × Parser) :=
  let post : Option (Option Statement × Parser) :=
    if p.peekToken.Kind ≠ TokenType.RPAREN then parseForAssign rt fuel (p.nextToken rt)
    else some (some Statement.nil, p)
  match post with
  | none => none
  | some (none, p1) => some (none, p1)
  | some (some st, p1) =>
    match p1.expectPeek rt TokenType.RPAREN with
    | (false, p2) => some (none, p2)
    | (true, p2) =>
      match p2.expectPeek rt TokenType.LBRACE with
      | (false, p3) => some (none, p3)
      | (true, p3) => some (some st, p3)

/-- The header of a for statement, from `for` up to and including `{`: the init,
condition and post fields, or `none` where `parseForStatement` returns nil. -/
def parseForHeader (rt : GoRuntime) (fuel : Nat) (p : Parser) :
    Option (Option (Statement × Expression × Statement) × Parser) :=
  match p.expectPeek rt TokenType.LPAREN with
  | (false, p1) => some (none, p1)
  | (true, p1) =>
    match parseForInit rt fuel (p1.nextToken rt) with
    | none => none
    | some (none, p2) => some (none, p2)
    | some (some init, p2) =>
      match parseForCondition rt fuel p2 with
      | none => none
      | some (none, p3) => some (none, p3)
      | some (some cond, p3) =>
        match parseForPost rt fuel p3 with
        | none => none
        | some (none, p4) => some (none, p4)
        | some (some post, p4) => some (some (init, cond, post), p4)

/-- `append(statements, stmt)` guarded by `stmt != nil`: only the nil interface is
left out. -/
def appendStatement (statements : List Statement) (stmt : Statement) : List Statement :=
  match stmt with
  | Statement.nil => statements
  | _ => statements ++ [stmt]

mutual
def parseStatement (rt : GoRuntime) : Nat → Parser → Option (Statement × Parser)
  | 0, _ => none
  | fuel + 1, p =>
    match p.currentToken.Kind with
    | TokenType.VAR => parseVarStatement rt fuel p
    | TokenType.ARRAY => parseArray rt fuel p
    | TokenType.FOR => parseForStatement rt fuel p
    | TokenType.IF => parseIfStatement rt fuel p
    | TokenType.PRINT => parsePrintStatement rt fuel p
    | _ => some (Statement.nil, p)
def parseForStatement (rt : GoRuntime) : Nat → Parser → Option (Statement × Parser)
  | 0, _ => none
  | fuel + 1, p =>
    match parseForHeader rt fuel p with
    | none => none
    | some (none, p1) => some (Statement.nilPtr StatementType.ForStatement, p1)
    | some (some (init, cond, post), p1) =>
      match parseBlockStatement rt fuel (p1.nextToken rt) [] with
      | none => none
      | some (body, p2) => some (Statement.ForStatement init cond post body, p2)
def parseIfStatement (rt : GoRuntime) : Nat → Parser → Option (Statement × Parser)
  | 0, _ => none
  | fuel + 1, p =>
    match parseExpression rt fuel (p.nextToken rt) with
    | none => none
    | some (cond, p1) =>
      match p1.expectPeek rt TokenType.LBRACE with
      | (false, p2) => some (Statement.nilPtr StatementType.IfStatement, p2)
      | (true, p2) =>
        match parseBlockStatement rt fuel (p2.nextToken rt) [] with
        | none => none
        | some (cons, p3) =>
          if p3.peekToken.Kind = TokenType.ELSE then
            match (p3.nextToken rt).expectPeek rt TokenType.LBRACE with
            | (false, p4) => some (Statement.nilPtr StatementType.IfStatement, p4)
            | (true, p4) =>
              match parseBlockStatement rt fuel (p4.nextToken rt) [] with
              | none => none
              | some (alt, p5) => some (Statement.IfStatement cond cons alt, p5)
          else some (Statement.IfStatement cond cons [], p3)
/-- `parseBlockStatement`; the last argument is the slice `statements` built so
far (empty on entry). -/
def parseBlockStatement (rt : GoRuntime) :
    Nat → Parser → List Statement → Option (List Statement × Parser)
  | 0, _, _ => none
  | fuel + 1, p, statements =>
    if p.currentToken.Kind ≠ TokenType.RBRACE ∧ p.currentToken.Kind ≠ TokenType.EOF then
      match parseStatement rt fuel p with
      | none => none
      | some (stmt, p1) =>
        parseBlockStatement rt fuel (p1.nextToken rt) (appendStatement statements stmt)
    else some (statements, p)
end

/-- The loop of `ParseProgram`; the last argument is `program.Statements` so far. -/
def parseProgramLoop (rt : GoRuntime) :
    Nat → Parser → List Statement → Option (List Statement × Parser)
  | 0, _, _ => none
  | fuel + 1, p, statements =>
    if p.currentToken.Kind ≠ TokenType.EOF then
      match parseStatement rt fuel p with
      | none => none
      | some (stmt, p1) =>
        parseProgramLoop rt fuel (p1.nextToken rt) (appendStatement statements stmt)
    else some (statements, p)

def ParseProgram (rt : GoRuntime) (fuel : Nat) (p : Parser) : Option Program :=
  match parseProgramLoop rt fuel p [] with
  | none => none
  | some (statements, _) => some { Statements := statements }

/-- Lexing and parsing a whole source text, as `main` and `runDiagnostics` do:
`NewLexer`, `NewParser`, `ParseProgram`. -/
def parseSource (rt : GoRuntime) (fuel : Nat) (source : List Char) : Option Program :=
  ParseProgram rt fuel (NewParser rt (NewLexer rt source))

/-! ## lsp.go -/

/-- One entry of the diagnostics list of `runDiagnostics`: the range (start and
end line and character), the severity and the message. -/
structure Diagnostic where
  startLine : Nat
  startCharacter : Nat
  endLine : Nat
  endCharacter : Nat
  severity : Nat
  message : String
  deriving DecidableEq, Repr

/-- `runDiagnostics`: one syntax error at the start of the document when the
parsed program has no statements, no diagnostic otherwise (`ParseProgram` never
returns a nil program). -/
def runDiagnostics (rt : GoRuntime) (fuel : Nat) (source : List Char) :
    Option (List Diagnostic) :=
  match parseSource rt fuel source with
  | none => none
  | some prog =>
    if prog.Statements.length = 0 then
      some [⟨0, 0, 0, 1, 1, "Syntax error"⟩]
    else some []

/-! ## codegen.go -/

/-- The generator state: `vars` is the Go map `variables` (a reserved word here), a
missing key reading `false`. -/
structure CodeGen where
  vars : String → Bool

def NewCodeGen : CodeGen := { vars := fun _ => false }

/-- The assignment `cg.variables[name] = true`. -/
def CodeGen.declare (cg : CodeGen) (name : String) : CodeGen :=
  { vars := fun n => if n = name then true else cg.vars n }

def generateExpression (rt : GoRuntime) : Expression → String
  | Expression.Identifier v => v
  | Expression.NumberLiteral v => rt.FormatFloat v
  | Expression.InfixExpression l op r =>
    "(" ++ generateExpression rt l ++ " " ++ op ++ " " ++ generateExpression rt r ++ ")"
  | Expression.IndexExpression a i =>
    generateExpression rt a ++ "[" ++ generateExpression rt i ++ "]"
  | Expression.nil => ""

/-- `strings.Split(s, ":=")`: the pieces of `s` between the successive,
non-overlapping occurrences of `:=`, found from the left. -/
def stringsSplit : List Char → List (List Char)
  | [] => [[]]
  | [c] => [[c]]
  | c :: d :: rest =>
    if c = ':' ∧ d = '=' then [] :: stringsSplit rest
    else
      match stringsSplit (d :: rest) with
      | part :: parts => (c :: part) :: parts
      | [] => [[c]]

/-- The rewrite that the `ForStatement` case applies to the generated text of
its init or post statement `stmt`, with `cg` the generator state after that text
was generated: for a `*VarStatement` whose name is marked declared, a text with
exactly one `:=` has it replaced by `= `.  `none` is the nil dereference
`varStmt.Name`. -/
def forPartText (cg : CodeGen) (stmt : Statement) (text : String) : Option String :=
  match stmt with
  | Statement.VarStatement varName _ =>
    if cg.vars varName then
      match stringsSplit text.data with
      | [part0, part1] => some (String.mk part0 ++ "= " ++ String.mk part1)
      | _ => some text
    else some text
  | Statement.nilPtr StatementType.VarStatement => none
  | _ => some text

/-- One element of an array literal: `nil` for a nil expression. -/
def generateValue (rt : GoRuntime) (v : Expression) : String :=
  match v with
  | Expression.nil => "nil"
  | _ => generateExpression rt v

/-- The loop over `s.Values` of the `ArrayStatement` case, from index `i` on. -/
def generateValues (rt : GoRuntime) : Nat → List Expression → String
  | _, [] => ""
  | i, v :: vs =>
    (if i ≠ 0 then ", " else "") ++ generateValue rt v ++ generateValues rt (i + 1) vs

mutual
/-- `generateStatement`: the generated text and the generator afterwards; `none`
is a run-time panic (a field read through a nil pointer). -/
def generateStatement (rt : GoRuntime) (cg : CodeGen) : Statement → Option (String × CodeGen)
  | Statement.VarStatement varName value =>
    if cg.vars varName then
      some (varName ++ " = " ++ generateExpression rt value, cg)
    else
      some (varName ++ " := " ++ generateExpression rt value, cg.declare varName)
  | Statement.ForStatement init cond post body =>
    let initPart : Option (String × CodeGen) :=
      match init with
      | Statement.nil => some ("", cg)
      | _ =>
        match generateStatement rt cg init with
        | none => none
        | some (initStmt, cg1) =>
          match forPartText cg1 init initStmt with
          | none => none
          | some text => some (text, cg1)
    match initPart with
    | none => none
    | some (initStmt, cg1) =>
      let postPart : Option (String × CodeGen) :=
        match post with
        | Statement.nil => some ("", cg1)
        | _ =>
          match generateStatement rt cg1 post with
          | none => none
          | some (postStmt, cg2) =>
            match forPartText cg2 post postStmt with
            | none => none
            | some text => some (text, cg2)
      match postPart with
      | none => none
      | some (postStmt, cg2) =>
        match generateStatements rt "\t" cg2 body with
        | none => none
        | some (bodyText, cg3) =>
          some ("for " ++ initStmt ++ "; " ++ generateExpression rt cond ++ "; " ++ postStmt
            ++ " \x7b\n" ++ bodyText ++ "\x7d", cg3)
  | Statement.ArrayStatement arrName values =>
    if cg.vars arrName then
      some (arrName ++ " = []interface\x7b\x7d\x7b" ++ generateValues rt 0 values ++ "\x7d", cg)
    else
      some (arrName ++ " := []interface\x7b\x7d\x7b" ++ generateValues rt 0 values ++ "\x7d",
        cg.declare arrName)
  | Statement.IfStatement cond cons alt =>
    match generateStatements rt "\t\t" cg cons with
    | none => none
    | some (consText, cg1) =>
      match alt with
      | [] => some ("if " ++ generateExpression rt cond ++ " \x7b\n" ++ consText ++ "\t\x7d", cg1)
      | _ :: _ =>
        match generateStatements rt "\t\t" cg1 alt with
        | none => none
        | some (altText, cg2) =>
          some ("if " ++ generateExpression rt cond ++ " \x7b\n" ++ consText
            ++ "\t\x7d else \x7b\n" ++ altText ++ "\t\x7d", cg2)
  | Statement.PrintStatement value =>
    some ("fmt.Println(" ++ generateExpression rt value ++ ")", cg)
  | Statement.nilPtr _ => none
  | Statement.nil => some ("", cg)
/-- The loops `for _, stmt := range ...` that write `indent + generateStatement(stmt) + "\n"`
for each statement in order. -/
def generateStatements (rt : GoRuntime) (indent : String) (cg : CodeGen) :
    List Statement → Option (String × CodeGen)
  | [] => some ("", cg)
  | stmt :: rest =>
    match generateStatement rt cg stmt with
    | none => none
    | some (text, cg1) =>
      match generateStatements rt indent cg1 rest with
      | none => none
      | some (texts, cg2) => some (indent ++ text ++ "\n" ++ texts, cg2)
end

def Generate (rt : GoRuntime) (cg : CodeGen) (program : Program) : Option (String × CodeGen) :=
  match generateStatements rt "\t" cg program.Statements with
  | none => none
  | some (body, cg1) =>
    some ("package main\n\n" ++ "import \"fmt\"\n\n" ++ "func main() \x7b\n" ++ body ++ "\x7d\n", cg1)

/-! ## Auxiliary definitions used to state the properties -/

/-- A runtime instance on which the model can be run on concrete ASCII sources:
no rune outside ASCII is a letter or digit, and the float conversions are exact
on plain decimal integer literals only (`FormatFloat (ParseFloat s) = s`). -/
def sampleRuntime : GoRuntime :=
  { IsLetter := fun _ => false
    IsDigit := fun _ => false
    ParseFloat := fun s => ⟨s.data.foldl (fun n c => 10 * n + (c.toNat - 48)) 0⟩
    FormatFloat := fun v => String.mk (Nat.toDigits 10 v.bits) }

/-- The parser after `n` calls of `nextToken`. -/
def Parser.skip (rt : GoRuntime) : Nat → Parser → Parser
  | 0, p => p
  | n + 1, p => Parser.skip rt n (p.nextToken rt)

/-- The token kinds `parsePrimary` accepts. -/
def isPrimary (k : TokenType) : Prop := k = TokenType.IDENT ∨ k = TokenType.NUMBER

instance (k : TokenType) : Decidable (isPrimary k) := by
  unfold isPrimary; infer_instance

/-- A var binding or array binding node. -/
def Statement.isBinding : Statement → Bool
  | Statement.VarStatement _ _ => true
  | Statement.ArrayStatement _ _ => true
  | _ => false

/-- The name a var binding or array binding binds. -/
def Statement.boundName : Statement → Option String
  | Statement.VarStatement name _ => some name
  | Statement.ArrayStatement name _ => some name
  | _ => none

/-- The declare form of a binding: `name := ...`. -/
def declareForm (rt : GoRuntime) : Statement → String
  | Statement.VarStatement name value => name ++ " := " ++ generateExpression rt value
  | Statement.ArrayStatement name values =>
    name ++ " := []interface\x7b\x7d\x7b" ++ generateValues rt 0 values ++ "\x7d"
  | _ => ""

/-- The plain assign form of a binding: `name = ...`. -/
def assignForm (rt : GoRuntime) : Statement → String
  | Statement.VarStatement name value => name ++ " = " ++ generateExpression rt value
  | Statement.ArrayStatement name values =>
    name ++ " = []interface\x7b\x7d\x7b" ++ generateValues rt 0 values ++ "\x7d"
  | _ => ""

/-- The texts `generateStatement` returns for the statements of a list, one after
the other on the same generator. -/
def generateEach (rt : GoRuntime) (cg : CodeGen) : List Statement → Option (List String × CodeGen)
  | [] => some ([], cg)
  | stmt :: rest =>
    match generateStatement rt cg stmt with
    | none => none
    | some (text, cg1) =>
      match generateEach rt cg1 rest with
      | none => none
      | some (texts, cg2) => some (text :: texts, cg2)

/-- The lines written by a statement loop: each text between `indent` and a newline. -/
def writeLines (indent : String) : List String → String
  | [] => ""
  | text :: texts => indent ++ text ++ "\n" ++ writeLines indent texts

/-- The fixed program template of `Generate` around a body. -/
def programTemplate (body : String) : String :=
  "package main\n\n" ++ "import \"fmt\"\n\n" ++ "func main() \x7b\n" ++ body ++ "\x7d\n"

/-- Unread source that is empty or starts with a whitespace rune. -/
def startsWithSpace (t : List Char) : Prop := ∀ c, t.head? = some c → isWhitespace c = true

/-- The lexer `l` with the text `t` appended to its unread source. -/
def Lexer.extend (l : Lexer) (t : List Char) : Lexer := { l with scanner := l.scanner ++ t }

/-- A bound on the number of tokens a lexer still returns before end of input. -/
def Lexer.bound (l : Lexer) : Nat :=
  if l.token = ScanTok.EOF then 0 else l.scanner.length + 1

mutual
/-- No nil pointer stands for a statement node, at any depth. -/
def Statement.wellFormed : Statement → Bool
  | Statement.nilPtr _ => false
  | Statement.IfStatement _ cons alt =>
    Statement.wellFormedList cons && Statement.wellFormedList alt
  | Statement.ForStatement init _ post body =>
    Statement.wellFormed init && Statement.wellFormed post && Statement.wellFormedList body
  | _ => true
/-- `wellFormed` for every statement of a list. -/
def Statement.wellFormedList : List Statement → Bool
  | [] => true
  | stmt :: rest => Statement.wellFormed stmt && Statement.wellFormedList rest
end

mutual
/-- The statement is, or contains at some depth (in a block of a conditional, or
in the init, post or body of a loop), a var or array binding of the name `n`. -/
def Statement.binds (n : String) : Statement → Bool
  | Statement.VarStatement name _ => decide (name = n)
  | Statement.ArrayStatement name _ => decide (name = n)
  | Statement.IfStatement _ cons alt => Statement.bindsList n cons || Statement.bindsList n alt
  | Statement.ForStatement init _ post body =>
    Statement.binds n init || Statement.binds n post || Statement.bindsList n body
  | _ => false
/-- `binds` for some statement of a list. -/
def Statement.bindsList (n : String) : List Statement → Bool
  | [] => false
  | stmt :: rest => Statement.binds n stmt || Statement.bindsList n rest
end

/-- The init or post part of the `ForStatement` case of `generateStatement`:
nothing for an absent part, else the generated text after the rewrite of
`forPartText`. -/
def generateForPart (rt : GoRuntime) (cg : CodeGen) (stmt : Statement) :
    Option (String × CodeGen) :=
  match stmt with
  | Statement.nil => some ("", cg)
  | _ =>
    match generateStatement rt cg stmt with
    | none => none
    | some (text, cg1) =>
      match forPartText cg1 stmt text with
      | none => none
      | some text1 => some (text1, cg1)

/-- The runes with a case of their own in the switch of `NextToken`. -/
def operatorRunes : List Char :=
  ['+', '-', '*', '/', '=', '(', ')', '{', '[', ']', ';', ',', '}', '>', '<']

/-- A rune `ch`, followed by `rest`, that starts no identifier, no number, no
operator and no delimiter, and is not whitespace: not an identifier rune, not a
decimal digit, not a `.` before a decimal digit, and without a case in the switch
of `NextToken`. -/
def isIllegalRune (rt : GoRuntime) (ch : Char) (rest : List Char) : Bool :=
  !isWhitespace ch && !isIdentRune rt ch 0 && !isDecimal ch &&
    !(decide (ch = '.') && (match rest with
      | d :: _ => isDecimal d
      | [] => false)) &&
    !operatorRunes.contains ch

/-- The input a lexer still holds: the unread runes, and one more for a scanned
token that is not the end of input. -/
def Lexer.size (l : Lexer) : Nat :=
  l.scanner.length + (if l.token = ScanTok.EOF then 0 else 1)

/-- The input still ahead of a parser's current token: the peek token unless it
is the end of input, and what its lexer holds. -/
def Parser.size (p : Parser) : Nat :=
  (if p.peekToken.Kind = TokenType.EOF then 0 else 1) + p.lexer.size

/-- The token kinds with a case in the switch of `parseStatement`: the five
statement keywords `lazy`, `lazyArray`, `for`, `if` and `lazyPrint`. -/
def isStatementKeyword (k : TokenType) : Bool :=
  match k with
  | TokenType.VAR | TokenType.ARRAY | TokenType.FOR | TokenType.IF | TokenType.PRINT => true
  | _ => false

/-- A rune that no token, once begun, takes in: no identifier rune at a later
position, no decimal digit, and none of `.`, `+`, `-`, `=`. -/
def isStopRune (rt : GoRuntime) (c : Char) : Bool :=
  !isIdentRune rt c 1 && !isDecimal c && !(c == '.') && !(c == '+') && !(c == '-') &&
    !(c == '=')

/-- Unread source that is empty or starts with a rune no begun token takes in. -/
def startsWithStop (rt : GoRuntime) (t : List Char) : Prop :=
  ∀ c, t.head? = some c → isStopRune rt c = true

/-- The binary operator kinds `+ - * / > < == >= <=`. -/
def isBinaryOperator (k : TokenType) : Bool :=
  match k with
  | TokenType.PLUS | TokenType.MINUS | TokenType.MULTIPLY | TokenType.DIVIDE
  | TokenType.GT | TokenType.LT | TokenType.EQ | TokenType.GT_EQ | TokenType.LT_EQ => true
  | _ => false

/-- The parser stands on a flat expression with `n` operators: its current token
is an identifier, followed `n` times by a binary operator and an identifier, and
then by `;` or the end of input. -/
def flatExpr (rt : GoRuntime) : Nat → Parser → Bool
  | 0, p =>
    decide (p.currentToken.Kind = TokenType.IDENT) &&
      (decide (p.peekToken.Kind = TokenType.SEMICOLON) ||
        decide (p.peekToken.Kind = TokenType.EOF))
  | n + 1, p =>
    decide (p.currentToken.Kind = TokenType.IDENT) && isBinaryOperator p.peekToken.Kind &&
      flatExpr rt n (p.skip rt 2)

/-- The texts of the `n` operators and operands after the current token. -/
def flatTail (rt : GoRuntime) : Nat → Parser → List String
  | 0, _ => []
  | n + 1, p =>
    p.peekToken.Literal :: (p.skip rt 2).currentToken.Literal :: flatTail rt n (p.skip rt 2)

/-- The texts of the tokens of a flat expression with `n` operators, from the
current token on: `x0, op1, x1, ..., opn, xn`. -/
def flatTokens (rt : GoRuntime) (n : Nat) (p : Parser) : List String :=
  p.currentToken.Literal :: flatTail rt n p

/-- The in-order traversal of an expression tree: the texts of its leaves and
operators from left to right. -/
def inorder (rt : GoRuntime) : Expression → List String
  | Expression.nil => []
  | Expression.Identifier v => [v]
  | Expression.NumberLiteral v => [rt.FormatFloat v]
  | Expression.InfixExpression l op r =>
    inorder rt l ++ op :: inorder rt r
  | Expression.IndexExpression a i =>
    inorder rt a ++ "[" :: (inorder rt i ++ ["]"])

/-- The number of `InfixExpression` nodes of an expression tree. -/
def infixCount : Expression → Nat
  | Expression.InfixExpression l _ r => infixCount l + 1 + infixCount r
  | Expression.IndexExpression a i => infixCount a + infixCount i
  | _ => 0

/-- The text without its parentheses. -/
def dropParens (s : String) : String :=
  String.mk (s.data.filter (fun c => !(c == '(' || c == ')')))

/-- The texts joined by single spaces. -/
def joinSpaces : List String → String
  | [] => ""
  | [t] => t
  | t :: ts => t ++ " " ++ joinSpaces ts

/-- A tree of identifiers and numbers joined by `InfixExpression` nodes only. -/
def isInfixTree : Expression → Bool
  | Expression.Identifier _ => true
  | Expression.NumberLiteral _ => true
  | Expression.InfixExpression l _ r => isInfixTree l && isInfixTree r
  | _ => false

/-! # Theorems -/

/-! ## Expression parsing -/

theorem nextToken_currentToken (rt : GoRuntime) (p : Parser) :
    (p.nextToken rt).currentToken = p.peekToken := rfl

theorem parseExpressionLoop_stop (rt : GoRuntime) (fuel : Nat) (p : Parser) (prec : Nat)
    (left : Expression) (h : precedence p.peekToken.Kind ≤ prec) :
    parseExpressionLoop rt (fuel + 1) p prec left = some (left, p) := by
  simp [parseExpressionLoop, Nat.not_lt.mpr h]

theorem parseExpressionLoop_operator (rt : GoRuntime) (fuel : Nat) (p : Parser) (prec : Nat)
    (left : Expression) (h1 : prec < precedence p.peekToken.Kind)
    (h2 : precedence p.peekToken.Kind ≤ 3) :
    parseExpressionLoop rt (fuel + 1) p prec left =
      match parseInfixExpression rt fuel (p.nextToken rt) left with
      | none => none
      | some (left1, p1) => parseExpressionLoop rt fuel p1 prec left1 := by
  rw [parseExpressionLoop]
  generalize p.peekToken.Kind = k at h1 h2
  cases k <;> simp [precedence] at h1 h2 ⊢ <;> simp [h1]

theorem parseExpressionWithPrecedence_primary (rt : GoRuntime) (fuel : Nat) (p : Parser)
    (prec : Nat) (h : isPrimary p.currentToken.Kind) :
    parseExpressionWithPrecedence rt (fuel + 1) p prec =
      parseExpressionLoop rt fuel p prec (p.parsePrimary rt) := by
  rw [parseExpressionWithPrecedence]
  rcases h with h | h <;> simp [Parser.parsePrimary, h]

/-- The right operand of an infix expression that is a single primary: the next
operator does not bind tighter than the floor `prec`. -/
theorem parseExpressionWithPrecedence_single (rt : GoRuntime) (fuel : Nat) (p : Parser)
    (prec : Nat) (h : isPrimary p.currentToken.Kind) (hp : precedence p.peekToken.Kind ≤ prec) :
    parseExpressionWithPrecedence rt (fuel + 2) p prec = some (p.parsePrimary rt, p) := by
  rw [parseExpressionWithPrecedence_primary rt (fuel + 1) p prec h,
    parseExpressionLoop_stop rt fuel p prec _ hp]

/-- C1. Precedence law: on `a op1 b op2 c` (primaries `a`, `b`, `c`; binary
operators with `op2` binding strictly tighter than `op1`; no operator or `[`
following `c`) `parseExpression` returns `Infix(a, op1, Infix(b, op2, c))` and
stops on `c`; in particular the source `2 + 3 * 4` parses to the tree whose
`String()` is `(2 + (3 * 4))`. -/
theorem precedence_law (rt : GoRuntime) (fuel : Nat) :
    (∀ p : Parser,
      isPrimary p.currentToken.Kind →
      isPrimary (p.skip rt 2).currentToken.Kind →
      isPrimary (p.skip rt 4).currentToken.Kind →
      0 < precedence p.peekToken.Kind →
      precedence p.peekToken.Kind < precedence (p.skip rt 2).peekToken.Kind →
      precedence (p.skip rt 2).peekToken.Kind ≤ 3 →
      precedence (p.skip rt 4).peekToken.Kind = 0 →
      parseExpression rt (fuel + 9) p =
        some (Expression.InfixExpression (p.parsePrimary rt) p.peekToken.Literal
          (Expression.InfixExpression ((p.skip rt 2).parsePrimary rt)
            (p.skip rt 2).peekToken.Literal ((p.skip rt 4).parsePrimary rt)),
          p.skip rt 4)) ∧
    (rt.FormatFloat (rt.ParseFloat "2") = "2" →
      rt.FormatFloat (rt.ParseFloat "3") = "3" →
      rt.FormatFloat (rt.ParseFloat "4") = "4" →
      (parseExpression rt (fuel + 9)
          (NewParser rt (NewLexer rt (String.toList "2 + 3 * 4")))).bind
        (fun r => r.1.String rt) = some "(2 + (3 * 4))") := by
  constructor
  · intro p ha hb hc h1 h12 h2 hend
    have h1' : precedence p.peekToken.Kind ≤ 3 := by omega
    simp only [Parser.skip] at hb hc h12 h2 hend ⊢
    rw [parseExpression, parseExpressionWithPrecedence_primary rt _ p 0 ha,
      parseExpressionLoop_operator rt _ p 0 _ h1 h1', parseInfixExpression,
      parseExpressionWithPrecedence_primary rt _ _ _ hb]
    simp only [nextToken_currentToken]
    rw [parseExpressionLoop_operator rt _ _ _ _ h12 h2, parseInfixExpression,
      parseExpressionWithPrecedence_single rt _ _ _ hc (by omega)]
    simp only [nextToken_currentToken]
    rw [parseExpressionLoop_stop rt _ _ _ _ (by omega)]
    simp only []
    rw [parseExpressionLoop_stop rt _ _ _ _ (by omega)]
  · intro e2 e3 e4
    have h : (parseExpression rt (fuel + 9)
          (NewParser rt (NewLexer rt (String.toList "2 + 3 * 4")))).bind
        (fun r => r.1.String rt) = some ("(" ++ rt.FormatFloat (rt.ParseFloat "2") ++ " " ++ "+"
          ++ " " ++ ("(" ++ rt.FormatFloat (rt.ParseFloat "3") ++ " " ++ "*" ++ " "
          ++ rt.FormatFloat (rt.ParseFloat "4") ++ ")") ++ ")") := rfl
    rw [h, e2, e3, e4]
    rfl

theorem precedence_law_witness :
    parseExpression sampleRuntime 9
        (NewParser sampleRuntime (NewLexer sampleRuntime (String.toList "a < b - c ;"))) =
      some (Expression.InfixExpression (Expression.Identifier "a") "<"
          (Expression.InfixExpression (Expression.Identifier "b") "-" (Expression.Identifier "c")),
        Parser.skip sampleRuntime 4
          (NewParser sampleRuntime (NewLexer sampleRuntime (String.toList "a < b - c ;")))) ∧
    (parseExpression sampleRuntime 9
        (NewParser sampleRuntime (NewLexer sampleRuntime (String.toList "2 + 3 * 4")))).bind
      (fun r => r.1.String sampleRuntime) = some "(2 + (3 * 4))" :=
  ⟨(precedence_law sampleRuntime 0).1
      (NewParser sampleRuntime (NewLexer sampleRuntime (String.toList "a < b - c ;")))
      (by decide) (by decide) (by decide) (by decide) (by decide) (by decide) (by decide),
    (precedence_law sampleRuntime 0).2 (by decide) (by decide) (by decide)⟩

/-- C2. Left associativity: on `a op1 b op2 c` (primaries `a`, `b`, `c`; binary
operators of equal precedence; no operator or `[` following `c`)
`parseExpression` returns `Infix(Infix(a, op1, b), op2, c)` and stops on `c`. -/
theorem left_associativity (rt : GoRuntime) (fuel : Nat) (p : Parser)
    (ha : isPrimary p.currentToken.Kind)
    (hb : isPrimary (p.skip rt 2).currentToken.Kind)
    (hc : isPrimary (p.skip rt 4).currentToken.Kind)
    (h1 : 0 < precedence p.peekToken.Kind)
    (h12 : precedence p.peekToken.Kind = precedence (p.skip rt 2).peekToken.Kind)
    (h2 : precedence (p.skip rt 2).peekToken.Kind ≤ 3)
    (hend : precedence (p.skip rt 4).peekToken.Kind = 0) :
    parseExpression rt (fuel + 9) p =
      some (Expression.InfixExpression
          (Expression.InfixExpression (p.parsePrimary rt) p.peekToken.Literal
            ((p.skip rt 2).parsePrimary rt))
          (p.skip rt 2).peekToken.Literal ((p.skip rt 4).parsePrimary rt),
        p.skip rt 4) := by
  have h1' : precedence p.peekToken.Kind ≤ 3 := by omega
  have h2' : 0 < precedence (p.skip rt 2).peekToken.Kind := by omega
  simp only [Parser.skip] at hb hc h12 h2 h2' hend ⊢
  rw [parseExpression, parseExpressionWithPrecedence_primary rt _ p 0 ha,
    parseExpressionLoop_operator rt _ p 0 _ h1 h1', parseInfixExpression,
    parseExpressionWithPrecedence_single rt _ _ _ hb
      (by rw [nextToken_currentToken]; omega)]
  simp only [nextToken_currentToken]
  rw [parseExpressionLoop_operator rt _ _ 0 _ h2' h2, parseInfixExpression,
    parseExpressionWithPrecedence_single rt _ _ _ hc (by omega)]
  simp only [nextToken_currentToken]
  exact parseExpressionLoop_stop rt _ _ _ _ (by omega)

theorem left_associativity_witness :
    parseExpression sampleRuntime 9
        (NewParser sampleRuntime (NewLexer sampleRuntime (String.toList "8 - 3 - 2"))) =
      some (Expression.InfixExpression
          (Expression.InfixExpression (Expression.NumberLiteral ⟨8⟩) "-"
            (Expression.NumberLiteral ⟨3⟩)) "-" (Expression.NumberLiteral ⟨2⟩),
        Parser.skip sampleRuntime 4
          (NewParser sampleRuntime (NewLexer sampleRuntime (String.toList "8 - 3 - 2")))) :=
  left_associativity sampleRuntime 0
    (NewParser sampleRuntime (NewLexer sampleRuntime (String.toList "8 - 3 - 2")))
    (by decide) (by decide) (by decide) (by decide) (by decide) (by decide) (by decide)

/-! ## Code generation -/

theorem generateStatements_eq_writeLines (rt : GoRuntime) (indent : String) (cg : CodeGen)
    (stmts : List Statement) :
    generateStatements rt indent cg stmts =
      (generateEach rt cg stmts).map (fun r => (writeLines indent r.1, r.2)) := by
  induction stmts generalizing cg with
  | nil => simp [generateStatements, generateEach, writeLines]
  | cons s rest ih =>
    rw [generateStatements, generateEach]
    cases hs : generateStatement rt cg s with
    | none => simp
    | some r =>
      obtain ⟨text, cg1⟩ := r
      simp only [ih cg1]
      cases hr : generateEach rt cg1 rest with
      | none => simp
      | some r1 =>
        simp [writeLines]


theorem declareForm_ne_assignForm (rt : GoRuntime) (s : Statement) (h : s.isBinding = true) :
    declareForm rt s ≠ assignForm rt s := by
  intro he
  have key : ∀ (n x y : String), n ++ " := " ++ x ≠ n ++ " = " ++ y := by
    intro n x y hxy
    have hd := congrArg String.data hxy
    simp only [String.data_append, List.append_assoc, List.append_cancel_left_eq] at hd
    simp at hd
  cases s with
  | VarStatement name value => exact key _ _ _ he
  | ArrayStatement name values =>
    simp only [declareForm, assignForm, String.append_assoc] at he
    exact key name _ _ (by simpa only [String.append_assoc] using he)
  | nil => simp [Statement.isBinding] at h
  | nilPtr T => simp [Statement.isBinding] at h
  | IfStatement c a b => simp [Statement.isBinding] at h
  | ForStatement i c q b => simp [Statement.isBinding] at h
  | PrintStatement v => simp [Statement.isBinding] at h

/-- The text and generator `generateStatement` produces for a binding. -/
theorem generateStatement_binding (rt : GoRuntime) (cg : CodeGen) (s : Statement) (name : String)
    (h : s.boundName = some name) :
    generateStatement rt cg s =
      some (if cg.vars name then (assignForm rt s, cg) else (declareForm rt s, cg.declare name)) := by
  cases s with
  | VarStatement n value =>
    simp only [Statement.boundName, Option.some.injEq] at h
    subst h
    rw [generateStatement]
    by_cases hv : cg.vars n = true <;> simp [hv, assignForm, declareForm]
  | ArrayStatement n values =>
    simp only [Statement.boundName, Option.some.injEq] at h
    subst h
    rw [generateStatement]
    by_cases hv : cg.vars n = true <;> simp [hv, assignForm, declareForm]
  | nil => simp [Statement.boundName] at h
  | nilPtr T => simp [Statement.boundName] at h
  | IfStatement c a b => simp [Statement.boundName] at h
  | ForStatement i c q b => simp [Statement.boundName] at h
  | PrintStatement v => simp [Statement.boundName] at h

theorem boundName_of_isBinding (s : Statement) (h : s.isBinding = true) :
    ∃ name, s.boundName = some name := by
  cases s <;> simp [Statement.isBinding, Statement.boundName] at h ⊢

/-- The declaration law for an arbitrary generator state. -/
theorem generateEach_bindings (rt : GoRuntime) (stmts : List Statement)
    (hb : ∀ s ∈ stmts, s.isBinding = true) (cg : CodeGen) :
    ∃ lines cg1, generateEach rt cg stmts = some (lines, cg1) ∧
      ∀ i s name, stmts[i]? = some s → s.boundName = some name →
        lines[i]? = some (if cg.vars name = true ∨
            some name ∈ (stmts.take i).map Statement.boundName
          then assignForm rt s else declareForm rt s) := by
  induction stmts generalizing cg with
  | nil => exact ⟨[], cg, rfl, by simp⟩
  | cons s rest ih =>
    obtain ⟨n, hn⟩ := boundName_of_isBinding s (hb s (List.mem_cons_self _ _))
    have hrest : ∀ t ∈ rest, t.isBinding = true := fun t ht => hb t (List.mem_cons_of_mem _ ht)
    rw [generateEach, generateStatement_binding rt cg s n hn]
    by_cases hv : cg.vars n = true
    · obtain ⟨lines, cg1, hl, hi⟩ := ih hrest cg
      refine ⟨assignForm rt s :: lines, cg1, by simp [hv, hl], ?_⟩
      intro i t name ht hname
      cases i with
      | zero =>
        simp only [List.getElem?_cons_zero, Option.some.injEq] at ht
        subst ht
        have : name = n := by rw [hn] at hname; exact (Option.some.inj hname).symm
        subst this
        simp [hv]
      | succ j =>
        simp only [List.getElem?_cons_succ] at ht ⊢
        rw [hi j t name ht hname]
        congr 1
        simp only [List.take_succ_cons, List.map_cons, List.mem_cons, hn, Option.some.injEq]
        by_cases hnn : name = n
        · subst hnn; simp [hv]
        · simp [hnn]
    · obtain ⟨lines, cg1, hl, hi⟩ := ih hrest (cg.declare n)
      refine ⟨declareForm rt s :: lines, cg1, by simp [hv, hl], ?_⟩
      intro i t name ht hname
      cases i with
      | zero =>
        simp only [List.getElem?_cons_zero, Option.some.injEq] at ht
        subst ht
        have : name = n := by rw [hn] at hname; exact (Option.some.inj hname).symm
        subst this
        simp [hv]
      | succ j =>
        simp only [List.getElem?_cons_succ] at ht ⊢
        rw [hi j t name ht hname]
        congr 1
        simp only [List.take_succ_cons, List.map_cons, List.mem_cons, hn, Option.some.injEq,
          CodeGen.declare]
        by_cases hnn : name = n
        · subst hnn; simp
        · simp [hnn]

/-- C3. Declaration law: for a program that is a sequence of var bindings and
array bindings, generated by a fresh generator, the body of the output consists
of one line per statement, and the line of the i-th statement is its plain assign
form when an earlier statement of the sequence binds the same name and its
declare form otherwise (the two forms are different texts); var and array
bindings share the one name set. -/
theorem declaration_law (rt : GoRuntime) (stmts : List Statement)
    (hb : ∀ s ∈ stmts, s.isBinding = true) :
    ∃ lines cg, generateEach rt NewCodeGen stmts = some (lines, cg) ∧
      Generate rt NewCodeGen { Statements := stmts } =
        some (programTemplate (writeLines "\t" lines), cg) ∧
      ∀ i s, stmts[i]? = some s →
        lines[i]? = some (if s.boundName ∈ (stmts.take i).map Statement.boundName
          then assignForm rt s else declareForm rt s) ∧
        declareForm rt s ≠ assignForm rt s := by
  obtain ⟨lines, cg, hl, hi⟩ := generateEach_bindings rt stmts hb NewCodeGen
  refine ⟨lines, cg, hl, ?_, ?_⟩
  · simp [Generate, generateStatements_eq_writeLines, hl, programTemplate]
  · intro i s hs
    have hmem : s ∈ stmts := List.getElem?_mem hs
    obtain ⟨name, hname⟩ := boundName_of_isBinding s (hb s hmem)
    refine ⟨?_, declareForm_ne_assignForm rt s (hb s hmem)⟩
    rw [hi i s name hs hname, hname]
    simp [NewCodeGen]

theorem declaration_law_witness :
    (∀ s ∈ [Statement.VarStatement "x" (Expression.NumberLiteral ⟨1⟩),
        Statement.VarStatement "x" (Expression.NumberLiteral ⟨2⟩)], s.isBinding = true) ∧
    ∃ lines cg,
      generateEach sampleRuntime NewCodeGen
        [Statement.VarStatement "x" (Expression.NumberLiteral ⟨1⟩),
          Statement.VarStatement "x" (Expression.NumberLiteral ⟨2⟩)] = some (lines, cg) ∧
      Generate sampleRuntime NewCodeGen
        { Statements := [Statement.VarStatement "x" (Expression.NumberLiteral ⟨1⟩),
          Statement.VarStatement "x" (Expression.NumberLiteral ⟨2⟩)] } =
        some (programTemplate (writeLines "\t" lines), cg) ∧
      ∀ i s, [Statement.VarStatement "x" (Expression.NumberLiteral ⟨1⟩),
          Statement.VarStatement "x" (Expression.NumberLiteral ⟨2⟩)][i]? = some s →
        lines[i]? = some (if s.boundName ∈
            ([Statement.VarStatement "x" (Expression.NumberLiteral ⟨1⟩),
              Statement.VarStatement "x" (Expression.NumberLiteral ⟨2⟩)].take i).map
              Statement.boundName
          then assignForm sampleRuntime s else declareForm sampleRuntime s) ∧
        declareForm sampleRuntime s ≠ assignForm sampleRuntime s :=
  ⟨by simp [Statement.isBinding],
    declaration_law sampleRuntime _ (by simp [Statement.isBinding])⟩

/-- The example of the declaration law: `lazy x = 1; lazy x = 2;` is parsed to
two var bindings, which are generated as `x := 1` then `x = 2`. -/
theorem declaration_law_example :
    parseSource sampleRuntime 9 (String.toList "lazy x = 1; lazy x = 2;") =
      some { Statements := [Statement.VarStatement "x" (Expression.NumberLiteral ⟨1⟩),
        Statement.VarStatement "x" (Expression.NumberLiteral ⟨2⟩)] } ∧
    (generateEach sampleRuntime NewCodeGen
        [Statement.VarStatement "x" (Expression.NumberLiteral ⟨1⟩),
          Statement.VarStatement "x" (Expression.NumberLiteral ⟨2⟩)]).map (fun r => r.1) =
      some ["x := 1", "x = 2"] := by
  constructor <;> decide

/-- After a var binding is generated its name is marked declared, whatever the
generator state was before. -/
theorem generateStatement_var_declared (rt : GoRuntime) (cg : CodeGen) (name : String)
    (value : Expression) :
    ∃ text cg1, generateStatement rt cg (Statement.VarStatement name value) = some (text, cg1) ∧
      cg1.vars name = true := by
  rw [generateStatement]
  by_cases hv : cg.vars name = true
  · exact ⟨name ++ " = " ++ generateExpression rt value, cg, by simp [hv], hv⟩
  · exact ⟨name ++ " := " ++ generateExpression rt value, cg.declare name, by simp [hv],
      by simp [CodeGen.declare]⟩

/-- C4 (code as written). For the loop of the for-loop scoping law,
`for (i = 0; i < 3; i = i + 1) { lazy i = i; }` given as a `ForStatement` node to
a fresh generator, the init is emitted as `i =  0`, an assign form, not as the
declare form `i := 0`: the `ForStatement` case looks the name up after
`generateStatement` has marked it declared, and rewrites the `:=`.  The binding in
the body is emitted as `i = i`. -/
theorem for_init_emitted_as_assign (rt : GoRuntime) (v0 v3 v1 : Float64)
    (h0 : rt.FormatFloat v0 = "0") (h3 : rt.FormatFloat v3 = "3")
    (h1 : rt.FormatFloat v1 = "1") :
    (generateStatement rt NewCodeGen
        (Statement.ForStatement
          (Statement.VarStatement "i" (Expression.NumberLiteral v0))
          (Expression.InfixExpression (Expression.Identifier "i") "<"
            (Expression.NumberLiteral v3))
          (Statement.VarStatement "i"
            (Expression.InfixExpression (Expression.Identifier "i") "+"
              (Expression.NumberLiteral v1)))
          [Statement.VarStatement "i" (Expression.Identifier "i")])).map (fun r => r.1) =
      some "for i =  0; (i < 3); i = (i + 1) \x7b\n\ti = i\n\x7d" := by
  simp only [generateStatement, generateStatements, generateExpression, forPartText, h0, h3, h1]
  decide

theorem for_init_emitted_as_assign_witness :
    (generateStatement sampleRuntime NewCodeGen
        (Statement.ForStatement
          (Statement.VarStatement "i" (Expression.NumberLiteral ⟨0⟩))
          (Expression.InfixExpression (Expression.Identifier "i") "<"
            (Expression.NumberLiteral ⟨3⟩))
          (Statement.VarStatement "i"
            (Expression.InfixExpression (Expression.Identifier "i") "+"
              (Expression.NumberLiteral ⟨1⟩)))
          [Statement.VarStatement "i" (Expression.Identifier "i")])).map (fun r => r.1) =
      some "for i =  0; (i < 3); i = (i + 1) \x7b\n\ti = i\n\x7d" :=
  for_init_emitted_as_assign sampleRuntime ⟨0⟩ ⟨3⟩ ⟨1⟩ (by decide) (by decide) (by decide)

/-- The for statement of the scoping law with an empty condition, which the parser
does accept, through the whole pipeline: the init is generated as `i =  0`. -/
theorem for_init_pipeline :
    ((parseSource sampleRuntime 40
        (String.toList "for (i = 0;; i = i + 1) { lazy i = i; }")).bind
      (fun program => Generate sampleRuntime NewCodeGen program)).map (fun r => r.1) =
      some (programTemplate "\tfor i =  0; ; i = (i + 1) \x7b\n\ti = i\n\x7d\n") := by
  decide

/-! ## For statements -/

/-- Whenever `parseForStatement` has read an init assignment, the init section
leaves the parser on the `;` that ends it. -/
theorem parseForInit_on_semicolon (rt : GoRuntime) (fuel : Nat) (p p1 : Parser)
    (init : Statement) (h : parseForInit rt fuel p = some (some init, p1))
    (hi : init ≠ Statement.nil) : p1.currentToken.Kind = TokenType.SEMICOLON := by
  unfold parseForInit at h
  split at h
  · cases ha : parseForAssign rt fuel p with
    | none => simp [ha] at h
    | some r =>
      obtain ⟨o, q⟩ := r
      cases o with
      | none => simp [ha] at h
      | some st =>
        simp only [ha, Parser.expectPeek] at h
        by_cases hk : q.peekToken.Kind = TokenType.SEMICOLON
        · simp only [hk, if_true, Option.some.injEq, Prod.mk.injEq] at h
          rw [← h.2, nextToken_currentToken]
          exact hk
        · simp [hk] at h
  · simp only [Option.some.injEq, Prod.mk.injEq] at h
    exact absurd h.1.symm hi

/-- Entered on a `;`, the condition section reads no condition. -/
theorem parseForCondition_on_semicolon (rt : GoRuntime) (fuel : Nat) (p p1 : Parser)
    (cond : Expression) (hp : p.currentToken.Kind = TokenType.SEMICOLON)
    (h : parseForCondition rt fuel p = some (some cond, p1)) : cond = Expression.nil := by
  unfold parseForCondition at h
  simp only [hp, ne_eq, not_true_eq_false, if_false, Parser.expectPeek] at h
  by_cases hk : p.peekToken.Kind = TokenType.SEMICOLON
  · simp only [hk, if_true, Option.some.injEq, Prod.mk.injEq] at h
    exact h.1.symm
  · simp [hk] at h

/-- A for statement that the parser returns never has both an init and a
condition: after an init assignment the condition is always taken to be absent. -/
theorem parseForHeader_init_excludes_condition (rt : GoRuntime) (fuel : Nat) (p p1 : Parser)
    (init post : Statement) (cond : Expression)
    (h : parseForHeader rt fuel p = some (some (init, cond, post), p1))
    (hi : init ≠ Statement.nil) : cond = Expression.nil := by
  unfold parseForHeader at h
  cases hl : p.expectPeek rt TokenType.LPAREN with
  | mk ok q =>
    cases ok with
    | false => simp [hl] at h
    | true =>
      simp only [hl] at h
      cases h1 : parseForInit rt fuel (q.nextToken rt) with
      | none => simp [h1] at h
      | some r1 =>
        obtain ⟨o1, q1⟩ := r1
        cases o1 with
        | none => simp [h1] at h
        | some init1 =>
          simp only [h1] at h
          cases h2 : parseForCondition rt fuel q1 with
          | none => simp [h2] at h
          | some r2 =>
            obtain ⟨o2, q2⟩ := r2
            cases o2 with
            | none => simp [h2] at h
            | some cond1 =>
              simp only [h2] at h
              cases h3 : parseForPost rt fuel q2 with
              | none => simp [h3] at h
              | some r3 =>
                obtain ⟨o3, q3⟩ := r3
                cases o3 with
                | none => simp [h3] at h
                | some post1 =>
                  simp only [h3, Option.some.injEq, Prod.mk.injEq] at h
                  obtain ⟨⟨hii, hcc, _⟩, _⟩ := h
                  subst hii hcc
                  exact parseForCondition_on_semicolon rt fuel q1 q2 cond1
                    (parseForInit_on_semicolon rt fuel _ q1 init1 h1 hi) h2

/-- C5 (code as written). The three-part loop
`for (i = 0; i < 3; i = i + 1) { lazyPrint(i) }` is not parsed into a for
statement: after the init the parser sits on the first `;`, reads no condition
and then requires a second `;` where the condition starts, so
`parseForStatement` returns nil.  `ParseProgram` returns two statements, that
nil `*ForStatement` and the print statement of the body. -/
theorem three_part_for_not_parsed :
    parseSource sampleRuntime 40
        (String.toList "for (i = 0; i < 3; i = i + 1) { lazyPrint(i) }") =
      some { Statements := [Statement.nilPtr StatementType.ForStatement,
        Statement.PrintStatement (Expression.Identifier "i")] } := by
  decide

/-- C6 (code as written). Of the eight for headers, the four that have an init
and no condition, or a condition and no init, parse to a for statement with
exactly the written parts; the other four, `for (;;) { }` among them, make
`parseForStatement` return nil. -/
theorem for_header_table :
    parseSource sampleRuntime 40 (String.toList "for (;;) { }") =
      some { Statements := [Statement.nilPtr StatementType.ForStatement] } ∧
    parseSource sampleRuntime 40 (String.toList "for (;; i = i + 1) { }") =
      some { Statements := [Statement.nilPtr StatementType.ForStatement] } ∧
    parseSource sampleRuntime 40 (String.toList "for (i = 0; i < 3;) { }") =
      some { Statements := [Statement.nilPtr StatementType.ForStatement] } ∧
    parseSource sampleRuntime 40 (String.toList "for (i = 0; i < 3; i = i + 1) { }") =
      some { Statements := [Statement.nilPtr StatementType.ForStatement] } ∧
    parseSource sampleRuntime 40 (String.toList "for (i = 0;;) { }") =
      some { Statements := [Statement.ForStatement
        (Statement.VarStatement "i" (Expression.NumberLiteral ⟨0⟩))
        Expression.nil Statement.nil []] } ∧
    parseSource sampleRuntime 40 (String.toList "for (i = 0;; i = i + 1) { }") =
      some { Statements := [Statement.ForStatement
        (Statement.VarStatement "i" (Expression.NumberLiteral ⟨0⟩))
        Expression.nil
        (Statement.VarStatement "i" (Expression.InfixExpression (Expression.Identifier "i") "+"
          (Expression.NumberLiteral ⟨1⟩))) []] } ∧
    parseSource sampleRuntime 40 (String.toList "for (; i < 3;) { }") =
      some { Statements := [Statement.ForStatement Statement.nil
        (Expression.InfixExpression (Expression.Identifier "i") "<"
          (Expression.NumberLiteral ⟨3⟩))
        Statement.nil []] } ∧
    parseSource sampleRuntime 40 (String.toList "for (; i < 3; i = i + 1) { }") =
      some { Statements := [Statement.ForStatement Statement.nil
        (Expression.InfixExpression (Expression.Identifier "i") "<"
          (Expression.NumberLiteral ⟨3⟩))
        (Statement.VarStatement "i" (Expression.InfixExpression (Expression.Identifier "i") "+"
          (Expression.NumberLiteral ⟨1⟩))) []] } := by
  refine ⟨?_, ?_, ?_, ?_, ?_, ?_, ?_, ?_⟩ <;> decide

/-! ## Failed statements -/

/-- A failed statement rule hands `parseStatement` a nil pointer, and the
`stmt != nil` test of `ParseProgram` and `parseBlockStatement` lets it through. -/
theorem appendStatement_nilPtr (statements : List Statement) (T : StatementType) :
    appendStatement statements (Statement.nilPtr T) = statements ++ [Statement.nilPtr T] := rfl

/-- For every parser on `lazy` whose next token is not an identifier,
`parseStatement` returns a nil `*VarStatement` in a non-nil interface. -/
theorem parseStatement_var_failure (rt : GoRuntime) (fuel : Nat) (p : Parser)
    (hc : p.currentToken.Kind = TokenType.VAR) (hp : p.peekToken.Kind ≠ TokenType.IDENT) :
    parseStatement rt (fuel + 1) p = some (Statement.nilPtr StatementType.VarStatement, p) := by
  rw [parseStatement]
  simp [hc, parseVarStatement, Parser.expectPeek, hp]

/-- C7 (code as written). For the sources `lazy = 5`, `lazyPrint 1` and
`lazyArray a = 1` the statement rule returns nil, and the program returned by
`ParseProgram` has one statement, the nil pointer, instead of none. -/
theorem failed_statement_is_kept :
    parseSource sampleRuntime 20 (String.toList "lazy = 5") =
      some { Statements := [Statement.nilPtr StatementType.VarStatement] } ∧
    parseSource sampleRuntime 20 (String.toList "lazyPrint 1") =
      some { Statements := [Statement.nilPtr StatementType.PrintStatement] } ∧
    parseSource sampleRuntime 20 (String.toList "lazyArray a = 1") =
      some { Statements := [Statement.nilPtr StatementType.ArrayStatement] } := by
  refine ⟨?_, ?_, ?_⟩ <;> decide

/-! ## Lexer -/

theorem keyword_ne_NOT_EQ (literal : String) : keyword literal ≠ TokenType.NOT_EQ := by
  unfold keyword
  repeat' split
  all_goals simp

theorem ite_kind_ne {c : Prop} [Decidable c] {a b : Token × List Char} {k : TokenType}
    (ha : a.1.Kind ≠ k) (hb : b.1.Kind ≠ k) : (if c then a else b).1.Kind ≠ k := by
  split <;> assumption

/-- No lexer state makes `NextToken` return a token of kind `NOT_EQ`: the switch
has no case for `!`. -/
theorem NextToken_ne_NOT_EQ (rt : GoRuntime) (l : Lexer) :
    (l.NextToken rt).1.Kind ≠ TokenType.NOT_EQ := by
  unfold Lexer.NextToken Lexer.switchToken
  cases l.token with
  | EOF => simp
  | Ident => simpa using keyword_ne_NOT_EQ l.text
  | Int => simp
  | Float => simp
  | rune ch =>
    simp only
    repeat' apply ite_kind_ne
    all_goals simp

/-- C8 (code as written). For the source `a != b` the lexer returns the four
tokens identifier `a`, ILLEGAL `!`, ASSIGN `=`, identifier `b`, not a `NOT_EQ`
token, and `parseExpression` returns the identifier `a` alone, stopping before
the `!`. -/
theorem not_equal_not_lexed (rt : GoRuntime) (fuel : Nat) :
    Lexer.allTokens rt (NewLexer rt (String.toList "a != b")) =
      [⟨TokenType.IDENT, "a"⟩, ⟨TokenType.ILLEGAL, "!"⟩, ⟨TokenType.ASSIGN, "="⟩,
        ⟨TokenType.IDENT, "b"⟩] ∧
    (parseExpression rt (fuel + 3) (NewParser rt (NewLexer rt (String.toList "a != b")))).map
      (fun r => (r.1, r.2.peekToken)) =
      some (Expression.Identifier "a", ⟨TokenType.ILLEGAL, "!"⟩) := by
  constructor <;> rfl

/-- C10. Two-character operator lookahead.  Scanning a source that starts with
`=`, `>` or `<` leaves the scanner right after that rune.  In every lexer state
whose scanned token is one of these runes: when the unread source starts with
`=`, `NextToken` returns `==`, `>=` or `<=` and goes on scanning after that `=`;
when it starts with anything else or is empty, `NextToken` returns `=`, `>` or
`<` and goes on scanning at the unread source itself. -/
theorem two_character_lookahead (rt : GoRuntime) (l : Lexer) (rest : List Char) :
    (Lexer.scan rt ('=' :: rest) = { scanner := rest, token := ScanTok.rune '=', text := "=" } ∧
      Lexer.scan rt ('>' :: rest) = { scanner := rest, token := ScanTok.rune '>', text := ">" } ∧
      Lexer.scan rt ('<' :: rest) = { scanner := rest, token := ScanTok.rune '<', text := "<" }) ∧
    (l.scanner = '=' :: rest →
      (l.token = ScanTok.rune '=' →
        l.NextToken rt = (⟨TokenType.EQ, "=="⟩, Lexer.scan rt rest)) ∧
      (l.token = ScanTok.rune '>' →
        l.NextToken rt = (⟨TokenType.GT_EQ, ">="⟩, Lexer.scan rt rest)) ∧
      (l.token = ScanTok.rune '<' →
        l.NextToken rt = (⟨TokenType.LT_EQ, "<="⟩, Lexer.scan rt rest))) ∧
    (l.scanner.head? ≠ some '=' →
      (l.token = ScanTok.rune '=' →
        l.NextToken rt = (⟨TokenType.ASSIGN, "="⟩, Lexer.scan rt l.scanner)) ∧
      (l.token = ScanTok.rune '>' →
        l.NextToken rt = (⟨TokenType.GT, ">"⟩, Lexer.scan rt l.scanner)) ∧
      (l.token = ScanTok.rune '<' →
        l.NextToken rt = (⟨TokenType.LT, "<"⟩, Lexer.scan rt l.scanner))) := by
  refine ⟨⟨?_, ?_, ?_⟩, ?_, ?_⟩
  · simp [Lexer.scan, Scan, scanToken, isWhitespace, isIdentRune, isLetter, isDigit, isDecimal]
  · simp [Lexer.scan, Scan, scanToken, isWhitespace, isIdentRune, isLetter, isDigit, isDecimal]
  · simp [Lexer.scan, Scan, scanToken, isWhitespace, isIdentRune, isLetter, isDigit, isDecimal]
  · intro hs
    refine ⟨?_, ?_, ?_⟩ <;> intro ht <;> simp [Lexer.NextToken, Lexer.switchToken, ht, hs, peekEq]
  · intro hs
    have hp : peekEq l.scanner = (false, l.scanner) := by
      unfold peekEq
      cases hl : l.scanner with
      | nil => rfl
      | cons c cs =>
        have : c ≠ '=' := by
          intro hc
          apply hs
          simp [hl, hc]
        simp [this]
    refine ⟨?_, ?_, ?_⟩ <;> intro ht <;> simp [Lexer.NextToken, Lexer.switchToken, ht, hp]

theorem two_character_lookahead_witness :
    (Lexer.scan sampleRuntime (String.toList ">= 1")).NextToken sampleRuntime =
      (⟨TokenType.GT_EQ, ">="⟩, Lexer.scan sampleRuntime (String.toList " 1")) ∧
    (Lexer.scan sampleRuntime (String.toList "= =")).NextToken sampleRuntime =
      (⟨TokenType.ASSIGN, "="⟩, Lexer.scan sampleRuntime (String.toList " =")) :=
  ⟨((two_character_lookahead sampleRuntime
      (Lexer.scan sampleRuntime (String.toList ">= 1")) (String.toList " 1")).2.1
        (by decide)).2.1 (by decide),
    ((two_character_lookahead sampleRuntime
      (Lexer.scan sampleRuntime (String.toList "= =")) []).2.2 (by decide)).1 (by decide)⟩

/-! ## Whitespace -/

theorem isWhitespace_cases (c : Char) (h : isWhitespace c = true) :
    c = '\t' ∨ c = '\n' ∨ c = '\r' ∨ c = ' ' := by
  simpa [isWhitespace, or_assoc] using h

theorem isIdentRune_whitespace (rt : GoRuntime) (c : Char) (i : Nat)
    (h : isWhitespace c = true) : isIdentRune rt c i = false := by
  rcases isWhitespace_cases c h with h | h | h | h <;> subst h <;>
    simp [isIdentRune, isLetter, isDigit]

theorem span_append_stop {p : Char → Bool} (l t : List Char)
    (ht : ∀ c, t.head? = some c → p c = false) :
    (l ++ t).span p = ((l.span p).1, (l.span p).2 ++ t) := by
  induction l with
  | nil =>
    cases t with
    | nil => rfl
    | cons c cs => simp [List.span_eq_take_drop, List.takeWhile, List.dropWhile, ht c rfl]
  | cons a l ih =>
    simp only [List.span_eq_take_drop, List.cons_append, List.takeWhile, List.dropWhile] at ih ⊢
    cases hp : p a with
    | true =>
      simp only [Prod.mk.injEq] at ih ⊢
      exact ⟨by rw [ih.1], ih.2⟩
    | false => simp

theorem startsWithSpace_digit (t : List Char) (ht : startsWithSpace t) (base : Nat) :
    ∀ c, t.head? = some c →
      (if base ≤ 10 then (isDecimal c || c == '_') else (isHex c || c == '_')) = false := by
  intro c hc
  rcases isWhitespace_cases c (ht c hc) with h | h | h | h <;> subst h <;> split <;> decide

theorem digits_append (base : Nat) (l t : List Char) (ht : startsWithSpace t) :
    digits base (l ++ t) = ((digits base l).1, (digits base l).2 ++ t) := by
  unfold digits
  split
  · exact span_append_stop l t (fun c hc => by
      have := startsWithSpace_digit t ht 10 c hc
      simpa using this)
  · exact span_append_stop l t (fun c hc => by
      have := startsWithSpace_digit t ht 16 c hc
      simpa using this)

theorem digits_startsWithSpace (base : Nat) (t : List Char) (ht : startsWithSpace t) :
    digits base t = ([], t) := by
  have := digits_append base [] t ht
  simpa [digits, List.span_eq_take_drop] using this

/-- What distinguishes a whitespace rune for the number scanner and the lexer. -/
theorem whitespace_facts (c : Char) (h : isWhitespace c = true) :
    isDecimal c = false ∧ c ≠ '.' ∧ c ≠ '+' ∧ c ≠ '-' ∧ c ≠ '=' ∧ c ≠ '0' ∧
      lower c ≠ 101 ∧ lower c ≠ 112 ∧ lower c ≠ 120 ∧ lower c ≠ 111 ∧ lower c ≠ 98 := by
  rcases isWhitespace_cases c h with h | h | h | h <;> subst h <;> decide

theorem scanExponent_startsWithSpace (t : List Char) (ht : startsWithSpace t) :
    scanExponent t = (false, [], t) := by
  cases t with
  | nil => rfl
  | cons w t1 =>
    obtain ⟨_, _, _, _, _, _, he, hp, _⟩ := whitespace_facts w (ht w rfl)
    simp [scanExponent, he, hp]

theorem scanExponent_append (l t : List Char) (ht : startsWithSpace t) :
    scanExponent (l ++ t) =
      ((scanExponent l).1, (scanExponent l).2.1, (scanExponent l).2.2 ++ t) := by
  cases l with
  | nil => simpa [scanExponent] using scanExponent_startsWithSpace t ht
  | cons ch rest =>
    by_cases hc : lower ch = 'e'.toNat ∨ lower ch = 'p'.toNat
    · cases rest with
      | nil =>
        cases t with
        | nil => simp only [List.append_nil]
        | cons w t1 =>
          obtain ⟨_, _, hplus, hminus, _⟩ := whitespace_facts w (ht w rfl)
          have hd := digits_startsWithSpace 10 (w :: t1) ht
          have hs : ¬ (w = '+' ∨ w = '-') := by simp [hplus, hminus]
          simp only [List.cons_append, List.nil_append, scanExponent, if_pos hc, if_neg hs, hd]
      | cons sg rest1 =>
        by_cases hs : sg = '+' ∨ sg = '-'
        · simp only [List.cons_append, scanExponent, if_pos hc, if_pos hs]
          rw [digits_append 10 rest1 t ht]
        · have := digits_append 10 (sg :: rest1) t ht
          simp only [List.cons_append] at this
          simp only [List.cons_append, scanExponent, if_pos hc, if_neg hs, this]
    · simp only [List.cons_append, scanExponent, if_neg hc]

theorem scanFraction_append (base : Nat) (seenDot : Bool) (l t : List Char)
    (ht : startsWithSpace t) :
    scanFraction base seenDot (l ++ t) =
      ((scanFraction base seenDot l).1, (scanFraction base seenDot l).2.1,
        (scanFraction base seenDot l).2.2 ++ t) := by
  unfold scanFraction
  cases seenDot with
  | true =>
    simp only [if_true]
    rw [digits_append base l t ht, scanExponent_append _ t ht]
  | false =>
    simp only [Bool.false_eq_true, if_false]
    rw [scanExponent_append l t ht]

theorem scanPrefix_append (l t : List Char) (ht : startsWithSpace t) :
    scanPrefix (l ++ t) = ((scanPrefix l).1, (scanPrefix l).2.1, (scanPrefix l).2.2 ++ t) := by
  cases l with
  | nil =>
    cases t with
    | nil => rfl
    | cons w t1 =>
      obtain ⟨_, _, _, _, _, h0, _⟩ := whitespace_facts w (ht w rfl)
      simp [scanPrefix, h0]
  | cons ch0 rest0 =>
    by_cases h0 : ch0 = '0'
    · cases rest0 with
      | nil =>
        cases t with
        | nil => simp [scanPrefix, h0]
        | cons w t1 =>
          obtain ⟨_, _, _, _, _, _, _, _, hx, ho, hb⟩ := whitespace_facts w (ht w rfl)
          simp [scanPrefix, h0, hx, ho, hb]
      | cons ch rest1 =>
        simp only [List.cons_append, scanPrefix, h0, if_true]
        split_ifs <;> simp
    · simp [scanPrefix, h0]

theorem scanAfterInt_append (base : Nat) (l t : List Char) (ht : startsWithSpace t) :
    scanAfterInt base (l ++ t) =
      ((scanAfterInt base l).1, (scanAfterInt base l).2.1, (scanAfterInt base l).2.2 ++ t) := by
  cases l with
  | nil =>
    have h := scanFraction_append base false [] t ht
    simp only [List.nil_append] at h
    cases t with
    | nil => simp [scanAfterInt]
    | cons w t1 =>
      obtain ⟨_, hdot, _⟩ := whitespace_facts w (ht w rfl)
      simp only [List.nil_append, scanAfterInt, hdot, if_false]
      exact h
  | cons ch rest =>
    by_cases hd : ch = '.'
    · simp only [List.cons_append, scanAfterInt, hd, if_true]
      rw [scanFraction_append base true rest t ht]
    · simp only [List.cons_append, scanAfterInt, hd, if_false]
      exact scanFraction_append base false (ch :: rest) t ht

theorem scanNumber_append (seenDot : Bool) (l t : List Char) (ht : startsWithSpace t) :
    scanNumber (l ++ t) seenDot =
      ((scanNumber l seenDot).1, (scanNumber l seenDot).2.1, (scanNumber l seenDot).2.2 ++ t) := by
  unfold scanNumber
  cases seenDot with
  | true => simpa using scanFraction_append 10 true l t ht
  | false =>
    simp only [Bool.false_eq_true, if_false]
    rw [scanPrefix_append l t ht]
    simp only []
    rw [digits_append _ _ t ht]
    simp only []
    rw [scanAfterInt_append _ _ t ht]

theorem scanToken_append (rt : GoRuntime) (ch : Char) (rest t : List Char)
    (ht : startsWithSpace t) :
    scanToken rt ch (rest ++ t) =
      ((scanToken rt ch rest).1, (scanToken rt ch rest).2.1, (scanToken rt ch rest).2.2 ++ t) := by
  unfold scanToken
  split_ifs with h1 h2 h3
  · rw [span_append_stop rest t (fun c hc => isIdentRune_whitespace rt c 1 (ht c hc))]
  · have := scanNumber_append false (ch :: rest) t ht
    simp only [List.cons_append] at this
    rw [this]
  · cases rest with
    | nil =>
      cases t with
      | nil => simp
      | cons w t1 =>
        obtain ⟨hdec, _⟩ := whitespace_facts w (ht w rfl)
        simp [hdec]
    | cons d rest1 =>
      simp only [List.cons_append]
      split_ifs
      · have := scanNumber_append true (d :: rest1) t ht
        simp only [List.cons_append] at this
        rw [this]
      · rfl
  · rfl

theorem scanFraction_ne_EOF (base : Nat) (seenDot : Bool) (src : List Char) :
    (scanFraction base seenDot src).1 ≠ ScanTok.EOF := by
  unfold scanFraction
  simp only []
  split_ifs <;> simp

theorem scanAfterInt_ne_EOF (base : Nat) (src : List Char) :
    (scanAfterInt base src).1 ≠ ScanTok.EOF := by
  cases src with
  | nil => exact scanFraction_ne_EOF base false []
  | cons ch rest =>
    by_cases hd : ch = '.'
    · simp only [scanAfterInt, hd, if_true]
      exact scanFraction_ne_EOF base true rest
    · simp only [scanAfterInt, hd, if_false]
      exact scanFraction_ne_EOF base false _

theorem scanNumber_ne_EOF (src : List Char) (seenDot : Bool) :
    (scanNumber src seenDot).1 ≠ ScanTok.EOF := by
  unfold scanNumber
  split
  · exact scanFraction_ne_EOF _ _ _
  · exact scanAfterInt_ne_EOF _ _

theorem scanToken_ne_EOF (rt : GoRuntime) (ch : Char) (rest : List Char) :
    (scanToken rt ch rest).1 ≠ ScanTok.EOF := by
  unfold scanToken
  split_ifs
  · simp
  · exact scanNumber_ne_EOF _ _
  · split
    · simp
    · split_ifs
      · exact scanNumber_ne_EOF _ _
      · simp
  · simp

theorem Scan_whitespace_cons (rt : GoRuntime) (c : Char) (s : List Char)
    (h : isWhitespace c = true) : Scan rt (c :: s) = Scan rt s := by
  simp [Scan, List.dropWhile, h]

theorem Scan_token_cons (rt : GoRuntime) (c : Char) (s : List Char)
    (h : isWhitespace c = false) : Scan rt (c :: s) = scanToken rt c s := by
  simp [Scan, List.dropWhile, h]

/-- Appending text that starts with whitespace to the source does not change
the token scanned first, unless the source holds no token at all. -/
theorem Scan_append (rt : GoRuntime) (s t : List Char) (ht : startsWithSpace t) :
    Scan rt (s ++ t) =
      if (Scan rt s).1 = ScanTok.EOF then Scan rt t
      else ((Scan rt s).1, (Scan rt s).2.1, (Scan rt s).2.2 ++ t) := by
  induction s with
  | nil => simp [Scan]
  | cons c s ih =>
    cases hc : isWhitespace c with
    | true => simpa [Scan_whitespace_cons rt c _ hc] using ih
    | false =>
      rw [List.cons_append, Scan_token_cons rt c _ hc, Scan_token_cons rt c _ hc,
        if_neg (scanToken_ne_EOF rt c s)]
      exact scanToken_append rt c s t ht

theorem Lexer.scan_append (rt : GoRuntime) (s t : List Char) (ht : startsWithSpace t) :
    Lexer.scan rt (s ++ t) =
      if (Lexer.scan rt s).token = ScanTok.EOF then Lexer.scan rt t
      else (Lexer.scan rt s).extend t := by
  unfold Lexer.scan Lexer.extend
  rw [Scan_append rt s t ht]
  split_ifs <;> rfl

theorem peekEq_append (src t : List Char) (ht : startsWithSpace t) :
    peekEq (src ++ t) = ((peekEq src).1, (peekEq src).2 ++ t) := by
  cases src with
  | nil =>
    cases t with
    | nil => rfl
    | cons w t1 =>
      obtain ⟨_, _, _, _, heq, _⟩ := whitespace_facts w (ht w rfl)
      simp [peekEq, heq]
  | cons c cs =>
    simp only [List.cons_append, peekEq]
    split_ifs <;> rfl

theorem ite_append {c : Prop} [Decidable c] {a b a1 b1 : Token × List Char} {t : List Char}
    (ha : a1 = (a.1, a.2 ++ t)) (hb : b1 = (b.1, b.2 ++ t)) :
    (if c then a1 else b1) = ((if c then a else b).1, (if c then a else b).2 ++ t) := by
  split <;> assumption

theorem switchToken_extend (l : Lexer) (t : List Char) (ht : startsWithSpace t) :
    (l.extend t).switchToken = (l.switchToken.1, l.switchToken.2 ++ t) := by
  unfold Lexer.switchToken Lexer.extend
  cases l.token with
  | EOF => rfl
  | Ident => rfl
  | Int => rfl
  | Float => rfl
  | rune ch =>
    simp only [peekEq_append l.scanner t ht]
    repeat' apply ite_append
    all_goals rfl

theorem switchToken_kind_EOF (l : Lexer) :
    l.switchToken.1.Kind = TokenType.EOF ↔ l.token = ScanTok.EOF := by
  unfold Lexer.switchToken
  cases l.token with
  | EOF => simp
  | Ident =>
    simp only [reduceCtorEq, iff_false]
    unfold keyword
    split_ifs <;> simp
  | Int => simp
  | Float => simp
  | rune ch =>
    simp only [reduceCtorEq, iff_false]
    repeat' apply ite_kind_ne
    all_goals simp

theorem span_snd_length_le (p : Char → Bool) (l : List Char) :
    (l.span p).2.length ≤ l.length := by
  rw [List.span_eq_take_drop]
  exact (List.dropWhile_sublist p).length_le

theorem digits_length_le (base : Nat) (l : List Char) :
    (digits base l).2.length ≤ l.length := by
  unfold digits
  split <;> exact span_snd_length_le _ _

theorem scanExponent_length_le (l : List Char) : (scanExponent l).2.2.length ≤ l.length := by
  cases l with
  | nil => simp [scanExponent]
  | cons ch rest =>
    simp only [scanExponent]
    split_ifs with h
    · cases rest with
      | nil => simp
      | cons sg rest1 =>
        simp only []
        split_ifs
        · have := digits_length_le 10 rest1
          simp only [List.length_cons]
          omega
        · have := digits_length_le 10 (sg :: rest1)
          simp only [List.length_cons] at this ⊢
          omega
    · simp

theorem scanFraction_length_le (base : Nat) (seenDot : Bool) (l : List Char) :
    (scanFraction base seenDot l).2.2.length ≤ l.length := by
  unfold scanFraction
  simp only []
  cases seenDot with
  | true =>
    have h1 := digits_length_le base l
    have h2 := scanExponent_length_le (digits base l).2
    simp only [if_true]
    omega
  | false =>
    simpa using scanExponent_length_le l

theorem scanAfterInt_length_le (base : Nat) (l : List Char) :
    (scanAfterInt base l).2.2.length ≤ l.length := by
  cases l with
  | nil => exact scanFraction_length_le base false []
  | cons ch rest =>
    simp only [scanAfterInt]
    split_ifs
    · have := scanFraction_length_le base true rest
      simp only [List.length_cons]
      omega
    · exact scanFraction_length_le base false _

/-- A number that starts with a decimal digit consumes that digit. -/
theorem scanNumber_length_lt (ch : Char) (rest : List Char) (hd : isDecimal ch = true) :
    (scanNumber (ch :: rest) false).2.2.length ≤ rest.length := by
  unfold scanNumber
  simp only [Bool.false_eq_true, if_false]
  have key : (digits (scanPrefix (ch :: rest)).1 (scanPrefix (ch :: rest)).2.2).2.length
      ≤ rest.length := by
    unfold scanPrefix
    by_cases h0 : ch = '0'
    · simp only [h0, if_true]
      cases rest with
      | nil => simp [digits, List.span_eq_take_drop]
      | cons c rest1 =>
        simp only []
        split_ifs
        · have := digits_length_le 16 rest1
          simp only [List.length_cons]
          omega
        · have := digits_length_le 8 rest1
          simp only [List.length_cons]
          omega
        · have := digits_length_le 2 rest1
          simp only [List.length_cons]
          omega
        · exact digits_length_le 8 (c :: rest1)
    · simp only [h0, if_false]
      have : digits 10 (ch :: rest) = (ch :: (digits 10 rest).1, (digits 10 rest).2) := by
        simp [digits, List.span_eq_take_drop, List.takeWhile, List.dropWhile, hd]
      rw [this]
      exact digits_length_le 10 rest
  have := scanAfterInt_length_le (scanPrefix (ch :: rest)).1
    (digits (scanPrefix (ch :: rest)).1 (scanPrefix (ch :: rest)).2.2).2
  omega

theorem scanToken_length_le (rt : GoRuntime) (ch : Char) (rest : List Char) :
    (scanToken rt ch rest).2.2.length ≤ rest.length := by
  unfold scanToken
  split_ifs with h1 h2 h3
  · exact span_snd_length_le _ _
  · exact scanNumber_length_lt ch rest h2
  · cases rest with
    | nil => simp
    | cons d rest1 =>
      simp only []
      split_ifs
      · simpa [scanNumber] using scanFraction_length_le 10 true (d :: rest1)
      · exact Nat.le_refl _
  · exact Nat.le_refl _

/-- Every scan that returns a token consumes at least one rune. -/
theorem Scan_length (rt : GoRuntime) (s : List Char) :
    (Scan rt s).2.2.length ≤ s.length ∧
      ((Scan rt s).1 ≠ ScanTok.EOF → (Scan rt s).2.2.length < s.length) := by
  induction s with
  | nil => simp [Scan]
  | cons c s ih =>
    cases hc : isWhitespace c with
    | true =>
      rw [Scan_whitespace_cons rt c s hc]
      simp only [List.length_cons]
      exact ⟨by omega, fun h => by have := ih.2 h; omega⟩
    | false =>
      rw [Scan_token_cons rt c s hc]
      have := scanToken_length_le rt c s
      simp only [List.length_cons]
      exact ⟨by omega, fun _ => by omega⟩

theorem peekEq_length_le (src : List Char) : (peekEq src).2.length ≤ src.length := by
  cases src with
  | nil => simp [peekEq]
  | cons c cs =>
    simp only [peekEq]
    split_ifs <;> simp

theorem ite_length_le {c : Prop} [Decidable c] {a b : Token × List Char} {n : Nat}
    (ha : a.2.length ≤ n) (hb : b.2.length ≤ n) : (if c then a else b).2.length ≤ n := by
  split <;> assumption

theorem switchToken_length_le (l : Lexer) : l.switchToken.2.length ≤ l.scanner.length := by
  unfold Lexer.switchToken
  have := peekEq_length_le l.scanner
  cases l.token with
  | EOF => simp
  | Ident => simp
  | Int => simp
  | Float => simp
  | rune ch =>
    simp only []
    repeat' apply ite_length_le
    all_goals first | exact Nat.le_refl _ | exact this

/-- The lexer after `NextToken` has a smaller bound, unless it was at end of input. -/
theorem NextToken_bound (rt : GoRuntime) (l : Lexer) (h : l.token ≠ ScanTok.EOF) :
    (l.NextToken rt).2.bound + 1 ≤ l.bound := by
  unfold Lexer.bound Lexer.NextToken
  simp only [if_neg h]
  have h1 := switchToken_length_le l
  have h2 := Scan_length rt l.switchToken.2
  unfold Lexer.scan
  simp only []
  split_ifs with he
  · omega
  · have := h2.2 he
    omega

theorem tokens_of_EOF (rt : GoRuntime) (n : Nat) (l : Lexer) (h : l.token = ScanTok.EOF) :
    Lexer.tokens rt n l = [] := by
  cases n with
  | zero => rfl
  | succ n =>
    have : (l.NextToken rt).1.Kind = TokenType.EOF := (switchToken_kind_EOF l).2 h
    simp [Lexer.tokens, this]

theorem tokens_succ (rt : GoRuntime) (n : Nat) (l : Lexer) (h : l.token ≠ ScanTok.EOF) :
    Lexer.tokens rt (n + 1) l = (l.NextToken rt).1 :: Lexer.tokens rt n (l.NextToken rt).2 := by
  have : (l.NextToken rt).1.Kind ≠ TokenType.EOF := fun he => h ((switchToken_kind_EOF l).1 he)
  simp [Lexer.tokens, this]

/-- Any two budgets that reach the lexer's bound give the same tokens. -/
theorem tokens_stable (rt : GoRuntime) (n k : Nat) (l : Lexer) (hn : l.bound ≤ n)
    (hk : l.bound ≤ k) : Lexer.tokens rt n l = Lexer.tokens rt k l := by
  induction n generalizing k l with
  | zero =>
    have h0 : l.token = ScanTok.EOF := by
      unfold Lexer.bound at hn
      split at hn
      · assumption
      · omega
    rw [tokens_of_EOF rt _ l h0, tokens_of_EOF rt _ l h0]
  | succ n ih =>
    by_cases h0 : l.token = ScanTok.EOF
    · rw [tokens_of_EOF rt _ l h0, tokens_of_EOF rt _ l h0]
    · have hb := NextToken_bound rt l h0
      cases k with
      | zero => omega
      | succ k =>
        rw [tokens_succ rt n l h0, tokens_succ rt k l h0,
          ih k (l.NextToken rt).2 (by omega) (by omega)]

theorem allTokens_eq_tokens (rt : GoRuntime) (n : Nat) (l : Lexer) (hn : l.bound ≤ n) :
    Lexer.allTokens rt l = Lexer.tokens rt n l := by
  unfold Lexer.allTokens
  apply tokens_stable rt _ _ l _ hn
  unfold Lexer.bound
  split <;> omega

theorem NextToken_extend (rt : GoRuntime) (l : Lexer) (t : List Char) (ht : startsWithSpace t) :
    (l.extend t).NextToken rt =
      ((l.NextToken rt).1,
        if (l.NextToken rt).2.token = ScanTok.EOF then Lexer.scan rt t
        else (l.NextToken rt).2.extend t) := by
  unfold Lexer.NextToken
  rw [switchToken_extend l t ht]
  simp only []
  rw [Lexer.scan_append rt _ t ht]

/-- The tokens of a lexer whose unread source is followed by text that starts
with whitespace are its own tokens followed by those of that text. -/
theorem tokens_extend (rt : GoRuntime) (t : List Char) (ht : startsWithSpace t) (k : Nat)
    (hk : (Lexer.scan rt t).bound ≤ k) (n : Nat) (l : Lexer) (hn : l.bound ≤ n) :
    Lexer.tokens rt (n + k)
        (if l.token = ScanTok.EOF then Lexer.scan rt t else l.extend t) =
      Lexer.tokens rt n l ++ Lexer.tokens rt k (Lexer.scan rt t) := by
  induction n generalizing l with
  | zero =>
    have h0 : l.token = ScanTok.EOF := by
      unfold Lexer.bound at hn
      split at hn
      · assumption
      · omega
    rw [if_pos h0, tokens_of_EOF rt 0 l h0, List.nil_append]
    exact tokens_stable rt _ _ _ (by omega) hk
  | succ n ih =>
    by_cases h0 : l.token = ScanTok.EOF
    · rw [if_pos h0, tokens_of_EOF rt _ l h0, List.nil_append]
      exact tokens_stable rt _ _ _ (by omega) hk
    · have hb := NextToken_bound rt l h0
      have he : (l.extend t).token ≠ ScanTok.EOF := h0
      rw [if_neg h0, show n + 1 + k = (n + k) + 1 by omega, tokens_succ rt _ _ he,
        tokens_succ rt n l h0, NextToken_extend rt l t ht]
      simp only [List.cons_append]
      rw [ih (l.NextToken rt).2 (by omega)]

theorem scannerInit_append (pre t : List Char) (ht : startsWithSpace t) :
    scannerInit (pre ++ t) = scannerInit pre ++ t := by
  cases pre with
  | nil =>
    cases t with
    | nil => rfl
    | cons w t1 =>
      have : w.toNat ≠ 0xFEFF := by
        rcases isWhitespace_cases w (ht w rfl) with h | h | h | h <;> subst h <;> decide
      simp [scannerInit, this]
  | cons c pre1 =>
    simp only [List.cons_append, scannerInit]
    split_ifs <;> rfl

theorem Lexer.scan_whitespace (rt : GoRuntime) (ws post : List Char)
    (hws : ∀ c ∈ ws, isWhitespace c = true) :
    Lexer.scan rt (ws ++ post) = Lexer.scan rt post := by
  induction ws with
  | nil => rfl
  | cons c ws ih =>
    unfold Lexer.scan
    rw [List.cons_append, Scan_whitespace_cons rt c _ (hws c (List.mem_cons_self _ _))]
    exact ih (fun d hd => hws d (List.mem_cons_of_mem _ hd))

/-- Whitespace separates tokens: the tokens of `pre ++ ws ++ post`, for a
non-empty run `ws` of whitespace, are those of `pre` followed by those of `post`. -/
theorem allTokens_whitespace_separates (rt : GoRuntime) (pre ws post : List Char)
    (hws : ∀ c ∈ ws, isWhitespace c = true) (hne : ws ≠ []) :
    Lexer.allTokens rt (NewLexer rt (pre ++ ws ++ post)) =
      Lexer.allTokens rt (NewLexer rt pre) ++ Lexer.allTokens rt (Lexer.scan rt post) := by
  have ht : startsWithSpace (ws ++ post) := by
    intro c hc
    cases ws with
    | nil => exact absurd rfl hne
    | cons w ws1 =>
      simp only [List.cons_append, List.head?_cons, Option.some.injEq] at hc
      exact hc ▸ hws w (List.mem_cons_self _ _)
  have hscan := Lexer.scan_whitespace rt ws post hws
  unfold NewLexer
  rw [List.append_assoc, scannerInit_append pre _ ht, Lexer.scan_append rt _ _ ht, hscan]
  have hlen := (Scan_length rt post).1
  have hp : (Lexer.scan rt post).scanner = (Scan rt post).2.2 := rfl
  have hk : (Lexer.scan rt post).bound ≤ (ws ++ post).length + 1 := by
    unfold Lexer.bound
    rw [hp, List.length_append]
    split <;> omega
  have hn : (Lexer.scan rt (scannerInit pre)).bound ≤
      (Lexer.scan rt (scannerInit pre)).scanner.length + 1 := by
    unfold Lexer.bound
    split <;> omega
  have key := tokens_extend rt (ws ++ post) ht ((ws ++ post).length + 1)
    (hscan ▸ hk) ((Lexer.scan rt (scannerInit pre)).scanner.length + 1) _ hn
  rw [hscan] at key
  rw [allTokens_eq_tokens rt _ (Lexer.scan rt post) hk,
    show Lexer.allTokens rt (Lexer.scan rt (scannerInit pre)) =
      Lexer.tokens rt ((Lexer.scan rt (scannerInit pre)).scanner.length + 1)
        (Lexer.scan rt (scannerInit pre)) from rfl,
    ← key]
  apply allTokens_eq_tokens
  by_cases h1 : (Lexer.scan rt (scannerInit pre)).token = ScanTok.EOF
  · rw [if_pos h1]
    omega
  · rw [if_neg h1]
    have hx : ((Lexer.scan rt (scannerInit pre)).extend (ws ++ post)).bound =
        (Lexer.scan rt (scannerInit pre)).scanner.length + (ws ++ post).length + 1 := by
      unfold Lexer.bound
      rw [if_neg (show ((Lexer.scan rt (scannerInit pre)).extend (ws ++ post)).token ≠
        ScanTok.EOF from h1)]
      simp [Lexer.extend]
    rw [hx]
    omega

/-- C9 (as amended). Whitespace is transparent to the lexer: when the source is
split between two tokens (lexing the two parts one after the other gives the
tokens of the whole), inserting any run of tabs, newlines, carriage returns and
spaces at the split leaves the token sequence returned by repeated `NextToken`
unchanged; and a source of whitespace alone yields no token. -/
theorem whitespace_transparent (rt : GoRuntime) (pre ws post : List Char)
    (hws : ∀ c ∈ ws, isWhitespace c = true)
    (hb : Lexer.allTokens rt (NewLexer rt (pre ++ post)) =
      Lexer.allTokens rt (NewLexer rt pre) ++ Lexer.allTokens rt (Lexer.scan rt post)) :
    Lexer.allTokens rt (NewLexer rt (pre ++ ws ++ post)) =
        Lexer.allTokens rt (NewLexer rt (pre ++ post)) ∧
      Lexer.allTokens rt (NewLexer rt ws) = [] := by
  have hnil : Lexer.allTokens rt (NewLexer rt []) = [] := rfl
  have hnil1 : Lexer.allTokens rt (Lexer.scan rt []) = [] := rfl
  by_cases hne : ws = []
  · subst hne
    exact ⟨by rw [List.append_nil], hnil⟩
  · constructor
    · rw [allTokens_whitespace_separates rt pre ws post hws hne, hb]
    · have := allTokens_whitespace_separates rt [] ws [] hws hne
      rw [List.nil_append, List.append_nil, hnil, hnil1] at this
      exact this

theorem whitespace_transparent_witness :
    (∀ c ∈ [' ', '\n', '\t'], isWhitespace c = true) ∧
    Lexer.allTokens sampleRuntime (NewLexer sampleRuntime (String.toList "x1>=" ++ String.toList "2;")) =
      Lexer.allTokens sampleRuntime (NewLexer sampleRuntime (String.toList "x1>=")) ++
        Lexer.allTokens sampleRuntime (Lexer.scan sampleRuntime (String.toList "2;")) ∧
    Lexer.allTokens sampleRuntime
        (NewLexer sampleRuntime (String.toList "x1>=" ++ [' ', '\n', '\t'] ++ String.toList "2;")) =
      Lexer.allTokens sampleRuntime (NewLexer sampleRuntime (String.toList "x1>=" ++ String.toList "2;")) ∧
    Lexer.allTokens sampleRuntime (NewLexer sampleRuntime [' ', '\n', '\t']) = [] :=
  ⟨by decide, by decide,
    whitespace_transparent sampleRuntime (String.toList "x1>=") [' ', '\n', '\t']
      (String.toList "2;") (by decide) (by decide)⟩

/-- C9 (as stated) fails for comments: the scanner mode set by `NewLexer` has no
comment handling, so a comment inserted between the tokens of `a b` is lexed
rune by rune into `/`, `*` and identifier tokens. -/
theorem comment_not_transparent :
    Lexer.allTokens sampleRuntime (NewLexer sampleRuntime (String.toList "a b")) =
      [⟨TokenType.IDENT, "a"⟩, ⟨TokenType.IDENT, "b"⟩] ∧
    Lexer.allTokens sampleRuntime (NewLexer sampleRuntime (String.toList "a /* c */ b")) =
      [⟨TokenType.IDENT, "a"⟩, ⟨TokenType.DIVIDE, "/"⟩, ⟨TokenType.MULTIPLY, "*"⟩,
        ⟨TokenType.IDENT, "c"⟩, ⟨TokenType.MULTIPLY, "*"⟩, ⟨TokenType.DIVIDE, "/"⟩,
        ⟨TokenType.IDENT, "b"⟩] ∧
    Lexer.allTokens sampleRuntime (NewLexer sampleRuntime (String.toList "a // c\n b")) =
      [⟨TokenType.IDENT, "a"⟩, ⟨TokenType.DIVIDE, "/"⟩, ⟨TokenType.DIVIDE, "/"⟩,
        ⟨TokenType.IDENT, "c"⟩, ⟨TokenType.IDENT, "b"⟩] := by
  refine ⟨?_, ?_, ?_⟩ <;> decide

/-! ## Generator state -/

/-- The `ForStatement` case of `generateStatement`, part by part. -/
theorem generateStatement_for (rt : GoRuntime) (cg : CodeGen) (init post : Statement)
    (cond : Expression) (body : List Statement) :
    generateStatement rt cg (Statement.ForStatement init cond post body) =
      match generateForPart rt cg init with
      | none => none
      | some (initStmt, cg1) =>
        match generateForPart rt cg1 post with
        | none => none
        | some (postStmt, cg2) =>
          match generateStatements rt "\t" cg2 body with
          | none => none
          | some (bodyText, cg3) =>
            some ("for " ++ initStmt ++ "; " ++ generateExpression rt cond ++ "; " ++ postStmt
              ++ " \x7b\n" ++ bodyText ++ "\x7d", cg3) := by
  cases init <;> cases post <;> simp only [generateStatement, generateForPart]

/-- What a generated for-loop part leaves behind: the generator of
`generateStatement` on that part, or the unchanged generator for an absent part. -/
theorem generateForPart_some (rt : GoRuntime) (cg cg1 : CodeGen) (stmt : Statement)
    (text : String) (h : generateForPart rt cg stmt = some (text, cg1)) :
    (stmt = Statement.nil ∧ cg1 = cg) ∨
      ∃ text0, generateStatement rt cg stmt = some (text0, cg1) := by
  cases stmt with
  | nil =>
    simp only [generateForPart, Option.some.injEq, Prod.mk.injEq] at h
    exact Or.inl ⟨rfl, h.2.symm⟩
  | nilPtr T => simp [generateForPart, generateStatement] at h
  | VarStatement name value =>
    right
    simp only [generateForPart] at h
    cases hg : generateStatement rt cg (Statement.VarStatement name value) with
    | none => simp [hg] at h
    | some r =>
      obtain ⟨t0, c0⟩ := r
      simp only [hg] at h
      cases hf : forPartText c0 (Statement.VarStatement name value) t0 with
      | none => simp [hf] at h
      | some t1 =>
        simp only [hf, Option.some.injEq, Prod.mk.injEq] at h
        exact ⟨t0, by rw [h.2]⟩
  | ArrayStatement name values =>
    right
    simp only [generateForPart] at h
    cases hg : generateStatement rt cg (Statement.ArrayStatement name values) with
    | none => simp [hg] at h
    | some r =>
      obtain ⟨t0, c0⟩ := r
      simp only [hg, forPartText, Option.some.injEq, Prod.mk.injEq] at h
      exact ⟨t0, by rw [h.2]⟩
  | IfStatement c a b =>
    right
    simp only [generateForPart] at h
    cases hg : generateStatement rt cg (Statement.IfStatement c a b) with
    | none => simp [hg] at h
    | some r =>
      obtain ⟨t0, c0⟩ := r
      simp only [hg, forPartText, Option.some.injEq, Prod.mk.injEq] at h
      exact ⟨t0, by rw [h.2]⟩
  | ForStatement i c q b =>
    right
    simp only [generateForPart] at h
    cases hg : generateStatement rt cg (Statement.ForStatement i c q b) with
    | none => simp [hg] at h
    | some r =>
      obtain ⟨t0, c0⟩ := r
      simp only [hg, forPartText, Option.some.injEq, Prod.mk.injEq] at h
      exact ⟨t0, by rw [h.2]⟩
  | PrintStatement v =>
    right
    simp only [generateForPart] at h
    cases hg : generateStatement rt cg (Statement.PrintStatement v) with
    | none => simp [hg] at h
    | some r =>
      obtain ⟨t0, c0⟩ := r
      simp only [hg, forPartText, Option.some.injEq, Prod.mk.injEq] at h
      exact ⟨t0, by rw [h.2]⟩

theorem declare_vars (cg : CodeGen) (name n : String) :
    (cg.declare name).vars n = true ↔ n = name ∨ cg.vars n = true := by
  unfold CodeGen.declare
  by_cases h : n = name <;> simp [h]

mutual
/-- Generating a statement never removes a name from the declared set, and adds
every name the statement binds at any depth. -/
theorem generateStatement_vars (rt : GoRuntime) :
    ∀ (s : Statement) (cg cg1 : CodeGen) (text n : String),
      generateStatement rt cg s = some (text, cg1) →
      (cg.vars n = true ∨ Statement.binds n s = true) → cg1.vars n = true
  | Statement.nil, cg, cg1, text, n, h, hn => by
    simp only [generateStatement, Option.some.injEq, Prod.mk.injEq] at h
    rw [← h.2]
    simpa [Statement.binds] using hn
  | Statement.nilPtr T, cg, cg1, text, n, h, hn => by simp [generateStatement] at h
  | Statement.PrintStatement v, cg, cg1, text, n, h, hn => by
    simp only [generateStatement, Option.some.injEq, Prod.mk.injEq] at h
    rw [← h.2]
    simpa [Statement.binds] using hn
  | Statement.VarStatement name value, cg, cg1, text, n, h, hn => by
    rw [generateStatement] at h
    by_cases hv : cg.vars name = true
    · simp only [hv, if_true, Option.some.injEq, Prod.mk.injEq] at h
      rw [← h.2]
      rcases hn with hn | hn
      · exact hn
      · simp only [Statement.binds, decide_eq_true_eq] at hn
        rw [← hn]
        exact hv
    · simp only [hv, Bool.false_eq_true, if_false, Option.some.injEq, Prod.mk.injEq] at h
      rw [← h.2, declare_vars]
      rcases hn with hn | hn
      · exact Or.inr hn
      · simp only [Statement.binds, decide_eq_true_eq] at hn
        exact Or.inl hn.symm
  | Statement.ArrayStatement name values, cg, cg1, text, n, h, hn => by
    rw [generateStatement] at h
    by_cases hv : cg.vars name = true
    · simp only [hv, if_true, Option.some.injEq, Prod.mk.injEq] at h
      rw [← h.2]
      rcases hn with hn | hn
      · exact hn
      · simp only [Statement.binds, decide_eq_true_eq] at hn
        rw [← hn]
        exact hv
    · simp only [hv, Bool.false_eq_true, if_false, Option.some.injEq, Prod.mk.injEq] at h
      rw [← h.2, declare_vars]
      rcases hn with hn | hn
      · exact Or.inr hn
      · simp only [Statement.binds, decide_eq_true_eq] at hn
        exact Or.inl hn.symm
  | Statement.IfStatement c cons alt, cg, cg1, text, n, h, hn => by
    rw [generateStatement] at h
    cases hc : generateStatements rt "\t\t" cg cons with
    | none => simp [hc] at h
    | some r =>
      obtain ⟨ct, cgc⟩ := r
      have h1 := generateStatements_vars rt cons "\t\t" cg cgc ct n hc
      simp only [hc] at h
      cases alt with
      | nil =>
        simp only [Option.some.injEq, Prod.mk.injEq] at h
        rw [← h.2]
        apply h1
        simpa [Statement.binds, Statement.bindsList] using hn
      | cons a as =>
        simp only at h
        cases ha : generateStatements rt "\t\t" cgc (a :: as) with
        | none => simp [ha] at h
        | some r2 =>
          obtain ⟨at1, cga⟩ := r2
          have h2 := generateStatements_vars rt (a :: as) "\t\t" cgc cga at1 n ha
          simp only [ha, Option.some.injEq, Prod.mk.injEq] at h
          rw [← h.2]
          apply h2
          simp only [Statement.binds, Bool.or_eq_true] at hn
          rcases hn with hn | hn | hn
          · exact Or.inl (h1 (Or.inl hn))
          · exact Or.inl (h1 (Or.inr hn))
          · exact Or.inr hn
  | Statement.ForStatement init c post body, cg, cg1, text, n, h, hn => by
    rw [generateStatement_for] at h
    cases hi : generateForPart rt cg init with
    | none => simp [hi] at h
    | some r =>
      obtain ⟨it, cgi⟩ := r
      simp only [hi] at h
      cases hp : generateForPart rt cgi post with
      | none => simp [hp] at h
      | some r2 =>
        obtain ⟨pt, cgp⟩ := r2
        simp only [hp] at h
        cases hb : generateStatements rt "\t" cgp body with
        | none => simp [hb] at h
        | some r3 =>
          obtain ⟨bt, cgb⟩ := r3
          simp only [hb, Option.some.injEq, Prod.mk.injEq] at h
          rw [← h.2]
          have h1 : (cg.vars n = true ∨ Statement.binds n init = true) → cgi.vars n = true := by
            rcases generateForPart_some rt cg cgi init it hi with ⟨hnil, hcg⟩ | ⟨t0, hg⟩
            · subst hnil
              rw [hcg]
              intro hh
              simpa [Statement.binds] using hh
            · exact generateStatement_vars rt init cg cgi t0 n hg
          have h2 : (cgi.vars n = true ∨ Statement.binds n post = true) → cgp.vars n = true := by
            rcases generateForPart_some rt cgi cgp post pt hp with ⟨hnil, hcg⟩ | ⟨t0, hg⟩
            · subst hnil
              rw [hcg]
              intro hh
              simpa [Statement.binds] using hh
            · exact generateStatement_vars rt post cgi cgp t0 n hg
          have h3 := generateStatements_vars rt body "\t" cgp cgb bt n hb
          simp only [Statement.binds, Bool.or_eq_true] at hn
          rcases hn with hn | (hn | hn) | hn
          · exact h3 (Or.inl (h2 (Or.inl (h1 (Or.inl hn)))))
          · exact h3 (Or.inl (h2 (Or.inl (h1 (Or.inr hn)))))
          · exact h3 (Or.inl (h2 (Or.inr hn)))
          · exact h3 (Or.inr hn)
/-- The same for a statement loop. -/
theorem generateStatements_vars (rt : GoRuntime) :
    ∀ (ss : List Statement) (indent : String) (cg cg1 : CodeGen) (text n : String),
      generateStatements rt indent cg ss = some (text, cg1) →
      (cg.vars n = true ∨ Statement.bindsList n ss = true) → cg1.vars n = true
  | [], indent, cg, cg1, text, n, h, hn => by
    simp only [generateStatements, Option.some.injEq, Prod.mk.injEq] at h
    rw [← h.2]
    simpa [Statement.bindsList] using hn
  | s :: ss, indent, cg, cg1, text, n, h, hn => by
    rw [generateStatements] at h
    cases hs : generateStatement rt cg s with
    | none => simp [hs] at h
    | some r =>
      obtain ⟨t0, cg0⟩ := r
      simp only [hs] at h
      cases hr : generateStatements rt indent cg0 ss with
      | none => simp [hr] at h
      | some r2 =>
        obtain ⟨t2, cg2⟩ := r2
        simp only [hr, Option.some.injEq, Prod.mk.injEq] at h
        rw [← h.2]
        have h1 := generateStatement_vars rt s cg cg0 t0 n hs
        have h2 := generateStatements_vars rt ss indent cg0 cg2 t2 n hr
        simp only [Statement.bindsList, Bool.or_eq_true] at hn
        rcases hn with hn | hn | hn
        · exact h2 (Or.inl (h1 (Or.inl hn)))
        · exact h2 (Or.inl (h1 (Or.inr hn)))
        · exact h2 (Or.inr hn)
end

theorem forPartText_some (cg : CodeGen) (stmt : Statement) (text : String)
    (h : Statement.wellFormed stmt = true) : ∃ t, forPartText cg stmt text = some t := by
  cases stmt with
  | nilPtr T => simp [Statement.wellFormed] at h
  | VarStatement name value =>
    unfold forPartText
    simp only
    split_ifs
    · split <;> exact ⟨_, rfl⟩
    · exact ⟨_, rfl⟩
  | nil => exact ⟨_, rfl⟩
  | ArrayStatement a b => exact ⟨_, rfl⟩
  | IfStatement a b c => exact ⟨_, rfl⟩
  | ForStatement a b c d => exact ⟨_, rfl⟩
  | PrintStatement a => exact ⟨_, rfl⟩

theorem generateForPart_total (rt : GoRuntime) (cg : CodeGen) (stmt : Statement)
    (hw : Statement.wellFormed stmt = true)
    (hg : ∃ text cg1, generateStatement rt cg stmt = some (text, cg1)) :
    ∃ text cg1, generateForPart rt cg stmt = some (text, cg1) := by
  obtain ⟨t0, cg1, hg⟩ := hg
  obtain ⟨t1, ht⟩ := forPartText_some cg1 stmt t0 hw
  cases stmt with
  | nil => exact ⟨_, _, rfl⟩
  | nilPtr T => simp [Statement.wellFormed] at hw
  | VarStatement a b => exact ⟨t1, cg1, by simp only [generateForPart, hg, ht]⟩
  | ArrayStatement a b => exact ⟨t1, cg1, by simp only [generateForPart, hg, ht]⟩
  | IfStatement a b c => exact ⟨t1, cg1, by simp only [generateForPart, hg, ht]⟩
  | ForStatement a b c d => exact ⟨t1, cg1, by simp only [generateForPart, hg, ht]⟩
  | PrintStatement a => exact ⟨t1, cg1, by simp only [generateForPart, hg, ht]⟩

mutual
/-- Generation completes on every statement without a nil pointer node. -/
theorem generateStatement_total (rt : GoRuntime) :
    ∀ (s : Statement) (cg : CodeGen), Statement.wellFormed s = true →
      ∃ text cg1, generateStatement rt cg s = some (text, cg1)
  | Statement.nil, cg, _ => ⟨_, _, by rw [generateStatement]⟩
  | Statement.nilPtr T, cg, h => by simp [Statement.wellFormed] at h
  | Statement.PrintStatement v, cg, _ => ⟨_, _, by rw [generateStatement]⟩
  | Statement.VarStatement name value, cg, _ => by
    rw [generateStatement]
    split_ifs <;> exact ⟨_, _, rfl⟩
  | Statement.ArrayStatement name values, cg, _ => by
    rw [generateStatement]
    split_ifs <;> exact ⟨_, _, rfl⟩
  | Statement.IfStatement c cons alt, cg, h => by
    simp only [Statement.wellFormed, Bool.and_eq_true] at h
    obtain ⟨ct, cgc, hc⟩ := generateStatements_total rt cons "\t\t" cg h.1
    rw [generateStatement]
    simp only [hc]
    cases alt with
    | nil => exact ⟨_, _, rfl⟩
    | cons a as =>
      obtain ⟨at1, cga, ha⟩ := generateStatements_total rt (a :: as) "\t\t" cgc h.2
      simp only [ha]
      exact ⟨_, _, rfl⟩
  | Statement.ForStatement init c post body, cg, h => by
    simp only [Statement.wellFormed, Bool.and_eq_true] at h
    obtain ⟨it, cgi, hi⟩ := generateForPart_total rt cg init h.1.1
      (generateStatement_total rt init cg h.1.1)
    obtain ⟨pt, cgp, hp⟩ := generateForPart_total rt cgi post h.1.2
      (generateStatement_total rt post cgi h.1.2)
    obtain ⟨bt, cgb, hb⟩ := generateStatements_total rt body "\t" cgp h.2
    rw [generateStatement_for]
    simp only [hi, hp, hb]
    exact ⟨_, _, rfl⟩
/-- The same for a statement loop. -/
theorem generateStatements_total (rt : GoRuntime) :
    ∀ (ss : List Statement) (indent : String) (cg : CodeGen),
      Statement.wellFormedList ss = true →
      ∃ text cg1, generateStatements rt indent cg ss = some (text, cg1)
  | [], indent, cg, _ => ⟨_, _, by rw [generateStatements]⟩
  | s :: ss, indent, cg, h => by
    simp only [Statement.wellFormedList, Bool.and_eq_true] at h
    obtain ⟨t0, cg0, hs⟩ := generateStatement_total rt s cg h.1
    obtain ⟨t1, cg1, hr⟩ := generateStatements_total rt ss indent cg0 h.2
    rw [generateStatements]
    simp only [hs, hr]
    exact ⟨_, _, rfl⟩
end

/-- On a list without nil pointer nodes every statement is generated, and a
binding whose name is declared, or bound at any depth by an earlier statement of
the list, is generated in its assign form. -/
theorem generateEach_later (rt : GoRuntime) (stmts : List Statement) (cg : CodeGen)
    (hw : Statement.wellFormedList stmts = true) :
    ∃ lines cg1, generateEach rt cg stmts = some (lines, cg1) ∧
      ∀ (i : Nat) (later : Statement) (n : String),
        stmts[i]? = some later → later.boundName = some n →
        (cg.vars n = true ∨
          ∃ (j : Nat) (block : Statement), j < i ∧ stmts[j]? = some block ∧ Statement.binds n block = true) →
        lines[i]? = some (assignForm rt later) := by
  induction stmts generalizing cg with
  | nil => exact ⟨[], cg, rfl, by simp⟩
  | cons s rest ih =>
    simp only [Statement.wellFormedList, Bool.and_eq_true] at hw
    obtain ⟨t0, cg0, hs⟩ := generateStatement_total rt s cg hw.1
    obtain ⟨lines, cg1, hl, hi⟩ := ih cg0 hw.2
    refine ⟨t0 :: lines, cg1, by simp only [generateEach, hs, hl], ?_⟩
    intro i later n hlater hname hprev
    cases i with
    | zero =>
      simp only [List.getElem?_cons_zero, Option.some.injEq] at hlater
      subst hlater
      rcases hprev with hv | ⟨j, block, hj, _, _⟩
      · rw [generateStatement_binding rt cg s n hname] at hs
        simp only [hv, if_true, Option.some.injEq, Prod.mk.injEq] at hs
        simp [hs.1]
      · omega
    | succ i =>
      simp only [List.getElem?_cons_succ] at hlater ⊢
      apply hi i later n hlater hname
      rcases hprev with hv | ⟨j, block, hj, hblock, hb⟩
      · exact Or.inl (generateStatement_vars rt s cg cg0 t0 n hs (Or.inl hv))
      · cases j with
        | zero =>
          simp only [List.getElem?_cons_zero, Option.some.injEq] at hblock
          subst hblock
          exact Or.inl (generateStatement_vars rt s cg cg0 t0 n hs (Or.inr hb))
        | succ j =>
          simp only [List.getElem?_cons_succ] at hblock
          exact Or.inr ⟨j, block, by omega, hblock, hb⟩

/-- C11. Declaration tracking is program-global.  Generating a statement never
removes a name from the declared set and adds every name bound anywhere inside
the statement (in the blocks of a conditional, in the init, post or body of a
loop); a binding of a name that is in the declared set is emitted in the assign
form, which differs from the declare form.  Hence, in a program without nil
pointer nodes, a top-level binding of `n` that comes after a statement binding
`n` at any depth is emitted as `n = ...`. -/
theorem declaration_tracking_global (rt : GoRuntime) :
    (∀ (s : Statement) (cg cg1 : CodeGen) (text n : String),
      generateStatement rt cg s = some (text, cg1) →
      (cg.vars n = true ∨ Statement.binds n s = true) → cg1.vars n = true) ∧
    (∀ (later : Statement) (cg : CodeGen) (n : String),
      later.boundName = some n → cg.vars n = true →
      generateStatement rt cg later = some (assignForm rt later, cg) ∧
      assignForm rt later ≠ declareForm rt later) ∧
    (∀ (stmts : List Statement) (n : String) (i j : Nat) (block later : Statement),
      Statement.wellFormedList stmts = true →
      stmts[j]? = some block → Statement.binds n block = true → j < i →
      stmts[i]? = some later → later.boundName = some n →
      ∃ lines cg, generateEach rt NewCodeGen stmts = some (lines, cg) ∧
        Generate rt NewCodeGen { Statements := stmts } =
          some (programTemplate (writeLines "\t" lines), cg) ∧
        lines[i]? = some (assignForm rt later)) := by
  refine ⟨generateStatement_vars rt, ?_, ?_⟩
  · intro later cg n hname hv
    refine ⟨?_, ?_⟩
    · rw [generateStatement_binding rt cg later n hname]
      simp [hv]
    · have hb : later.isBinding = true := by
        cases later <;> simp [Statement.boundName, Statement.isBinding] at hname ⊢
      exact fun h => declareForm_ne_assignForm rt later hb h.symm
  · intro stmts n i j block later hw hj hb hji hi hname
    obtain ⟨lines, cg, hl, hlater⟩ := generateEach_later rt stmts NewCodeGen hw
    refine ⟨lines, cg, hl, ?_, hlater i later n hi hname (Or.inr ⟨j, block, hji, hj, hb⟩)⟩
    simp [Generate, generateStatements_eq_writeLines, hl, programTemplate]

theorem declaration_tracking_global_witness :
    ∃ lines cg,
      generateEach sampleRuntime NewCodeGen
        [Statement.IfStatement (Expression.Identifier "c")
            [Statement.VarStatement "x" (Expression.NumberLiteral ⟨1⟩)] [],
          Statement.VarStatement "x" (Expression.NumberLiteral ⟨2⟩)] = some (lines, cg) ∧
      Generate sampleRuntime NewCodeGen
        { Statements :=
          [Statement.IfStatement (Expression.Identifier "c")
              [Statement.VarStatement "x" (Expression.NumberLiteral ⟨1⟩)] [],
            Statement.VarStatement "x" (Expression.NumberLiteral ⟨2⟩)] } =
        some (programTemplate (writeLines "\t" lines), cg) ∧
      lines[1]? = some (assignForm sampleRuntime
        (Statement.VarStatement "x" (Expression.NumberLiteral ⟨2⟩))) :=
  (declaration_tracking_global sampleRuntime).2.2
    [Statement.IfStatement (Expression.Identifier "c")
        [Statement.VarStatement "x" (Expression.NumberLiteral ⟨1⟩)] [],
      Statement.VarStatement "x" (Expression.NumberLiteral ⟨2⟩)]
    "x" 1 0
    (Statement.IfStatement (Expression.Identifier "c")
      [Statement.VarStatement "x" (Expression.NumberLiteral ⟨1⟩)] [])
    (Statement.VarStatement "x" (Expression.NumberLiteral ⟨2⟩))
    (by decide) (by decide) (by decide) (by decide) (by decide) (by decide)

/-- The program of `if c { lazy x = 1 } lazy x = 2`: `x := 1` inside the if and
`x = 2` after it. -/
theorem declaration_tracking_global_example :
    parseSource sampleRuntime 200 (String.toList "if c { lazy x = 1 } lazy x = 2") =
      some { Statements :=
        [Statement.IfStatement (Expression.Identifier "c")
            [Statement.VarStatement "x" (Expression.NumberLiteral ⟨1⟩)] [],
          Statement.VarStatement "x" (Expression.NumberLiteral ⟨2⟩)] } ∧
    (Generate sampleRuntime NewCodeGen
        { Statements :=
          [Statement.IfStatement (Expression.Identifier "c")
              [Statement.VarStatement "x" (Expression.NumberLiteral ⟨1⟩)] [],
            Statement.VarStatement "x" (Expression.NumberLiteral ⟨2⟩)] }).map Prod.fst =
      some (programTemplate "\tif c \x7b\n\t\tx := 1\n\t\x7d\n\tx = 2\n") := by
  constructor
  · decide
  · decide

/-- The texts of `generateEach` are, position by position, what `generateStatement`
returns for the statements of the list. -/
theorem generateEach_line (rt : GoRuntime) (stmts : List Statement) (cg cg1 : CodeGen)
    (lines : List String) (h : generateEach rt cg stmts = some (lines, cg1)) :
    lines.length = stmts.length ∧
    ∀ (i : Nat) (s : Statement), stmts[i]? = some s →
      ∃ cgi cgj text, generateStatement rt cgi s = some (text, cgj) ∧ lines[i]? = some text := by
  induction stmts generalizing cg lines with
  | nil =>
    simp only [generateEach, Option.some.injEq, Prod.mk.injEq] at h
    simp [← h.1]
  | cons s rest ih =>
    rw [generateEach] at h
    cases hs : generateStatement rt cg s with
    | none => simp [hs] at h
    | some r =>
      obtain ⟨t0, cg0⟩ := r
      simp only [hs] at h
      cases hr : generateEach rt cg0 rest with
      | none => simp [hr] at h
      | some r1 =>
        obtain ⟨ls, cg2⟩ := r1
        simp only [hr, Option.some.injEq, Prod.mk.injEq] at h
        obtain ⟨hlen, hline⟩ := ih cg0 ls (by rw [hr, h.2])
        rw [← h.1]
        refine ⟨by simp [hlen], ?_⟩
        intro i s1 hi
        cases i with
        | zero =>
          simp only [List.getElem?_cons_zero, Option.some.injEq] at hi
          subst hi
          exact ⟨cg, cg0, t0, hs, by simp⟩
        | succ i =>
          simp only [List.getElem?_cons_succ] at hi ⊢
          exact hline i s1 hi

/-- C16. `Generate` wraps the program in one fixed template: whenever the
statements are generated, the output is the fixed header, then for each top-level
statement in order a tab, the text `generateStatement` returned for it and a
newline, then the closing brace line; the statements of a program without nil
pointer nodes are all generated; and the output for the empty program is the
template with an empty body. -/
theorem generate_template (rt : GoRuntime) (cg : CodeGen) (stmts : List Statement) :
    Generate rt cg { Statements := stmts } =
      (generateEach rt cg stmts).map (fun r =>
        ("package main\n\nimport \"fmt\"\n\nfunc main() \x7b\n" ++ writeLines "\t" r.1 ++ "\x7d\n",
          r.2)) ∧
    (∀ lines cg1, generateEach rt cg stmts = some (lines, cg1) →
      lines.length = stmts.length ∧
      ∀ (i : Nat) (s : Statement), stmts[i]? = some s →
        ∃ cgi cgj text, generateStatement rt cgi s = some (text, cgj) ∧
          lines[i]? = some text) ∧
    (Statement.wellFormedList stmts = true →
      ∃ lines cg1, generateEach rt cg stmts = some (lines, cg1)) ∧
    Generate rt cg { Statements := [] } =
      some ("package main\n\nimport \"fmt\"\n\nfunc main() \x7b\n\x7d\n", cg) := by
  refine ⟨?_, ?_, ?_, ?_⟩
  · rw [Generate, generateStatements_eq_writeLines]
    cases generateEach rt cg stmts with
    | none => rfl
    | some r =>
      simp only [Option.map_some']
      congr 2
  · intro lines cg1 h
    exact generateEach_line rt stmts cg cg1 lines h
  · intro hw
    obtain ⟨lines, cg1, hl, _⟩ := generateEach_later rt stmts cg hw
    exact ⟨lines, cg1, hl⟩
  · simp only [Generate, generateStatements]
    congr 2

theorem generate_template_witness :
    ∃ lines cg1,
      generateEach sampleRuntime NewCodeGen
        [Statement.VarStatement "x" (Expression.NumberLiteral ⟨1⟩),
          Statement.PrintStatement (Expression.Identifier "x")] = some (lines, cg1) :=
  (generate_template sampleRuntime NewCodeGen
    [Statement.VarStatement "x" (Expression.NumberLiteral ⟨1⟩),
      Statement.PrintStatement (Expression.Identifier "x")]).2.2.1 (by decide)

/-- The output for `lazy x = 1 lazyPrint(x)`, a header, two lines and the
closing brace. -/
theorem generate_template_example :
    (Generate sampleRuntime NewCodeGen
        { Statements :=
          [Statement.VarStatement "x" (Expression.NumberLiteral ⟨1⟩),
            Statement.PrintStatement (Expression.Identifier "x")] }).map Prod.fst =
      some "package main\n\nimport \"fmt\"\n\nfunc main() \x7b\n\tx := 1\n\tfmt.Println(x)\n\x7d\n" := by
  decide

/-! ## Token boundaries -/

theorem or_32_div (x : Nat) : (x ||| 32) / 64 = x / 64 := by
  have h : ∀ a b : Nat, (a ||| b) / 2 = a / 2 ||| b / 2 := fun a b => Nat.or_div_two
  rw [show (64 : Nat) = 2 * 2 * 2 * 2 * 2 * 2 from rfl]
  simp only [← Nat.div_div_eq_div_mul, h]
  simp

theorem lower_letter_aux : ∀ n : Nat, n < 128 → 97 ≤ n ||| 32 → n ||| 32 ≤ 122 →
    (Char.ofNat n).isAlpha = true := by
  decide

theorem lower_letter (c : Char) (h1 : 97 ≤ lower c) (h2 : lower c ≤ 122) :
    c.toNat < 128 ∧ c.isAlpha = true := by
  unfold lower at h1 h2
  have hd := or_32_div c.toNat
  have hlt : c.toNat < 128 := by omega
  have := lower_letter_aux c.toNat hlt h1 h2
  rw [Char.ofNat_toNat] at this
  exact ⟨hlt, this⟩

/-- What distinguishes a stop rune for the scanner and the lexer. -/
theorem stopRune_facts (rt : GoRuntime) (c : Char) (h : isStopRune rt c = true) :
    isIdentRune rt c 1 = false ∧ isDecimal c = false ∧ c ≠ '.' ∧ c ≠ '+' ∧ c ≠ '-' ∧
      c ≠ '=' ∧ c ≠ '0' ∧ c ≠ '_' ∧ isHex c = false ∧
      lower c ≠ 101 ∧ lower c ≠ 112 ∧ lower c ≠ 120 ∧ lower c ≠ 111 ∧ lower c ≠ 98 := by
  simp only [isStopRune, Bool.and_eq_true, Bool.not_eq_true', beq_eq_false_iff_ne, ne_eq] at h
  obtain ⟨⟨⟨⟨⟨hid, hdec⟩, hdot⟩, hplus⟩, hminus⟩, heq⟩ := h
  have hletter : ¬ (97 ≤ lower c ∧ lower c ≤ 122) := by
    intro hl
    obtain ⟨hlt, ha⟩ := lower_letter c hl.1 hl.2
    simp [isIdentRune, isLetter, hlt, ha] at hid
  have h0 : c ≠ '0' := by
    intro hc
    rw [hc] at hdec
    exact absurd hdec (by decide)
  have hu : c ≠ '_' := by
    intro hc
    rw [hc] at hid
    simp [isIdentRune] at hid
  have hhex : isHex c = false := by
    unfold isHex
    rw [hdec]
    simp only [Bool.false_or, Bool.and_eq_false_iff, decide_eq_false_iff_not]
    by_cases hx : 'a'.toNat ≤ lower c
    · right
      intro hy
      exact hletter ⟨hx, Nat.le_trans hy (by decide)⟩
    · exact Or.inl hx
  refine ⟨hid, hdec, hdot, hplus, hminus, heq, h0, hu, hhex, ?_, ?_, ?_, ?_, ?_⟩ <;>
    intro hl <;> exact hletter (by omega)

/-- Whitespace runes are stop runes. -/
theorem isStopRune_whitespace (rt : GoRuntime) (c : Char) (h : isWhitespace c = true) :
    isStopRune rt c = true := by
  have hid := isIdentRune_whitespace rt c 1 h
  rcases isWhitespace_cases c h with hc | hc | hc | hc <;> subst hc <;>
    simp only [isStopRune, hid] <;> decide

theorem startsWithStop_digit (rt : GoRuntime) (t : List Char) (ht : startsWithStop rt t)
    (base : Nat) :
    ∀ c, t.head? = some c →
      (if base ≤ 10 then (isDecimal c || c == '_') else (isHex c || c == '_')) = false := by
  intro c hc
  obtain ⟨_, hdec, _, _, _, _, _, hu, hhex, _⟩ := stopRune_facts rt c (ht c hc)
  split <;> simp [hdec, hhex, hu]

theorem digits_stop_append (rt : GoRuntime) (base : Nat) (l t : List Char)
    (ht : startsWithStop rt t) :
    digits base (l ++ t) = ((digits base l).1, (digits base l).2 ++ t) := by
  unfold digits
  split
  · exact span_append_stop l t (fun c hc => by
      have := startsWithStop_digit rt t ht 10 c hc
      simpa using this)
  · exact span_append_stop l t (fun c hc => by
      have := startsWithStop_digit rt t ht 16 c hc
      simpa using this)

theorem digits_stop (rt : GoRuntime) (base : Nat) (t : List Char) (ht : startsWithStop rt t) :
    digits base t = ([], t) := by
  have := digits_stop_append rt base [] t ht
  simpa [digits, List.span_eq_take_drop] using this

theorem scanExponent_stop (rt : GoRuntime) (t : List Char) (ht : startsWithStop rt t) :
    scanExponent t = (false, [], t) := by
  cases t with
  | nil => rfl
  | cons w t1 =>
    obtain ⟨_, _, _, _, _, _, _, _, _, he, hp, _⟩ := stopRune_facts rt w (ht w rfl)
    simp [scanExponent, he, hp]

theorem scanExponent_stop_append (rt : GoRuntime) (l t : List Char) (ht : startsWithStop rt t) :
    scanExponent (l ++ t) =
      ((scanExponent l).1, (scanExponent l).2.1, (scanExponent l).2.2 ++ t) := by
  cases l with
  | nil => simpa [scanExponent] using scanExponent_stop rt t ht
  | cons ch rest =>
    by_cases hc : lower ch = 'e'.toNat ∨ lower ch = 'p'.toNat
    · cases rest with
      | nil =>
        cases t with
        | nil => simp only [List.append_nil]
        | cons w t1 =>
          obtain ⟨_, _, _, hplus, hminus, _⟩ := stopRune_facts rt w (ht w rfl)
          have hd := digits_stop rt 10 (w :: t1) ht
          have hs : ¬ (w = '+' ∨ w = '-') := by simp [hplus, hminus]
          simp only [List.cons_append, List.nil_append, scanExponent, if_pos hc, if_neg hs, hd]
      | cons sg rest1 =>
        by_cases hs : sg = '+' ∨ sg = '-'
        · simp only [List.cons_append, scanExponent, if_pos hc, if_pos hs]
          rw [digits_stop_append rt 10 rest1 t ht]
        · have := digits_stop_append rt 10 (sg :: rest1) t ht
          simp only [List.cons_append] at this
          simp only [List.cons_append, scanExponent, if_pos hc, if_neg hs, this]
    · simp only [List.cons_append, scanExponent, if_neg hc]

theorem scanFraction_stop_append (rt : GoRuntime) (base : Nat) (seenDot : Bool)
    (l t : List Char) (ht : startsWithStop rt t) :
    scanFraction base seenDot (l ++ t) =
      ((scanFraction base seenDot l).1, (scanFraction base seenDot l).2.1,
        (scanFraction base seenDot l).2.2 ++ t) := by
  unfold scanFraction
  cases seenDot with
  | true =>
    simp only [if_true]
    rw [digits_stop_append rt base l t ht, scanExponent_stop_append rt _ t ht]
  | false =>
    simp only [Bool.false_eq_true, if_false]
    rw [scanExponent_stop_append rt l t ht]

theorem scanPrefix_stop_append (rt : GoRuntime) (l t : List Char) (ht : startsWithStop rt t) :
    scanPrefix (l ++ t) = ((scanPrefix l).1, (scanPrefix l).2.1, (scanPrefix l).2.2 ++ t) := by
  cases l with
  | nil =>
    cases t with
    | nil => rfl
    | cons w t1 =>
      obtain ⟨_, _, _, _, _, _, h0, _⟩ := stopRune_facts rt w (ht w rfl)
      simp [scanPrefix, h0]
  | cons ch0 rest0 =>
    by_cases h0 : ch0 = '0'
    · cases rest0 with
      | nil =>
        cases t with
        | nil => simp [scanPrefix, h0]
        | cons w t1 =>
          obtain ⟨_, _, _, _, _, _, _, _, _, _, _, hx, ho, hb⟩ := stopRune_facts rt w (ht w rfl)
          simp [scanPrefix, h0, hx, ho, hb]
      | cons ch rest1 =>
        simp only [List.cons_append, scanPrefix, h0, if_true]
        split_ifs <;> simp
    · simp [scanPrefix, h0]

theorem scanAfterInt_stop_append (rt : GoRuntime) (base : Nat) (l t : List Char)
    (ht : startsWithStop rt t) :
    scanAfterInt base (l ++ t) =
      ((scanAfterInt base l).1, (scanAfterInt base l).2.1, (scanAfterInt base l).2.2 ++ t) := by
  cases l with
  | nil =>
    have h := scanFraction_stop_append rt base false [] t ht
    simp only [List.nil_append] at h
    cases t with
    | nil => simp [scanAfterInt]
    | cons w t1 =>
      obtain ⟨_, _, hdot, _⟩ := stopRune_facts rt w (ht w rfl)
      simp only [List.nil_append, scanAfterInt, hdot, if_false]
      exact h
  | cons ch rest =>
    by_cases hd : ch = '.'
    · simp only [List.cons_append, scanAfterInt, hd, if_true]
      rw [scanFraction_stop_append rt base true rest t ht]
    · simp only [List.cons_append, scanAfterInt, hd, if_false]
      exact scanFraction_stop_append rt base false (ch :: rest) t ht

theorem scanNumber_stop_append (rt : GoRuntime) (seenDot : Bool) (l t : List Char)
    (ht : startsWithStop rt t) :
    scanNumber (l ++ t) seenDot =
      ((scanNumber l seenDot).1, (scanNumber l seenDot).2.1, (scanNumber l seenDot).2.2 ++ t) := by
  unfold scanNumber
  cases seenDot with
  | true => simpa using scanFraction_stop_append rt 10 true l t ht
  | false =>
    simp only [Bool.false_eq_true, if_false]
    rw [scanPrefix_stop_append rt l t ht]
    simp only []
    rw [digits_stop_append rt _ _ t ht]
    simp only []
    rw [scanAfterInt_stop_append rt _ _ t ht]

theorem scanToken_stop_append (rt : GoRuntime) (ch : Char) (rest t : List Char)
    (ht : startsWithStop rt t) :
    scanToken rt ch (rest ++ t) =
      ((scanToken rt ch rest).1, (scanToken rt ch rest).2.1, (scanToken rt ch rest).2.2 ++ t) := by
  unfold scanToken
  split_ifs with h1 h2 h3
  · rw [span_append_stop rest t (fun c hc => (stopRune_facts rt c (ht c hc)).1)]
  · have := scanNumber_stop_append rt false (ch :: rest) t ht
    simp only [List.cons_append] at this
    rw [this]
  · cases rest with
    | nil =>
      cases t with
      | nil => simp
      | cons w t1 =>
        obtain ⟨_, hdec, _⟩ := stopRune_facts rt w (ht w rfl)
        simp [hdec]
    | cons d rest1 =>
      simp only [List.cons_append]
      split_ifs
      · have := scanNumber_stop_append rt true (d :: rest1) t ht
        simp only [List.cons_append] at this
        rw [this]
      · rfl
  · rfl

/-- Appending text that starts with a stop rune to the source does not change
the token scanned first, unless the source holds no token at all. -/
theorem Scan_stop_append (rt : GoRuntime) (s t : List Char) (ht : startsWithStop rt t) :
    Scan rt (s ++ t) =
      if (Scan rt s).1 = ScanTok.EOF then Scan rt t
      else ((Scan rt s).1, (Scan rt s).2.1, (Scan rt s).2.2 ++ t) := by
  induction s with
  | nil => simp [Scan]
  | cons c s ih =>
    cases hc : isWhitespace c with
    | true => simpa [Scan_whitespace_cons rt c _ hc] using ih
    | false =>
      rw [List.cons_append, Scan_token_cons rt c _ hc, Scan_token_cons rt c _ hc,
        if_neg (scanToken_ne_EOF rt c s)]
      exact scanToken_stop_append rt c s t ht

theorem Lexer.scan_stop_append (rt : GoRuntime) (s t : List Char) (ht : startsWithStop rt t) :
    Lexer.scan rt (s ++ t) =
      if (Lexer.scan rt s).token = ScanTok.EOF then Lexer.scan rt t
      else (Lexer.scan rt s).extend t := by
  unfold Lexer.scan Lexer.extend
  rw [Scan_stop_append rt s t ht]
  split_ifs <;> rfl

theorem peekEq_stop_append (rt : GoRuntime) (src t : List Char) (ht : startsWithStop rt t) :
    peekEq (src ++ t) = ((peekEq src).1, (peekEq src).2 ++ t) := by
  cases src with
  | nil =>
    cases t with
    | nil => rfl
    | cons w t1 =>
      obtain ⟨_, _, _, _, _, heq, _⟩ := stopRune_facts rt w (ht w rfl)
      simp [peekEq, heq]
  | cons c cs =>
    simp only [List.cons_append, peekEq]
    split_ifs <;> rfl

theorem switchToken_stop_extend (rt : GoRuntime) (l : Lexer) (t : List Char)
    (ht : startsWithStop rt t) :
    (l.extend t).switchToken = (l.switchToken.1, l.switchToken.2 ++ t) := by
  unfold Lexer.switchToken Lexer.extend
  cases l.token with
  | EOF => rfl
  | Ident => rfl
  | Int => rfl
  | Float => rfl
  | rune ch =>
    simp only [peekEq_stop_append rt l.scanner t ht]
    repeat' apply ite_append
    all_goals rfl

theorem NextToken_stop_extend (rt : GoRuntime) (l : Lexer) (t : List Char)
    (ht : startsWithStop rt t) :
    (l.extend t).NextToken rt =
      ((l.NextToken rt).1,
        if (l.NextToken rt).2.token = ScanTok.EOF then Lexer.scan rt t
        else (l.NextToken rt).2.extend t) := by
  unfold Lexer.NextToken
  rw [switchToken_stop_extend rt l t ht]
  simp only []
  rw [Lexer.scan_stop_append rt _ t ht]

theorem tokens_stop_extend (rt : GoRuntime) (t : List Char) (ht : startsWithStop rt t)
    (k : Nat) (hk : (Lexer.scan rt t).bound ≤ k) (n : Nat) (l : Lexer) (hn : l.bound ≤ n) :
    Lexer.tokens rt (n + k)
        (if l.token = ScanTok.EOF then Lexer.scan rt t else l.extend t) =
      Lexer.tokens rt n l ++ Lexer.tokens rt k (Lexer.scan rt t) := by
  induction n generalizing l with
  | zero =>
    have h0 : l.token = ScanTok.EOF := by
      unfold Lexer.bound at hn
      split at hn
      · assumption
      · omega
    rw [if_pos h0, tokens_of_EOF rt 0 l h0, List.nil_append]
    exact tokens_stable rt _ _ _ (by omega) hk
  | succ n ih =>
    by_cases h0 : l.token = ScanTok.EOF
    · rw [if_pos h0, tokens_of_EOF rt _ l h0, List.nil_append]
      exact tokens_stable rt _ _ _ (by omega) hk
    · have hb := NextToken_bound rt l h0
      have he : (l.extend t).token ≠ ScanTok.EOF := h0
      rw [if_neg h0, show n + 1 + k = (n + k) + 1 by omega, tokens_succ rt _ _ he,
        tokens_succ rt n l h0, NextToken_stop_extend rt l t ht]
      simp only [List.cons_append]
      rw [ih (l.NextToken rt).2 (by omega)]

/-- A stop rune separates tokens: the tokens of `pre ++ t`, for a text `t` that
starts with a stop rune (not a byte order mark when `pre` is empty), are those
of `pre` followed by those the scanner reads from `t`. -/
theorem allTokens_stop_separates (rt : GoRuntime) (pre t : List Char)
    (ht : startsWithStop rt t)
    (hbom : pre = [] → ∀ c, t.head? = some c → c.toNat ≠ 0xFEFF) :
    Lexer.allTokens rt (NewLexer rt (pre ++ t)) =
      Lexer.allTokens rt (NewLexer rt pre) ++ Lexer.allTokens rt (Lexer.scan rt t) := by
  have hinit : scannerInit (pre ++ t) = scannerInit pre ++ t := by
    cases pre with
    | nil =>
      cases t with
      | nil => rfl
      | cons w t1 =>
        have := hbom rfl w rfl
        simp [scannerInit, this]
    | cons c pre1 =>
      simp only [List.cons_append, scannerInit]
      split_ifs <;> rfl
  unfold NewLexer
  rw [hinit, Lexer.scan_stop_append rt _ _ ht]
  have hlen := (Scan_length rt t).1
  have hp : (Lexer.scan rt t).scanner = (Scan rt t).2.2 := rfl
  have hk : (Lexer.scan rt t).bound ≤ t.length + 1 := by
    unfold Lexer.bound
    rw [hp]
    split <;> omega
  have hn : (Lexer.scan rt (scannerInit pre)).bound ≤
      (Lexer.scan rt (scannerInit pre)).scanner.length + 1 := by
    unfold Lexer.bound
    split <;> omega
  have key := tokens_stop_extend rt t ht (t.length + 1) hk
    ((Lexer.scan rt (scannerInit pre)).scanner.length + 1) _ hn
  rw [allTokens_eq_tokens rt _ (Lexer.scan rt t) hk,
    show Lexer.allTokens rt (Lexer.scan rt (scannerInit pre)) =
      Lexer.tokens rt ((Lexer.scan rt (scannerInit pre)).scanner.length + 1)
        (Lexer.scan rt (scannerInit pre)) from rfl,
    ← key]
  apply allTokens_eq_tokens
  by_cases h1 : (Lexer.scan rt (scannerInit pre)).token = ScanTok.EOF
  · rw [if_pos h1]
    omega
  · rw [if_neg h1]
    have hx : ((Lexer.scan rt (scannerInit pre)).extend t).bound =
        (Lexer.scan rt (scannerInit pre)).scanner.length + t.length + 1 := by
      unfold Lexer.bound
      rw [if_neg (show ((Lexer.scan rt (scannerInit pre)).extend t).token ≠
        ScanTok.EOF from h1)]
      simp [Lexer.extend]
    rw [hx]
    omega

/-! ## Illegal characters -/

theorem scanToken_illegal (rt : GoRuntime) (c : Char) (rest : List Char)
    (h : isIllegalRune rt c rest = true) :
    scanToken rt c rest = (ScanTok.rune c, String.mk [c], rest) := by
  simp only [isIllegalRune, Bool.and_eq_true, Bool.not_eq_true'] at h
  obtain ⟨⟨⟨⟨_, hid⟩, hdec⟩, hdot⟩, _⟩ := h
  unfold scanToken
  simp only [hid, hdec, Bool.false_eq_true, if_false]
  by_cases hc : c = '.'
  · simp only [hc, decide_True, Bool.true_and] at hdot
    simp only [if_pos hc]
    cases rest with
    | nil => rfl
    | cons d rest1 =>
      simp only at hdot
      simp only [hdot, Bool.false_eq_true, if_false]
  · simp only [if_neg hc]

theorem Lexer.scan_illegal (rt : GoRuntime) (c : Char) (rest : List Char)
    (h : isIllegalRune rt c rest = true) :
    Lexer.scan rt (c :: rest) =
      { scanner := rest, token := ScanTok.rune c, text := String.mk [c] } := by
  have hw : isWhitespace c = false := by
    simp only [isIllegalRune, Bool.and_eq_true, Bool.not_eq_true'] at h
    exact h.1.1.1.1
  unfold Lexer.scan
  rw [Scan_token_cons rt c rest hw, scanToken_illegal rt c rest h]

theorem switchToken_illegal (c : Char) (text : String) (rest : List Char)
    (h : operatorRunes.contains c = false) :
    Lexer.switchToken { scanner := rest, token := ScanTok.rune c, text := text } =
      (⟨TokenType.ILLEGAL, text⟩, rest) := by
  simp only [operatorRunes, List.contains_eq_any_beq, List.any_cons, List.any_nil,
    Bool.or_false, Bool.or_eq_false_iff, beq_eq_false_iff_ne, ne_eq] at h
  obtain ⟨h1, h2, h3, h4, h5, h6, h7, h8, h9, h10, h11, h12, h13, h14, h15⟩ := h
  simp only [Lexer.switchToken, if_neg h1, if_neg h2, if_neg h3, if_neg h4, if_neg h5,
    if_neg h6, if_neg h7, if_neg h8, if_neg h9, if_neg h10, if_neg h11, if_neg h12,
    if_neg h13, if_neg h14, if_neg h15]

theorem NextToken_illegal (rt : GoRuntime) (c : Char) (rest : List Char)
    (h : isIllegalRune rt c rest = true) :
    (Lexer.scan rt (c :: rest)).NextToken rt =
      (⟨TokenType.ILLEGAL, String.mk [c]⟩, Lexer.scan rt rest) := by
  have hop : operatorRunes.contains c = false := by
    simp only [isIllegalRune, Bool.and_eq_true, Bool.not_eq_true'] at h
    exact h.2
  rw [Lexer.scan_illegal rt c rest h]
  unfold Lexer.NextToken
  rw [switchToken_illegal c _ rest hop]

/-- C18. Illegal characters are a non-fatal signal.  When the scanner reaches a
rune `c` that is not whitespace and starts no identifier, number, operator or
delimiter, `NextToken` returns the token `ILLEGAL` whose text is exactly that
rune, and the lexer goes on with the scan of the text right after `c`: the tokens
from `c` on are the `ILLEGAL` token followed by the tokens the scanner reads from
that text.  In a source the scanner reaches such a rune at the very start, unless
it is a byte order mark, after whitespace, and at any other place unless `c` is
a `.` or can continue an identifier (a digit outside ASCII): the tokens of the
source are then those of the text before `c`, the `ILLEGAL` token, and those of
the text after `c`. -/
theorem illegal_character (rt : GoRuntime) (c : Char) (rest : List Char)
    (h : isIllegalRune rt c rest = true) :
    (Lexer.scan rt (c :: rest)).NextToken rt =
      (⟨TokenType.ILLEGAL, String.mk [c]⟩, Lexer.scan rt rest) ∧
    Lexer.allTokens rt (Lexer.scan rt (c :: rest)) =
      ⟨TokenType.ILLEGAL, String.mk [c]⟩ :: Lexer.allTokens rt (Lexer.scan rt rest) ∧
    (c.toNat ≠ 0xFEFF → NewLexer rt (c :: rest) = Lexer.scan rt (c :: rest)) ∧
    (∀ pre ws : List Char, (∀ w ∈ ws, isWhitespace w = true) → ws ≠ [] →
      Lexer.allTokens rt (NewLexer rt (pre ++ ws ++ c :: rest)) =
        Lexer.allTokens rt (NewLexer rt pre) ++
          ⟨TokenType.ILLEGAL, String.mk [c]⟩ :: Lexer.allTokens rt (Lexer.scan rt rest)) ∧
    (∀ pre : List Char, isIdentRune rt c 1 = false → c ≠ '.' →
      (pre = [] → c.toNat ≠ 0xFEFF) →
      Lexer.allTokens rt (NewLexer rt (pre ++ c :: rest)) =
        Lexer.allTokens rt (NewLexer rt pre) ++
          ⟨TokenType.ILLEGAL, String.mk [c]⟩ :: Lexer.allTokens rt (Lexer.scan rt rest)) := by
  have hnext := NextToken_illegal rt c rest h
  have hall : Lexer.allTokens rt (Lexer.scan rt (c :: rest)) =
      ⟨TokenType.ILLEGAL, String.mk [c]⟩ :: Lexer.allTokens rt (Lexer.scan rt rest) := by
    have hs := Lexer.scan_illegal rt c rest h
    have hne : (Lexer.scan rt (c :: rest)).token ≠ ScanTok.EOF := by rw [hs]; simp
    have hlen : (Lexer.scan rt (c :: rest)).scanner.length = rest.length := by rw [hs]
    unfold Lexer.allTokens
    rw [hlen, tokens_succ rt _ _ hne, hnext]
    simp only [List.cons.injEq, true_and]
    apply tokens_stable
    · have hlt := (Scan_length rt rest).2
      unfold Lexer.bound Lexer.scan
      simp only []
      split_ifs with he
      · omega
      · have := hlt he
        omega
    · unfold Lexer.bound
      split <;> omega
  refine ⟨hnext, hall, ?_, ?_, ?_⟩
  · intro hbom
    simp [NewLexer, scannerInit, hbom]
  · intro pre ws hws hne
    rw [allTokens_whitespace_separates rt pre ws (c :: rest) hws hne, hall]
  · intro pre hid hdot hbom
    have hstop : startsWithStop rt (c :: rest) := by
      intro d hd
      simp only [List.head?_cons, Option.some.injEq] at hd
      subst hd
      simp only [isIllegalRune, operatorRunes, List.contains_eq_any_beq, List.any_cons,
        List.any_nil, Bool.or_false, Bool.and_eq_true, Bool.not_eq_true', Bool.or_eq_false_iff,
        beq_eq_false_iff_ne, ne_eq] at h
      obtain ⟨⟨⟨_, hdec⟩, _⟩, hplus, hminus, _, _, heq, _⟩ := h
      simp [isStopRune, hid, hdec, hdot, hplus, hminus, heq]
    rw [allTokens_stop_separates rt pre (c :: rest) hstop
      (fun hp d hd => by
        simp only [List.head?_cons, Option.some.injEq] at hd
        exact hd ▸ hbom hp), hall]

theorem illegal_character_witness :
    (Lexer.scan sampleRuntime ('@' :: String.toList " x")).NextToken sampleRuntime =
      (⟨TokenType.ILLEGAL, String.mk ['@']⟩, Lexer.scan sampleRuntime (String.toList " x")) ∧
    Lexer.allTokens sampleRuntime (Lexer.scan sampleRuntime ('@' :: String.toList " x")) =
      ⟨TokenType.ILLEGAL, String.mk ['@']⟩ ::
        Lexer.allTokens sampleRuntime (Lexer.scan sampleRuntime (String.toList " x")) ∧
    Lexer.allTokens sampleRuntime
        (NewLexer sampleRuntime (String.toList "lazy y" ++ '@' :: String.toList " x")) =
      Lexer.allTokens sampleRuntime (NewLexer sampleRuntime (String.toList "lazy y")) ++
        ⟨TokenType.ILLEGAL, String.mk ['@']⟩ ::
          Lexer.allTokens sampleRuntime (Lexer.scan sampleRuntime (String.toList " x")) :=
  ⟨(illegal_character sampleRuntime '@' (String.toList " x") (by decide)).1,
    (illegal_character sampleRuntime '@' (String.toList " x") (by decide)).2.1,
    (illegal_character sampleRuntime '@' (String.toList " x") (by decide)).2.2.2.2
      (String.toList "lazy y") (by decide) (by decide) (by decide)⟩

/-- The runes `!`, `@`, `"` and a lone `.` are illegal characters, and lexing
goes on after them. -/
theorem illegal_character_examples :
    Lexer.allTokens sampleRuntime (NewLexer sampleRuntime (String.toList "a ! @ \" . b")) =
      [⟨TokenType.IDENT, "a"⟩, ⟨TokenType.ILLEGAL, "!"⟩, ⟨TokenType.ILLEGAL, "@"⟩,
        ⟨TokenType.ILLEGAL, "\""⟩, ⟨TokenType.ILLEGAL, "."⟩, ⟨TokenType.IDENT, "b"⟩] ∧
    Lexer.allTokens sampleRuntime (NewLexer sampleRuntime (String.toList "a!b")) =
      [⟨TokenType.IDENT, "a"⟩, ⟨TokenType.ILLEGAL, "!"⟩, ⟨TokenType.IDENT, "b"⟩] := by
  decide

/-- A byte order mark is part of no identifier, number, operator or delimiter.
At the very start of a source the scanner drops it and no `ILLEGAL` token is
returned for it; anywhere else it is an illegal character.  So the tokens after
the `@` of `@`, byte order mark, `a` are not those of a lexer started on the text
after the `@`. -/
theorem byte_order_mark_dropped :
    Lexer.allTokens sampleRuntime (NewLexer sampleRuntime [Char.ofNat 0xFEFF, 'a']) =
      [⟨TokenType.IDENT, "a"⟩] ∧
    Lexer.allTokens sampleRuntime (NewLexer sampleRuntime ['@', Char.ofNat 0xFEFF, 'a']) =
      [⟨TokenType.ILLEGAL, "@"⟩, ⟨TokenType.ILLEGAL, String.mk [Char.ofNat 0xFEFF]⟩,
        ⟨TokenType.IDENT, "a"⟩] ∧
    isIllegalRune sampleRuntime (Char.ofNat 0xFEFF) ['a'] = true := by
  decide

/-! ## Evaluations -/

/-- C12 (code as written). For an array binding with a trailing comma,
`lazyArray a = [1, 2, ]`, or with an empty slot, `lazyArray a = [1, , 3]`,
`parseArray` returns nil and the program holds the nil pointer, not an array
binding with a placeholder: the loop over the commas always advances two tokens,
so the token after the comma (`]`, or the second comma) is consumed as the
omitted element, and the closing bracket is then missing.  Only when a comma
stands in the place of the omitted element and `]` follows it, as in
`lazyArray a = [1, , ]`, does an array binding with a nil element come out. -/
theorem omitted_array_elements :
    parseSource sampleRuntime 200 (String.toList "lazyArray a = [1, 2, ]") =
      some { Statements := [Statement.nilPtr StatementType.ArrayStatement] } ∧
    parseSource sampleRuntime 200 (String.toList "lazyArray a = [1, , 3]") =
      some { Statements := [Statement.nilPtr StatementType.ArrayStatement] } ∧
    parseSource sampleRuntime 200 (String.toList "lazyArray a = [1, , ]") =
      some { Statements :=
        [Statement.ArrayStatement "a" [Expression.NumberLiteral ⟨1⟩, Expression.nil]] } ∧
    (generateStatement sampleRuntime NewCodeGen
        (Statement.ArrayStatement "a" [Expression.NumberLiteral ⟨1⟩, Expression.nil])).map
        Prod.fst =
      some "a := []interface\x7b\x7d\x7b1, nil\x7d" := by
  refine ⟨?_, ?_, ?_, ?_⟩ <;> decide

/-- C17 (code as written). The source `lazy x = ;` parses to one var binding of
`x` whose value is nil, generated as `x := `; since the program is not empty,
`runDiagnostics` reports no diagnostic.  It reports its one syntax error only
for a program without statements, such as that of `x = ;`. -/
theorem malformed_binding_not_diagnosed :
    parseSource sampleRuntime 200 (String.toList "lazy x = ;") =
      some { Statements := [Statement.VarStatement "x" Expression.nil] } ∧
    runDiagnostics sampleRuntime 200 (String.toList "lazy x = ;") = some [] ∧
    (generateStatement sampleRuntime NewCodeGen
        (Statement.VarStatement "x" Expression.nil)).map Prod.fst = some "x := " ∧
    runDiagnostics sampleRuntime 200 (String.toList "x = ;") =
      some [⟨0, 0, 0, 1, 1, "Syntax error"⟩] := by
  refine ⟨?_, ?_, ?_, ?_⟩ <;> decide

mutual
/-- Generation faults on every statement that is or contains a nil pointer node. -/
theorem generateStatement_fault (rt : GoRuntime) :
    ∀ (s : Statement) (cg : CodeGen), Statement.wellFormed s = false →
      generateStatement rt cg s = none
  | Statement.nil, cg, h => by simp [Statement.wellFormed] at h
  | Statement.nilPtr T, cg, _ => by rw [generateStatement]
  | Statement.PrintStatement v, cg, h => by simp [Statement.wellFormed] at h
  | Statement.VarStatement name value, cg, h => by simp [Statement.wellFormed] at h
  | Statement.ArrayStatement name values, cg, h => by simp [Statement.wellFormed] at h
  | Statement.IfStatement c cons alt, cg, h => by
    simp only [Statement.wellFormed, Bool.and_eq_false_iff] at h
    rw [generateStatement]
    cases hc : generateStatements rt "\t\t" cg cons with
    | none => rfl
    | some r =>
      obtain ⟨ct, cgc⟩ := r
      rcases h with h | h
      · rw [generateStatements_fault rt cons "\t\t" cg h] at hc
        simp at hc
      · cases alt with
        | nil => simp [Statement.wellFormedList] at h
        | cons a as =>
          simp only [generateStatements_fault rt (a :: as) "\t\t" cgc h]
  | Statement.ForStatement init c post body, cg, h => by
    simp only [Statement.wellFormed, Bool.and_eq_false_iff] at h
    rw [generateStatement_for]
    cases hi : generateForPart rt cg init with
    | none => rfl
    | some r =>
      obtain ⟨it, cgi⟩ := r
      simp only []
      cases hp : generateForPart rt cgi post with
      | none => rfl
      | some r2 =>
        obtain ⟨pt, cgp⟩ := r2
        simp only []
        rcases h with (h | h) | h
        · rcases generateForPart_some rt cg cgi init it hi with ⟨hnil, _⟩ | ⟨t0, hg⟩
          · subst hnil
            simp [Statement.wellFormed] at h
          · rw [generateStatement_fault rt init cg h] at hg
            simp at hg
        · rcases generateForPart_some rt cgi cgp post pt hp with ⟨hnil, _⟩ | ⟨t0, hg⟩
          · subst hnil
            simp [Statement.wellFormed] at h
          · rw [generateStatement_fault rt post cgi h] at hg
            simp at hg
        · simp only [generateStatements_fault rt body "\t" cgp h]
/-- The same for a statement loop. -/
theorem generateStatements_fault (rt : GoRuntime) :
    ∀ (ss : List Statement) (indent : String) (cg : CodeGen),
      Statement.wellFormedList ss = false → generateStatements rt indent cg ss = none
  | [], indent, cg, h => by simp [Statement.wellFormedList] at h
  | s :: ss, indent, cg, h => by
    simp only [Statement.wellFormedList, Bool.and_eq_false_iff] at h
    rw [generateStatements]
    cases hs : generateStatement rt cg s with
    | none => rfl
    | some r =>
      obtain ⟨t0, cg0⟩ := r
      simp only []
      rcases h with h | h
      · rw [generateStatement_fault rt s cg h] at hs
        simp at hs
      · simp only [generateStatements_fault rt ss indent cg0 h]
end

/-- C19 (code as written). `Generate` completes exactly on the programs without
a nil pointer node, and faults (a field read through a nil pointer) on all
others.  For the source `lazy = 5` the program returned by `ParseProgram` holds
the nil `*VarStatement`, and `Generate` faults on it; the same inside the block
of `if c \x7b lazy = 5 \x7d`. -/
theorem pipeline_faults (rt : GoRuntime) :
    (∀ (cg : CodeGen) (program : Program),
      (Generate rt cg program).isSome = Statement.wellFormedList program.Statements) ∧
    parseSource sampleRuntime 200 (String.toList "lazy = 5") =
      some { Statements := [Statement.nilPtr StatementType.VarStatement] } ∧
    (Generate sampleRuntime NewCodeGen
      { Statements := [Statement.nilPtr StatementType.VarStatement] }).isSome = false ∧
    parseSource sampleRuntime 200 (String.toList "if c \x7b lazy = 5 \x7d") =
      some { Statements := [Statement.IfStatement (Expression.Identifier "c")
        [Statement.nilPtr StatementType.VarStatement] []] } ∧
    (Generate sampleRuntime NewCodeGen
      { Statements := [Statement.IfStatement (Expression.Identifier "c")
        [Statement.nilPtr StatementType.VarStatement] []] }).isSome = false := by
  refine ⟨?_, by decide, by decide, by decide, by decide⟩
  intro cg program
  unfold Generate
  cases hw : Statement.wellFormedList program.Statements with
  | false => simp only [generateStatements_fault rt _ "\t" cg hw, Option.isSome_none]
  | true =>
    obtain ⟨t, cg1, ht⟩ := generateStatements_total rt program.Statements "\t" cg hw
    simp only [ht, Option.isSome_some]

/-! ## The step budget does not change a result -/

/-- Which way a pass through the loop of `parseExpressionWithPrecedence` goes
depends on the parser only, not on the budget. -/
theorem parseExpressionLoop_step (rt : GoRuntime) (p : Parser) (prec : Nat)
    (left : Expression) :
    (∀ fuel, parseExpressionLoop rt (fuel + 1) p prec left = some (left, p)) ∨
    (∀ fuel, parseExpressionLoop rt (fuel + 1) p prec left =
        match parseInfixExpression rt fuel (p.nextToken rt) left with
        | none => none
        | some (left1, p1) => parseExpressionLoop rt fuel p1 prec left1) ∨
    (∀ fuel, parseExpressionLoop rt (fuel + 1) p prec left =
        match parseIndexExpression rt fuel (p.nextToken rt) left with
        | none => none
        | some (left1, p1) => parseExpressionLoop rt fuel p1 prec left1) := by
  by_cases hc : p.peekToken.Kind ≠ TokenType.EOF ∧ p.peekToken.Kind ≠ TokenType.SEMICOLON ∧
        p.peekToken.Kind ≠ TokenType.RPAREN ∧ p.peekToken.Kind ≠ TokenType.RBRACE ∧
        prec < precedence p.peekToken.Kind
  · cases hk : p.peekToken.Kind <;> first
      | (refine Or.inr (Or.inl fun fuel => ?_)
         rw [parseExpressionLoop, if_pos hc]
         simp only [hk]
         done)
      | (refine Or.inr (Or.inr fun fuel => ?_)
         rw [parseExpressionLoop, if_pos hc]
         simp only [hk]
         done)
      | (refine Or.inl fun fuel => ?_
         rw [parseExpressionLoop, if_pos hc]
         simp only [hk])
  · refine Or.inl fun fuel => ?_
    rw [parseExpressionLoop, if_neg hc]

/-- A result of an expression rule is the result for every larger budget. -/
theorem parseExpression_mono (rt : GoRuntime) : ∀ n : Nat,
    (∀ (p : Parser) (prec : Nat) (left : Expression) (r : Expression × Parser),
      parseExpressionLoop rt n p prec left = some r →
      parseExpressionLoop rt (n + 1) p prec left = some r) ∧
    (∀ (p : Parser) (prec : Nat) (r : Expression × Parser),
      parseExpressionWithPrecedence rt n p prec = some r →
      parseExpressionWithPrecedence rt (n + 1) p prec = some r) ∧
    (∀ (p : Parser) (r : Expression × Parser),
      parseExpression rt n p = some r → parseExpression rt (n + 1) p = some r) ∧
    (∀ (p : Parser) (left : Expression) (r : Expression × Parser),
      parseInfixExpression rt n p left = some r →
      parseInfixExpression rt (n + 1) p left = some r) ∧
    (∀ (p : Parser) (left : Expression) (r : Expression × Parser),
      parseIndexExpression rt n p left = some r →
      parseIndexExpression rt (n + 1) p left = some r) := by
  intro n
  induction n with
  | zero =>
    refine ⟨?_, ?_, ?_, ?_, ?_⟩
    · intro p prec left r h
      simp [parseExpressionLoop] at h
    · intro p prec r h
      simp [parseExpressionWithPrecedence] at h
    · intro p r h
      simp [parseExpression] at h
    · intro p left r h
      simp [parseInfixExpression] at h
    · intro p left r h
      simp [parseIndexExpression] at h
  | succ n ih =>
    obtain ⟨ihLoop, ihPrec, ihExpr, ihInfix, ihIndex⟩ := ih
    refine ⟨?_, ?_, ?_, ?_, ?_⟩
    · intro p prec left r h
      rcases parseExpressionLoop_step rt p prec left with hs | hs | hs
      · rw [hs n] at h
        rw [hs (n + 1)]
        exact h
      · rw [hs n] at h
        rw [hs (n + 1)]
        cases hi : parseInfixExpression rt n (p.nextToken rt) left with
        | none => simp [hi] at h
        | some v =>
          obtain ⟨left1, p1⟩ := v
          simp only [hi] at h
          simp only [ihInfix _ _ _ hi]
          exact ihLoop _ _ _ _ h
      · rw [hs n] at h
        rw [hs (n + 1)]
        cases hi : parseIndexExpression rt n (p.nextToken rt) left with
        | none => simp [hi] at h
        | some v =>
          obtain ⟨left1, p1⟩ := v
          simp only [hi] at h
          simp only [ihIndex _ _ _ hi]
          exact ihLoop _ _ _ _ h
    · intro p prec r h
      rw [parseExpressionWithPrecedence] at h ⊢
      cases hp : p.parsePrimary rt <;> simp only [hp] at h ⊢ <;>
        first | exact h | exact ihLoop _ _ _ _ h
    · intro p r h
      rw [parseExpression] at h ⊢
      exact ihPrec _ _ _ h
    · intro p left r h
      rw [parseInfixExpression] at h ⊢
      cases hi : parseExpressionWithPrecedence rt n (p.nextToken rt)
          (precedence p.currentToken.Kind) with
      | none => simp [hi] at h
      | some v =>
        obtain ⟨right, p1⟩ := v
        simp only [hi] at h
        simp only [ihPrec _ _ _ hi]
        exact h
    · intro p left r h
      rw [parseIndexExpression] at h ⊢
      cases hi : parseExpression rt n (p.nextToken rt) with
      | none => simp [hi] at h
      | some v =>
        obtain ⟨index, p1⟩ := v
        simp only [hi] at h
        simp only [ihExpr _ _ hi]
        exact h

theorem parseExpression_succ (rt : GoRuntime) (n : Nat) (p : Parser) (r : Expression × Parser)
    (h : parseExpression rt n p = some r) : parseExpression rt (n + 1) p = some r :=
  (parseExpression_mono rt n).2.2.1 p r h

theorem expectPeek_eq (rt : GoRuntime) (p : Parser) (t : TokenType) :
    p.expectPeek rt t = (false, p) ∨ p.expectPeek rt t = (true, p.nextToken rt) := by
  unfold Parser.expectPeek
  split_ifs
  · exact Or.inr rfl
  · exact Or.inl rfl

theorem parseVarStatement_succ (rt : GoRuntime) (n : Nat) (p : Parser) (r : Statement × Parser)
    (h : parseVarStatement rt n p = some r) : parseVarStatement rt (n + 1) p = some r := by
  unfold parseVarStatement at h ⊢
  rcases expectPeek_eq rt p TokenType.IDENT with hx | hx <;> simp only [hx] at h ⊢
  · exact h
  · rcases expectPeek_eq rt (p.nextToken rt) TokenType.ASSIGN with hy | hy <;>
      simp only [hy] at h ⊢
    · exact h
    · cases he : parseExpression rt n (((p.nextToken rt).nextToken rt).nextToken rt) with
      | none => simp [he] at h
      | some v =>
        simp only [he] at h
        simp only [parseExpression_succ rt n _ v he]
        exact h

theorem parseArrayLoop_succ (rt : GoRuntime) : ∀ (n : Nat) (p : Parser)
    (values : List Expression) (r : List Expression × Parser),
    parseArrayLoop rt n p values = some r → parseArrayLoop rt (n + 1) p values = some r := by
  intro n
  induction n with
  | zero =>
    intro p values r h
    simp [parseArrayLoop] at h
  | succ n ih =>
    intro p values r h
    rw [parseArrayLoop] at h ⊢
    split_ifs at h ⊢
    · cases he : parseExpression rt n ((p.nextToken rt).nextToken rt) with
      | none => simp [he] at h
      | some v =>
        simp only [he] at h
        simp only [parseExpression_succ rt n _ v he]
        exact ih _ _ _ h
    · exact h

theorem parseArray_succ (rt : GoRuntime) (n : Nat) (p : Parser) (r : Statement × Parser)
    (h : parseArray rt n p = some r) : parseArray rt (n + 1) p = some r := by
  unfold parseArray at h ⊢
  rcases expectPeek_eq rt p TokenType.IDENT with hx | hx <;> simp only [hx] at h ⊢
  · exact h
  · rcases expectPeek_eq rt (p.nextToken rt) TokenType.ASSIGN with hy | hy <;>
      simp only [hy] at h ⊢
    · exact h
    · rcases expectPeek_eq rt ((p.nextToken rt).nextToken rt) TokenType.LSBREC with hz | hz <;>
        simp only [hz] at h ⊢
      · exact h
      · generalize (((p.nextToken rt).nextToken rt).nextToken rt) = p3 at h ⊢
        have hel : ∀ v,
            (if p3.peekToken.Kind ≠ TokenType.RSBREC then
              match parseExpression rt n (p3.nextToken rt) with
              | none => none
              | some (value, p4) => parseArrayLoop rt n p4 [value]
            else some ([], p3)) = some v →
            (if p3.peekToken.Kind ≠ TokenType.RSBREC then
              match parseExpression rt (n + 1) (p3.nextToken rt) with
              | none => none
              | some (value, p4) => parseArrayLoop rt (n + 1) p4 [value]
            else some ([], p3)) = some v := by
          intro v hv
          split_ifs at hv ⊢
          · cases he : parseExpression rt n (p3.nextToken rt) with
            | none => simp [he] at hv
            | some w =>
              simp only [he] at hv
              simp only [parseExpression_succ rt n _ w he]
              exact parseArrayLoop_succ rt n _ _ _ hv
          · exact hv
        revert h
        cases hv : (if p3.peekToken.Kind ≠ TokenType.RSBREC then
              match parseExpression rt n (p3.nextToken rt) with
              | none => none
              | some (value, p4) => parseArrayLoop rt n p4 [value]
            else some ([], p3)) with
        | none => intro h; simp at h
        | some v =>
          intro h
          rw [hel v hv]
          exact h

theorem parsePrintStatement_succ (rt : GoRuntime) (n : Nat) (p : Parser)
    (r : Statement × Parser) (h : parsePrintStatement rt n p = some r) :
    parsePrintStatement rt (n + 1) p = some r := by
  unfold parsePrintStatement at h ⊢
  rcases expectPeek_eq rt p TokenType.LPAREN with hx | hx <;> simp only [hx] at h ⊢
  · exact h
  · cases he : parseExpression rt n ((p.nextToken rt).nextToken rt) with
    | none => simp [he] at h
    | some v =>
      simp only [he] at h
      simp only [parseExpression_succ rt n _ v he]
      exact h

theorem parseForAssign_succ (rt : GoRuntime) (n : Nat) (p : Parser)
    (r : Option Statement × Parser) (h : parseForAssign rt n p = some r) :
    parseForAssign rt (n + 1) p = some r := by
  unfold parseForAssign at h ⊢
  split_ifs at h ⊢
  · rcases expectPeek_eq rt p TokenType.ASSIGN with hx | hx <;> simp only [hx] at h ⊢
    · exact h
    · cases he : parseExpression rt n ((p.nextToken rt).nextToken rt) with
      | none => simp [he] at h
      | some v =>
        simp only [he] at h
        simp only [parseExpression_succ rt n _ v he]
        exact h
  · exact h

theorem parseForInit_succ (rt : GoRuntime) (n : Nat) (p : Parser)
    (r : Option Statement × Parser) (h : parseForInit rt n p = some r) :
    parseForInit rt (n + 1) p = some r := by
  unfold parseForInit at h ⊢
  split_ifs at h ⊢
  · cases he : parseForAssign rt n p with
    | none => simp [he] at h
    | some v =>
      simp only [he] at h
      simp only [parseForAssign_succ rt n _ v he]
      exact h
  · exact h

theorem parseForCondition_succ (rt : GoRuntime) (n : Nat) (p : Parser)
    (r : Option Expression × Parser) (h : parseForCondition rt n p = some r) :
    parseForCondition rt (n + 1) p = some r := by
  unfold parseForCondition at h ⊢
  split_ifs at h ⊢
  · cases he : parseExpression rt n p with
    | none => simp [he] at h
    | some v =>
      simp only [he] at h
      simp only [parseExpression_succ rt n _ v he]
      exact h
  · exact h

theorem parseForPost_succ (rt : GoRuntime) (n : Nat) (p : Parser)
    (r : Option Statement × Parser) (h : parseForPost rt n p = some r) :
    parseForPost rt (n + 1) p = some r := by
  unfold parseForPost at h ⊢
  split_ifs at h ⊢
  · cases he : parseForAssign rt n (p.nextToken rt) with
    | none => simp [he] at h
    | some v =>
      simp only [he] at h
      simp only [parseForAssign_succ rt n _ v he]
      exact h
  · exact h

theorem parseForHeader_succ (rt : GoRuntime) (n : Nat) (p : Parser)
    (r : Option (Statement × Expression × Statement) × Parser)
    (h : parseForHeader rt n p = some r) : parseForHeader rt (n + 1) p = some r := by
  unfold parseForHeader at h ⊢
  rcases expectPeek_eq rt p TokenType.LPAREN with hx | hx <;> simp only [hx] at h ⊢
  · exact h
  · cases h1 : parseForInit rt n ((p.nextToken rt).nextToken rt) with
    | none => simp [h1] at h
    | some v1 =>
      simp only [h1] at h
      simp only [parseForInit_succ rt n _ v1 h1]
      obtain ⟨r1, p2⟩ := v1
      cases r1 with
      | none => exact h
      | some init =>
        simp only [] at h ⊢
        cases h2 : parseForCondition rt n p2 with
        | none => simp [h2] at h
        | some v2 =>
          simp only [h2] at h
          simp only [parseForCondition_succ rt n _ v2 h2]
          obtain ⟨r2, p3⟩ := v2
          cases r2 with
          | none => exact h
          | some cond =>
            simp only [] at h ⊢
            cases h3 : parseForPost rt n p3 with
            | none => simp [h3] at h
            | some v3 =>
              simp only [h3] at h
              simp only [parseForPost_succ rt n _ v3 h3]
              exact h

/-- A result of a statement rule is the result for every larger budget. -/
theorem parseStatement_mono (rt : GoRuntime) : ∀ n : Nat,
    (∀ (p : Parser) (r : Statement × Parser),
      parseStatement rt n p = some r → parseStatement rt (n + 1) p = some r) ∧
    (∀ (p : Parser) (r : Statement × Parser),
      parseForStatement rt n p = some r → parseForStatement rt (n + 1) p = some r) ∧
    (∀ (p : Parser) (r : Statement × Parser),
      parseIfStatement rt n p = some r → parseIfStatement rt (n + 1) p = some r) ∧
    (∀ (p : Parser) (statements : List Statement) (r : List Statement × Parser),
      parseBlockStatement rt n p statements = some r →
      parseBlockStatement rt (n + 1) p statements = some r) := by
  intro n
  induction n with
  | zero =>
    refine ⟨?_, ?_, ?_, ?_⟩
    · intro p r h
      simp [parseStatement] at h
    · intro p r h
      simp [parseForStatement] at h
    · intro p r h
      simp [parseIfStatement] at h
    · intro p statements r h
      simp [parseBlockStatement] at h
  | succ n ih =>
    obtain ⟨ihStmt, ihFor, ihIf, ihBlock⟩ := ih
    refine ⟨?_, ?_, ?_, ?_⟩
    · intro p r h
      rw [parseStatement] at h ⊢
      cases hk : p.currentToken.Kind <;> simp only [hk] at h ⊢ <;> first
        | exact h
        | exact parseVarStatement_succ rt n p r h
        | exact parseArray_succ rt n p r h
        | exact parsePrintStatement_succ rt n p r h
        | exact ihFor p r h
        | exact ihIf p r h
    · intro p r h
      rw [parseForStatement] at h ⊢
      cases h1 : parseForHeader rt n p with
      | none => simp [h1] at h
      | some v1 =>
        simp only [h1] at h
        simp only [parseForHeader_succ rt n _ v1 h1]
        obtain ⟨r1, p1⟩ := v1
        cases r1 with
        | none => exact h
        | some parts =>
          obtain ⟨init, cond, post⟩ := parts
          simp only [] at h ⊢
          cases h2 : parseBlockStatement rt n (p1.nextToken rt) [] with
          | none => simp [h2] at h
          | some v2 =>
            simp only [h2] at h
            simp only [ihBlock _ _ v2 h2]
            exact h
    · intro p r h
      rw [parseIfStatement] at h ⊢
      cases h1 : parseExpression rt n (p.nextToken rt) with
      | none => simp [h1] at h
      | some v1 =>
        simp only [h1] at h
        simp only [parseExpression_succ rt n _ v1 h1]
        obtain ⟨cond, p1⟩ := v1
        simp only [] at h ⊢
        rcases expectPeek_eq rt p1 TokenType.LBRACE with hx | hx <;> simp only [hx] at h ⊢
        · exact h
        · cases h2 : parseBlockStatement rt n ((p1.nextToken rt).nextToken rt) [] with
          | none => simp [h2] at h
          | some v2 =>
            simp only [h2] at h
            simp only [ihBlock _ _ v2 h2]
            obtain ⟨cons, p3⟩ := v2
            simp only [] at h ⊢
            split_ifs at h ⊢
            · rcases expectPeek_eq rt (p3.nextToken rt) TokenType.LBRACE with hy | hy <;>
                simp only [hy] at h ⊢
              · exact h
              · cases h3 : parseBlockStatement rt n
                    (((p3.nextToken rt).nextToken rt).nextToken rt) [] with
                | none => simp [h3] at h
                | some v3 =>
                  simp only [h3] at h
                  simp only [ihBlock _ _ v3 h3]
                  exact h
            · exact h
    · intro p statements r h
      rw [parseBlockStatement] at h ⊢
      split_ifs at h ⊢
      · cases h1 : parseStatement rt n p with
        | none => simp [h1] at h
        | some v1 =>
          simp only [h1] at h
          simp only [ihStmt _ v1 h1]
          exact ihBlock _ _ _ h
      · exact h

theorem parseProgramLoop_succ (rt : GoRuntime) : ∀ (n : Nat) (p : Parser)
    (statements : List Statement) (r : List Statement × Parser),
    parseProgramLoop rt n p statements = some r →
    parseProgramLoop rt (n + 1) p statements = some r := by
  intro n
  induction n with
  | zero =>
    intro p statements r h
    simp [parseProgramLoop] at h
  | succ n ih =>
    intro p statements r h
    rw [parseProgramLoop] at h ⊢
    split_ifs at h ⊢
    · cases h1 : parseStatement rt n p with
      | none => simp [h1] at h
      | some v1 =>
        simp only [h1] at h
        simp only [(parseStatement_mono rt n).1 _ v1 h1]
        exact ih _ _ _ h
    · exact h

/-- A program returned by `ParseProgram` under some budget is returned under
every larger budget. -/
theorem ParseProgram_mono (rt : GoRuntime) (p : Parser) (program : Program) (n m : Nat)
    (hnm : n ≤ m) (h : ParseProgram rt n p = some program) :
    ParseProgram rt m p = some program := by
  induction m with
  | zero =>
    have : n = 0 := by omega
    rw [← this]
    exact h
  | succ m ih =>
    by_cases hm : n ≤ m
    · have h1 := ih hm
      unfold ParseProgram at h1 ⊢
      cases hl : parseProgramLoop rt m p [] with
      | none => simp [hl] at h1
      | some v =>
        simp only [hl] at h1
        simp only [parseProgramLoop_succ rt m p [] v hl]
        exact h1
    · have : n = m + 1 := by omega
      rw [← this]
      exact h

/-! ## Termination of the parser -/

theorem NextToken_size (rt : GoRuntime) (l : Lexer) :
    (l.NextToken rt).2.size + (if l.token = ScanTok.EOF then 0 else 1) ≤ l.size := by
  have h1 := switchToken_length_le l
  have h2 := Scan_length rt l.switchToken.2
  unfold Lexer.size Lexer.NextToken Lexer.scan
  simp only []
  by_cases he : (Scan rt l.switchToken.2).1 = ScanTok.EOF
  · simp only [he, if_true]
    split_ifs <;> omega
  · have hlt := h2.2 he
    simp only [he, if_false]
    split_ifs <;> omega

/-- Every `nextToken` takes the peek token, if it is not the end of input, off
the input still ahead. -/
theorem nextToken_size (rt : GoRuntime) (p : Parser) :
    (p.nextToken rt).size + (if p.peekToken.Kind = TokenType.EOF then 0 else 1) ≤ p.size := by
  have h := NextToken_size rt p.lexer
  have hk : (p.lexer.NextToken rt).1.Kind = TokenType.EOF ↔ p.lexer.token = ScanTok.EOF :=
    switchToken_kind_EOF p.lexer
  unfold Parser.size Parser.nextToken
  simp only []
  by_cases he : p.lexer.token = ScanTok.EOF
  · simp only [hk.2 he, he, if_true] at h ⊢
    omega
  · have hne : (p.lexer.NextToken rt).1.Kind ≠ TokenType.EOF := fun hh => he (hk.1 hh)
    simp only [hne, he, if_false] at h ⊢
    omega

theorem nextToken_size_le (rt : GoRuntime) (p : Parser) : (p.nextToken rt).size ≤ p.size := by
  have := nextToken_size rt p
  omega

theorem nextToken_size_lt (rt : GoRuntime) (p : Parser)
    (h : p.peekToken.Kind ≠ TokenType.EOF) : (p.nextToken rt).size + 1 ≤ p.size := by
  have := nextToken_size rt p
  simp only [h, if_false] at this
  exact this

theorem expectPeek_size_le (rt : GoRuntime) (p : Parser) (t : TokenType) :
    (p.expectPeek rt t).2.size ≤ p.size := by
  unfold Parser.expectPeek
  split
  · exact nextToken_size_le rt p
  · exact Nat.le_refl _

/-- A successful `expectPeek` of a token other than the end of input consumes input. -/
theorem expectPeek_size_lt (rt : GoRuntime) (p : Parser) (t : TokenType)
    (ht : t ≠ TokenType.EOF) (h : (p.expectPeek rt t).1 = true) :
    (p.expectPeek rt t).2.size + 1 ≤ p.size := by
  unfold Parser.expectPeek at h ⊢
  split at h
  · rename_i hk
    simp only [hk, if_true]
    apply nextToken_size_lt
    rw [hk]
    exact ht
  · simp at h

/-- One pass through the loop of `parseExpressionWithPrecedence`: it returns, or
the peek token is not the end of input and it is consumed by an infix or an
index rule before the next pass. -/
theorem parseExpressionLoop_cases (rt : GoRuntime) (fuel : Nat) (p : Parser) (prec : Nat)
    (left : Expression) :
    parseExpressionLoop rt (fuel + 1) p prec left = some (left, p) ∨
    (p.peekToken.Kind ≠ TokenType.EOF ∧
      parseExpressionLoop rt (fuel + 1) p prec left =
        match parseInfixExpression rt fuel (p.nextToken rt) left with
        | none => none
        | some (left1, p1) => parseExpressionLoop rt fuel p1 prec left1) ∨
    (p.peekToken.Kind ≠ TokenType.EOF ∧
      parseExpressionLoop rt (fuel + 1) p prec left =
        match parseIndexExpression rt fuel (p.nextToken rt) left with
        | none => none
        | some (left1, p1) => parseExpressionLoop rt fuel p1 prec left1) := by
  rw [parseExpressionLoop]
  by_cases hc : p.peekToken.Kind ≠ TokenType.EOF ∧ p.peekToken.Kind ≠ TokenType.SEMICOLON ∧
        p.peekToken.Kind ≠ TokenType.RPAREN ∧ p.peekToken.Kind ≠ TokenType.RBRACE ∧
        prec < precedence p.peekToken.Kind
  · rw [if_pos hc]
    have he := hc.1
    split
    all_goals first
      | exact Or.inr (Or.inl ⟨he, rfl⟩)
      | exact Or.inr (Or.inr ⟨he, rfl⟩)
      | exact Or.inl rfl
  · rw [if_neg hc]
    exact Or.inl rfl

/-- A budget of four units per unit of input ahead, plus a constant, lets every
expression rule return, and no rule gives input back. -/
theorem parseExpression_fuel (rt : GoRuntime) : ∀ n : Nat,
    (∀ (p : Parser) (prec : Nat) (left : Expression), 4 * p.size + 1 ≤ n →
      ∃ e p1, parseExpressionLoop rt n p prec left = some (e, p1) ∧ p1.size ≤ p.size) ∧
    (∀ (p : Parser) (prec : Nat), 4 * p.size + 2 ≤ n →
      ∃ e p1, parseExpressionWithPrecedence rt n p prec = some (e, p1) ∧ p1.size ≤ p.size) ∧
    (∀ (p : Parser), 4 * p.size + 3 ≤ n →
      ∃ e p1, parseExpression rt n p = some (e, p1) ∧ p1.size ≤ p.size) ∧
    (∀ (p : Parser) (left : Expression), 4 * p.size + 3 ≤ n →
      ∃ e p1, parseInfixExpression rt n p left = some (e, p1) ∧ p1.size ≤ p.size) ∧
    (∀ (p : Parser) (left : Expression), 4 * p.size + 4 ≤ n →
      ∃ e p1, parseIndexExpression rt n p left = some (e, p1) ∧ p1.size ≤ p.size) := by
  intro n
  induction n with
  | zero =>
    refine ⟨?_, ?_, ?_, ?_, ?_⟩ <;> intros <;> omega
  | succ n ih =>
    obtain ⟨ihLoop, ihPrec, ihExpr, ihInfix, ihIndex⟩ := ih
    refine ⟨?_, ?_, ?_, ?_, ?_⟩
    · intro p prec left hn
      rcases parseExpressionLoop_cases rt n p prec left with h | ⟨he, h⟩ | ⟨he, h⟩
      · exact ⟨left, p, h, Nat.le_refl _⟩
      · have hlt := nextToken_size_lt rt p he
        obtain ⟨e1, p1, h1, hs1⟩ := ihInfix (p.nextToken rt) left (by omega)
        obtain ⟨e2, p2, h2, hs2⟩ := ihLoop p1 prec e1 (by omega)
        refine ⟨e2, p2, ?_, by omega⟩
        rw [h, h1]
        exact h2
      · have hlt := nextToken_size_lt rt p he
        obtain ⟨e1, p1, h1, hs1⟩ := ihIndex (p.nextToken rt) left (by omega)
        obtain ⟨e2, p2, h2, hs2⟩ := ihLoop p1 prec e1 (by omega)
        refine ⟨e2, p2, ?_, by omega⟩
        rw [h, h1]
        exact h2
    · intro p prec hn
      rw [parseExpressionWithPrecedence]
      obtain ⟨e, p1, h1, hs1⟩ := ihLoop p prec (p.parsePrimary rt) (by omega)
      split
      · exact ⟨_, _, rfl, Nat.le_refl _⟩
      · exact ⟨e, p1, h1, hs1⟩
    · intro p hn
      rw [parseExpression]
      exact ihPrec p 0 (by omega)
    · intro p left hn
      rw [parseInfixExpression]
      have hle := nextToken_size_le rt p
      obtain ⟨e, p1, h1, hs1⟩ := ihPrec (p.nextToken rt) (precedence p.currentToken.Kind)
        (by omega)
      rw [h1]
      exact ⟨_, _, rfl, by omega⟩
    · intro p left hn
      rw [parseIndexExpression]
      have hle := nextToken_size_le rt p
      obtain ⟨e, p1, h1, hs1⟩ := ihExpr (p.nextToken rt) (by omega)
      rw [h1]
      have hp := expectPeek_size_le rt p1 TokenType.RSBREC
      simp only []
      split
      · rename_i p2 heq
        rw [heq] at hp
        exact ⟨_, _, rfl, by simp only [] at hp; omega⟩
      · rename_i p2 heq
        rw [heq] at hp
        exact ⟨_, _, rfl, by simp only [] at hp; omega⟩

theorem expectPeek_cases (rt : GoRuntime) (p : Parser) (t : TokenType)
    (ht : t ≠ TokenType.EOF) :
    p.expectPeek rt t = (false, p) ∨
    (p.expectPeek rt t = (true, p.nextToken rt) ∧ (p.nextToken rt).size + 1 ≤ p.size) := by
  unfold Parser.expectPeek
  by_cases hk : p.peekToken.Kind = t
  · rw [if_pos hk]
    exact Or.inr ⟨rfl, nextToken_size_lt rt p (by rw [hk]; exact ht)⟩
  · rw [if_neg hk]
    exact Or.inl rfl

theorem parseExpression_returns (rt : GoRuntime) (n : Nat) (p : Parser)
    (hn : 4 * p.size + 3 ≤ n) :
    ∃ e p1, parseExpression rt n p = some (e, p1) ∧ p1.size ≤ p.size :=
  (parseExpression_fuel rt n).2.2.1 p hn

theorem parseVarStatement_fuel (rt : GoRuntime) (n : Nat) (p : Parser)
    (hn : 4 * p.size + 3 ≤ n) :
    ∃ s p1, parseVarStatement rt n p = some (s, p1) ∧ p1.size ≤ p.size := by
  unfold parseVarStatement
  rcases expectPeek_cases rt p TokenType.IDENT (by decide) with h | ⟨h, hs⟩
  · simp only [h]
    exact ⟨_, _, rfl, Nat.le_refl _⟩
  · simp only [h]
    rcases expectPeek_cases rt (p.nextToken rt) TokenType.ASSIGN (by decide) with h2 | ⟨h2, hs2⟩
    · simp only [h2]
      exact ⟨_, _, rfl, by omega⟩
    · simp only [h2]
      have hle := nextToken_size_le rt ((p.nextToken rt).nextToken rt)
      obtain ⟨e, p3, h3, hs3⟩ :=
        parseExpression_returns rt n (((p.nextToken rt).nextToken rt).nextToken rt) (by omega)
      simp only [h3]
      exact ⟨_, _, rfl, by omega⟩

theorem parseArrayLoop_fuel (rt : GoRuntime) : ∀ (n : Nat) (p : Parser) (values : List Expression),
    4 * p.size + 1 ≤ n →
    ∃ vs p1, parseArrayLoop rt n p values = some (vs, p1) ∧ p1.size ≤ p.size := by
  intro n
  induction n with
  | zero => intros; omega
  | succ n ih =>
    intro p values hn
    rw [parseArrayLoop]
    by_cases hk : p.peekToken.Kind = TokenType.COMMA
    · rw [if_pos hk]
      have hlt := nextToken_size_lt rt p (by rw [hk]; decide)
      have hle := nextToken_size_le rt (p.nextToken rt)
      obtain ⟨e, p1, h1, hs1⟩ :=
        parseExpression_returns rt n ((p.nextToken rt).nextToken rt) (by omega)
      simp only [h1]
      obtain ⟨vs, p2, h2, hs2⟩ := ih p1 (values ++ [e]) (by omega)
      exact ⟨vs, p2, h2, by omega⟩
    · rw [if_neg hk]
      exact ⟨_, _, rfl, Nat.le_refl _⟩

theorem parseArray_fuel (rt : GoRuntime) (n : Nat) (p : Parser)
    (hn : 4 * p.size + 3 ≤ n) :
    ∃ s p1, parseArray rt n p = some (s, p1) ∧ p1.size ≤ p.size := by
  unfold parseArray
  rcases expectPeek_cases rt p TokenType.IDENT (by decide) with h | ⟨h, hs⟩
  · simp only [h]
    exact ⟨_, _, rfl, Nat.le_refl _⟩
  · simp only [h]
    rcases expectPeek_cases rt (p.nextToken rt) TokenType.ASSIGN (by decide) with h2 | ⟨h2, hs2⟩
    · simp only [h2]
      exact ⟨_, _, rfl, by omega⟩
    · simp only [h2]
      rcases expectPeek_cases rt ((p.nextToken rt).nextToken rt) TokenType.LSBREC (by decide)
        with h3 | ⟨h3, hs3⟩
      · simp only [h3]
        exact ⟨_, _, rfl, by omega⟩
      · simp only [h3]
        generalize (((p.nextToken rt).nextToken rt).nextToken rt) = p3 at hs3 ⊢
        have hel : ∃ vs p5,
            (if p3.peekToken.Kind ≠ TokenType.RSBREC then
              match parseExpression rt n (p3.nextToken rt) with
              | none => none
              | some (value, p4) => parseArrayLoop rt n p4 [value]
            else some ([], p3)) = some (vs, p5) ∧ p5.size ≤ p3.size := by
          by_cases hk : p3.peekToken.Kind ≠ TokenType.RSBREC
          · rw [if_pos hk]
            have hle := nextToken_size_le rt p3
            obtain ⟨e, p4, h4, hs4⟩ := parseExpression_returns rt n (p3.nextToken rt) (by omega)
            simp only [h4]
            obtain ⟨vs, p5, h5, hs5⟩ := parseArrayLoop_fuel rt n p4 [e] (by omega)
            exact ⟨vs, p5, h5, by omega⟩
          · rw [if_neg hk]
            exact ⟨_, _, rfl, Nat.le_refl _⟩
        obtain ⟨vs, p5, h5, hs5⟩ := hel
        simp only [h5]
        rcases expectPeek_cases rt p5 TokenType.RSBREC (by decide) with h6 | ⟨h6, hs6⟩
        · simp only [h6]
          exact ⟨_, _, rfl, by omega⟩
        · simp only [h6]
          exact ⟨_, _, rfl, by omega⟩

theorem parsePrintStatement_fuel (rt : GoRuntime) (n : Nat) (p : Parser)
    (hn : 4 * p.size + 3 ≤ n) :
    ∃ s p1, parsePrintStatement rt n p = some (s, p1) ∧ p1.size ≤ p.size := by
  unfold parsePrintStatement
  rcases expectPeek_cases rt p TokenType.LPAREN (by decide) with h | ⟨h, hs⟩
  · simp only [h]
    exact ⟨_, _, rfl, Nat.le_refl _⟩
  · simp only [h]
    have hle := nextToken_size_le rt (p.nextToken rt)
    obtain ⟨e, p2, h2, hs2⟩ :=
      parseExpression_returns rt n ((p.nextToken rt).nextToken rt) (by omega)
    simp only [h2]
    rcases expectPeek_cases rt p2 TokenType.RPAREN (by decide) with h3 | ⟨h3, hs3⟩
    · simp only [h3]
      exact ⟨_, _, rfl, by omega⟩
    · simp only [h3]
      exact ⟨_, _, rfl, by omega⟩

theorem parseForAssign_fuel (rt : GoRuntime) (n : Nat) (p : Parser)
    (hn : 4 * p.size + 3 ≤ n) :
    ∃ r p1, parseForAssign rt n p = some (r, p1) ∧ p1.size ≤ p.size := by
  unfold parseForAssign
  split_ifs
  · rcases expectPeek_cases rt p TokenType.ASSIGN (by decide) with h | ⟨h, hs⟩
    · simp only [h]
      exact ⟨_, _, rfl, Nat.le_refl _⟩
    · simp only [h]
      have hle := nextToken_size_le rt (p.nextToken rt)
      obtain ⟨e, p2, h2, hs2⟩ :=
        parseExpression_returns rt n ((p.nextToken rt).nextToken rt) (by omega)
      simp only [h2]
      exact ⟨_, _, rfl, by omega⟩
  · exact ⟨_, _, rfl, Nat.le_refl _⟩

theorem parseForInit_fuel (rt : GoRuntime) (n : Nat) (p : Parser)
    (hn : 4 * p.size + 3 ≤ n) :
    ∃ r p1, parseForInit rt n p = some (r, p1) ∧ p1.size ≤ p.size := by
  unfold parseForInit
  split_ifs
  · obtain ⟨r, p1, h1, hs1⟩ := parseForAssign_fuel rt n p hn
    simp only [h1]
    cases r with
    | none => exact ⟨_, _, rfl, hs1⟩
    | some init =>
      simp only []
      rcases expectPeek_cases rt p1 TokenType.SEMICOLON (by decide) with h | ⟨h, hs⟩
      · simp only [h]
        exact ⟨_, _, rfl, hs1⟩
      · simp only [h]
        exact ⟨_, _, rfl, by omega⟩
  · exact ⟨_, _, rfl, nextToken_size_le rt p⟩

theorem parseForCondition_fuel (rt : GoRuntime) (n : Nat) (p : Parser)
    (hn : 4 * p.size + 3 ≤ n) :
    ∃ r p1, parseForCondition rt n p = some (r, p1) ∧ p1.size ≤ p.size := by
  unfold parseForCondition
  have hc : ∃ e p1,
      (if p.currentToken.Kind ≠ TokenType.SEMICOLON then parseExpression rt n p
        else some (Expression.nil, p)) = some (e, p1) ∧ p1.size ≤ p.size := by
    split_ifs
    · exact parseExpression_returns rt n p hn
    · exact ⟨_, _, rfl, Nat.le_refl _⟩
  obtain ⟨e, p1, h1, hs1⟩ := hc
  simp only [h1]
  rcases expectPeek_cases rt p1 TokenType.SEMICOLON (by decide) with h | ⟨h, hs⟩
  · simp only [h]
    exact ⟨_, _, rfl, hs1⟩
  · simp only [h]
    exact ⟨_, _, rfl, by omega⟩

theorem parseForPost_fuel (rt : GoRuntime) (n : Nat) (p : Parser)
    (hn : 4 * p.size + 3 ≤ n) :
    ∃ r p1, parseForPost rt n p = some (r, p1) ∧ p1.size ≤ p.size := by
  unfold parseForPost
  have hc : ∃ r p1,
      (if p.peekToken.Kind ≠ TokenType.RPAREN then parseForAssign rt n (p.nextToken rt)
        else some (some Statement.nil, p)) = some (r, p1) ∧ p1.size ≤ p.size := by
    split_ifs
    · have hle := nextToken_size_le rt p
      obtain ⟨r, p1, h1, hs1⟩ := parseForAssign_fuel rt n (p.nextToken rt) (by omega)
      exact ⟨r, p1, h1, by omega⟩
    · exact ⟨_, _, rfl, Nat.le_refl _⟩
  obtain ⟨r, p1, h1, hs1⟩ := hc
  simp only [h1]
  cases r with
  | none => exact ⟨_, _, rfl, hs1⟩
  | some st =>
    simp only []
    rcases expectPeek_cases rt p1 TokenType.RPAREN (by decide) with h | ⟨h, hs⟩
    · simp only [h]
      exact ⟨_, _, rfl, hs1⟩
    · simp only [h]
      rcases expectPeek_cases rt (p1.nextToken rt) TokenType.LBRACE (by decide)
        with h2 | ⟨h2, hs2⟩
      · simp only [h2]
        exact ⟨_, _, rfl, by omega⟩
      · simp only [h2]
        exact ⟨_, _, rfl, by omega⟩

/-- The header of a for statement returns, and a header that is read in full
has consumed input. -/
theorem parseForHeader_fuel (rt : GoRuntime) (n : Nat) (p : Parser)
    (hn : 4 * p.size + 3 ≤ n) :
    ∃ r p1, parseForHeader rt n p = some (r, p1) ∧ p1.size ≤ p.size ∧
      (r ≠ none → p1.size + 1 ≤ p.size) := by
  unfold parseForHeader
  rcases expectPeek_cases rt p TokenType.LPAREN (by decide) with h | ⟨h, hs⟩
  · simp only [h]
    exact ⟨_, _, rfl, Nat.le_refl _, by simp⟩
  · simp only [h]
    have hle := nextToken_size_le rt (p.nextToken rt)
    obtain ⟨r2, p2, h2, hs2⟩ := parseForInit_fuel rt n ((p.nextToken rt).nextToken rt) (by omega)
    simp only [h2]
    cases r2 with
    | none => exact ⟨_, _, rfl, by omega, by simp⟩
    | some init =>
      simp only []
      obtain ⟨r3, p3, h3, hs3⟩ := parseForCondition_fuel rt n p2 (by omega)
      simp only [h3]
      cases r3 with
      | none => exact ⟨_, _, rfl, by omega, by simp⟩
      | some cond =>
        simp only []
        obtain ⟨r4, p4, h4, hs4⟩ := parseForPost_fuel rt n p3 (by omega)
        simp only [h4]
        cases r4 with
        | none => exact ⟨_, _, rfl, by omega, by simp⟩
        | some post => exact ⟨_, _, rfl, by omega, fun _ => by omega⟩

/-- The loop of a block stops on a current token that is the end of input. -/
theorem parseBlockStatement_EOF (rt : GoRuntime) (n : Nat) (p : Parser)
    (statements : List Statement) (h : p.currentToken.Kind = TokenType.EOF) :
    parseBlockStatement rt (n + 1) p statements = some (statements, p) := by
  rw [parseBlockStatement]
  simp [h]

/-- The loop of `ParseProgram` stops on a current token that is the end of input. -/
theorem parseProgramLoop_EOF (rt : GoRuntime) (n : Nat) (p : Parser)
    (statements : List Statement) (h : p.currentToken.Kind = TokenType.EOF) :
    parseProgramLoop rt (n + 1) p statements = some (statements, p) := by
  rw [parseProgramLoop]
  simp [h]

/-- A budget of four units per unit of input ahead, plus a constant, lets every
statement rule return, and no rule gives input back. -/
theorem parseStatement_fuel (rt : GoRuntime) : ∀ n : Nat,
    (∀ (p : Parser), 4 * p.size + 5 ≤ n →
      ∃ s p1, parseStatement rt n p = some (s, p1) ∧ p1.size ≤ p.size) ∧
    (∀ (p : Parser), 4 * p.size + 4 ≤ n →
      ∃ s p1, parseForStatement rt n p = some (s, p1) ∧ p1.size ≤ p.size) ∧
    (∀ (p : Parser), 4 * p.size + 4 ≤ n →
      ∃ s p1, parseIfStatement rt n p = some (s, p1) ∧ p1.size ≤ p.size) ∧
    (∀ (p : Parser) (statements : List Statement), 4 * p.size + 6 ≤ n →
      ∃ ss p1, parseBlockStatement rt n p statements = some (ss, p1) ∧ p1.size ≤ p.size) := by
  intro n
  induction n with
  | zero =>
    refine ⟨?_, ?_, ?_, ?_⟩ <;> intros <;> omega
  | succ n ih =>
    obtain ⟨ihStmt, ihFor, ihIf, ihBlock⟩ := ih
    refine ⟨?_, ?_, ?_, ?_⟩
    · intro p hn
      rw [parseStatement]
      split
      · exact parseVarStatement_fuel rt n p (by omega)
      · exact parseArray_fuel rt n p (by omega)
      · exact ihFor p (by omega)
      · exact ihIf p (by omega)
      · exact parsePrintStatement_fuel rt n p (by omega)
      · exact ⟨_, _, rfl, Nat.le_refl _⟩
    · intro p hn
      rw [parseForStatement]
      obtain ⟨r, p1, h1, hs1, hlt⟩ := parseForHeader_fuel rt n p (by omega)
      simp only [h1]
      cases r with
      | none => exact ⟨_, _, rfl, hs1⟩
      | some parts =>
        obtain ⟨init, cond, post⟩ := parts
        simp only []
        have hlt1 := hlt (by simp)
        have hle := nextToken_size_le rt p1
        obtain ⟨body, p2, h2, hs2⟩ := ihBlock (p1.nextToken rt) [] (by omega)
        simp only [h2]
        exact ⟨_, _, rfl, by omega⟩
    · intro p hn
      rw [parseIfStatement]
      have hle := nextToken_size_le rt p
      obtain ⟨cond, p1, h1, hs1⟩ := parseExpression_returns rt n (p.nextToken rt) (by omega)
      simp only [h1]
      rcases expectPeek_cases rt p1 TokenType.LBRACE (by decide) with h2 | ⟨h2, hs2⟩
      · simp only [h2]
        exact ⟨_, _, rfl, by omega⟩
      · simp only [h2]
        have hle2 := nextToken_size_le rt (p1.nextToken rt)
        obtain ⟨cons, p3, h3, hs3⟩ := ihBlock ((p1.nextToken rt).nextToken rt) [] (by omega)
        simp only [h3]
        split_ifs
        · have hle3 := nextToken_size_le rt p3
          rcases expectPeek_cases rt (p3.nextToken rt) TokenType.LBRACE (by decide)
            with h4 | ⟨h4, hs4⟩
          · simp only [h4]
            exact ⟨_, _, rfl, by omega⟩
          · simp only [h4]
            have hle4 := nextToken_size_le rt ((p3.nextToken rt).nextToken rt)
            obtain ⟨alt, p5, h5, hs5⟩ :=
              ihBlock (((p3.nextToken rt).nextToken rt).nextToken rt) [] (by omega)
            simp only [h5]
            exact ⟨_, _, rfl, by omega⟩
        · exact ⟨_, _, rfl, by omega⟩
    · intro p statements hn
      rw [parseBlockStatement]
      split_ifs
      · obtain ⟨s, p1, h1, hs1⟩ := ihStmt p (by omega)
        simp only [h1]
        by_cases he : p1.peekToken.Kind = TokenType.EOF
        · obtain ⟨k, hk⟩ : ∃ k, n = k + 1 := ⟨n - 1, by omega⟩
          rw [hk, parseBlockStatement_EOF rt k (p1.nextToken rt) _ he]
          exact ⟨_, _, rfl, by have := nextToken_size_le rt p1; omega⟩
        · have hlt := nextToken_size_lt rt p1 he
          obtain ⟨ss, p2, h2, hs2⟩ :=
            ihBlock (p1.nextToken rt) (appendStatement statements s) (by omega)
          exact ⟨ss, p2, h2, by omega⟩
      · exact ⟨_, _, rfl, Nat.le_refl _⟩

theorem parseProgramLoop_fuel (rt : GoRuntime) : ∀ (n : Nat) (p : Parser)
    (statements : List Statement), 4 * p.size + 6 ≤ n →
    ∃ ss p1, parseProgramLoop rt n p statements = some (ss, p1) ∧ p1.size ≤ p.size := by
  intro n
  induction n with
  | zero => intros; omega
  | succ n ih =>
    intro p statements hn
    rw [parseProgramLoop]
    split_ifs
    · obtain ⟨s, p1, h1, hs1⟩ := (parseStatement_fuel rt n).1 p (by omega)
      simp only [h1]
      by_cases he : p1.peekToken.Kind = TokenType.EOF
      · obtain ⟨k, hk⟩ : ∃ k, n = k + 1 := ⟨n - 1, by omega⟩
        rw [hk, parseProgramLoop_EOF rt k (p1.nextToken rt) _ he]
        exact ⟨_, _, rfl, by have := nextToken_size_le rt p1; omega⟩
      · have hlt := nextToken_size_lt rt p1 he
        obtain ⟨ss, p2, h2, hs2⟩ := ih (p1.nextToken rt) (appendStatement statements s) (by omega)
        exact ⟨ss, p2, h2, by omega⟩
    · exact ⟨_, _, rfl, Nat.le_refl _⟩

theorem scannerInit_length_le (input : List Char) : (scannerInit input).length ≤ input.length := by
  unfold scannerInit
  split
  · split_ifs <;> simp
  · simp

/-- The parser made for a source has no more input ahead than the source has runes. -/
theorem NewParser_size (rt : GoRuntime) (source : List Char) :
    (NewParser rt (NewLexer rt source)).size ≤ source.length := by
  have h0 : (NewLexer rt source).size ≤ source.length := by
    have h1 := Scan_length rt (scannerInit source)
    have h2 := scannerInit_length_le source
    unfold NewLexer Lexer.size Lexer.scan
    simp only []
    split_ifs with he
    · omega
    · have := h1.2 he
      omega
  have key : ∀ l : Lexer, (NewParser rt l).size ≤ l.size := by
    intro l
    have h1 := nextToken_size_lt rt ⟨l, ⟨TokenType.ILLEGAL, ""⟩, ⟨TokenType.ILLEGAL, ""⟩⟩
      (by simp)
    have h2 := nextToken_size_le rt
      (Parser.nextToken rt ⟨l, ⟨TokenType.ILLEGAL, ""⟩, ⟨TokenType.ILLEGAL, ""⟩⟩)
    have h3 : Parser.size ⟨l, ⟨TokenType.ILLEGAL, ""⟩, ⟨TokenType.ILLEGAL, ""⟩⟩ = 1 + l.size := by
      simp [Parser.size]
    unfold NewParser
    simp only []
    omega
  exact Nat.le_trans (key _) h0

/-- C20. `ParseProgram` terminates on every input.  For every parser state
there is a program that `ParseProgram` returns under every step budget of at
least four units per unit of input ahead of the parser plus six; for a source
text, four units per rune plus six are enough.  The reason is the one the rules
share: every `nextToken` takes the peek token off the input ahead unless it is
the end of input, no rule gives input back, and the loops of `ParseProgram`,
`parseBlockStatement`, `parseArray` and `parseExpressionWithPrecedence` return
when they meet the end of input. -/
theorem ParseProgram_terminates (rt : GoRuntime) :
    (∀ (p : Parser), ∃ program, ∀ (fuel : Nat), 4 * p.size + 6 ≤ fuel →
      ParseProgram rt fuel p = some program) ∧
    (∀ (source : List Char), ∃ program, ∀ (fuel : Nat), 4 * source.length + 6 ≤ fuel →
      parseSource rt fuel source = some program) ∧
    (∀ (p : Parser),
      (p.nextToken rt).size + (if p.peekToken.Kind = TokenType.EOF then 0 else 1) ≤ p.size) ∧
    (∀ (fuel : Nat) (p : Parser) (statements : List Statement),
      p.currentToken.Kind = TokenType.EOF →
      parseProgramLoop rt (fuel + 1) p statements = some (statements, p) ∧
      parseBlockStatement rt (fuel + 1) p statements = some (statements, p)) ∧
    (∀ (fuel : Nat) (p : Parser) (values : List Expression) (prec : Nat) (left : Expression),
      p.peekToken.Kind = TokenType.EOF →
      parseArrayLoop rt (fuel + 1) p values = some (values, p) ∧
      parseExpressionLoop rt (fuel + 1) p prec left = some (left, p)) := by
  have hprog : ∀ (p : Parser) (k : Nat), 4 * p.size + 6 ≤ k →
      ∃ program, ∀ (fuel : Nat), k ≤ fuel → ParseProgram rt fuel p = some program := by
    intro p k hk
    obtain ⟨ss, p1, h1, _⟩ := parseProgramLoop_fuel rt k p [] hk
    refine ⟨{ Statements := ss }, fun fuel hf => ?_⟩
    exact ParseProgram_mono rt p _ k fuel hf (by simp only [ParseProgram, h1])
  refine ⟨fun p => hprog p (4 * p.size + 6) (Nat.le_refl _), ?_, nextToken_size rt, ?_, ?_⟩
  · intro source
    have hs := NewParser_size rt source
    exact hprog (NewParser rt (NewLexer rt source)) (4 * source.length + 6) (by omega)
  · intro fuel p statements h
    exact ⟨parseProgramLoop_EOF rt fuel p statements h,
      parseBlockStatement_EOF rt fuel p statements h⟩
  · intro fuel p values prec left h
    constructor
    · rw [parseArrayLoop]
      simp [h]
    · rw [parseExpressionLoop]
      simp [h]

theorem ParseProgram_terminates_witness :
    ∃ program,
      parseSource sampleRuntime 62 (String.toList "lazy x = 1 + 2") = some program ∧
      parseSource sampleRuntime 100 (String.toList "lazy x = 1 + 2") = some program :=
  Exists.elim ((ParseProgram_terminates sampleRuntime).2.1 (String.toList "lazy x = 1 + 2"))
    (fun program h => ⟨program, h 62 (by decide), h 100 (by decide)⟩)

/-! ## Statement dispatch -/

/-- The parser made for a lexer holds the lexer's next token as current token. -/
theorem NewParser_currentToken (rt : GoRuntime) (l : Lexer) :
    (NewParser rt l).currentToken = (l.NextToken rt).1 := rfl

/-- Advancing the parser made for a lexer gives the parser made for the lexer
after its next token. -/
theorem NewParser_nextToken (rt : GoRuntime) (l : Lexer) :
    (NewParser rt l).nextToken rt = NewParser rt (l.NextToken rt).2 := rfl

/-- On a current token that is no statement keyword `parseStatement` returns the
nil statement and leaves the parser where it is. -/
theorem parseStatement_other (rt : GoRuntime) (fuel : Nat) (p : Parser)
    (h : isStatementKeyword p.currentToken.Kind = false) :
    parseStatement rt (fuel + 1) p = some (Statement.nil, p) := by
  rw [parseStatement]
  generalize p.currentToken.Kind = k at h
  cases k <;> simp [isStatementKeyword] at h ⊢

theorem parseProgramLoop_other (rt : GoRuntime) : ∀ (n : Nat) (l : Lexer)
    (statements : List Statement) (fuel : Nat), l.bound ≤ n →
    (∀ t ∈ Lexer.tokens rt n l, isStatementKeyword t.Kind = false) → n + 2 ≤ fuel →
    ∃ p1, parseProgramLoop rt fuel (NewParser rt l) statements = some (statements, p1) := by
  intro n
  induction n with
  | zero =>
    intro l statements fuel hb _ hf
    have h0 : l.token = ScanTok.EOF := by
      unfold Lexer.bound at hb
      split at hb
      · assumption
      · omega
    obtain ⟨k, hk⟩ : ∃ k, fuel = k + 1 := ⟨fuel - 1, by omega⟩
    rw [hk, parseProgramLoop_EOF rt k _ _
      (by rw [NewParser_currentToken]; exact (switchToken_kind_EOF l).2 h0)]
    exact ⟨_, rfl⟩
  | succ n ih =>
    intro l statements fuel hb ht hf
    obtain ⟨k, hk⟩ : ∃ k, fuel = k + 2 := ⟨fuel - 2, by omega⟩
    by_cases he : l.token = ScanTok.EOF
    · rw [hk, parseProgramLoop_EOF rt (k + 1) _ _
        (by rw [NewParser_currentToken]; exact (switchToken_kind_EOF l).2 he)]
      exact ⟨_, rfl⟩
    · have hne : (NewParser rt l).currentToken.Kind ≠ TokenType.EOF := by
        rw [NewParser_currentToken]
        exact fun hh => he ((switchToken_kind_EOF l).1 hh)
      rw [tokens_succ rt n l he] at ht
      have hcur : isStatementKeyword (NewParser rt l).currentToken.Kind = false := by
        rw [NewParser_currentToken]
        exact ht _ (List.mem_cons_self _ _)
      have hb1 := NextToken_bound rt l he
      obtain ⟨p1, h1⟩ := ih (l.NextToken rt).2 statements (k + 1) (by omega)
        (fun t hmem => ht t (List.mem_cons_of_mem _ hmem)) (by omega)
      refine ⟨p1, ?_⟩
      rw [hk, parseProgramLoop, if_pos hne, parseStatement_other rt k _ hcur]
      simp only [appendStatement, NewParser_nextToken]
      exact h1

theorem NewLexer_bound (rt : GoRuntime) (source : List Char) :
    (NewLexer rt source).bound ≤ source.length + 1 := by
  have h1 := (Scan_length rt (scannerInit source)).1
  have h2 := scannerInit_length_le source
  unfold Lexer.bound NewLexer Lexer.scan
  simp only []
  split <;> omega

/-- C15. Statement dispatch skips non-statement tokens.  For every source whose
token stream holds none of the five statement keywords, `ParseProgram` returns
the program without statements (a budget of the source length plus three is
enough).  Identifier texts `while` and `in` are given the keyword kinds `WHILE`
and `IN` by `NextToken`, not `IDENT`, and on any current token that is no
statement keyword, these two included, `parseStatement` returns no statement and
consumes nothing. -/
theorem statement_dispatch (rt : GoRuntime) :
    (∀ (source : List Char) (fuel : Nat),
      (∀ t ∈ Lexer.allTokens rt (NewLexer rt source), isStatementKeyword t.Kind = false) →
      source.length + 3 ≤ fuel →
      parseSource rt fuel source = some { Statements := [] }) ∧
    (∀ (l : Lexer), l.token = ScanTok.Ident →
      (l.text = "while" → (l.NextToken rt).1 = ⟨TokenType.WHILE, "while"⟩) ∧
      (l.text = "in" → (l.NextToken rt).1 = ⟨TokenType.IN, "in"⟩)) ∧
    (∀ (fuel : Nat) (p : Parser), isStatementKeyword p.currentToken.Kind = false →
      parseStatement rt (fuel + 1) p = some (Statement.nil, p)) ∧
    isStatementKeyword TokenType.WHILE = false ∧ isStatementKeyword TokenType.IN = false ∧
    isStatementKeyword TokenType.IDENT = false ∧ isStatementKeyword TokenType.ASSIGN = false ∧
    isStatementKeyword TokenType.NUMBER = false := by
  refine ⟨?_, ?_, parseStatement_other rt, rfl, rfl, rfl, rfl, rfl⟩
  · intro source fuel ht hf
    have hb := NewLexer_bound rt source
    rw [allTokens_eq_tokens rt (source.length + 1) _ hb] at ht
    obtain ⟨p1, h1⟩ := parseProgramLoop_other rt (source.length + 1) (NewLexer rt source) []
      fuel hb ht (by omega)
    simp only [parseSource, ParseProgram, h1]
  · intro l hl
    constructor
    · intro htext
      simp only [Lexer.NextToken, Lexer.switchToken, hl, htext]
      decide
    · intro htext
      simp only [Lexer.NextToken, Lexer.switchToken, hl, htext]
      decide

theorem statement_dispatch_witness :
    parseSource sampleRuntime 8 (String.toList "x = 5") = some { Statements := [] } :=
  (statement_dispatch sampleRuntime).1 (String.toList "x = 5") 8 (by decide) (by decide)

/-- The texts `while` and `in` are lexed as the keywords `WHILE` and `IN`, and
the sources `while in x y 1 + 2` and `x = 5` give no statement. -/
theorem statement_dispatch_examples :
    Lexer.allTokens sampleRuntime (NewLexer sampleRuntime (String.toList "while in")) =
      [⟨TokenType.WHILE, "while"⟩, ⟨TokenType.IN, "in"⟩] ∧
    parseSource sampleRuntime 200 (String.toList "while in x y 1 + 2") =
      some { Statements := [] } ∧
    Lexer.allTokens sampleRuntime (NewLexer sampleRuntime (String.toList "x = 5")) =
      [⟨TokenType.IDENT, "x"⟩, ⟨TokenType.ASSIGN, "="⟩, ⟨TokenType.NUMBER, "5"⟩] ∧
    parseSource sampleRuntime 200 (String.toList "x = 5") = some { Statements := [] } := by
  refine ⟨?_, ?_, ?_, ?_⟩ <;> decide

/-! ## Arrays -/

/-- An array binding with the empty list `[` `]`: no element is required. -/
theorem parseArray_empty (rt : GoRuntime) (fuel : Nat) (p : Parser)
    (h1 : p.peekToken.Kind = TokenType.IDENT)
    (h2 : (p.skip rt 1).peekToken.Kind = TokenType.ASSIGN)
    (h3 : (p.skip rt 2).peekToken.Kind = TokenType.LSBREC)
    (h4 : (p.skip rt 3).peekToken.Kind = TokenType.RSBREC) :
    parseArray rt fuel p = some (Statement.ArrayStatement p.peekToken.Literal [], p.skip rt 4) := by
  simp only [Parser.skip] at h2 h3 h4 ⊢
  simp only [parseArray, Parser.expectPeek, h1, h2, h3, h4, if_true, ne_eq, not_true_eq_false,
    if_false, nextToken_currentToken]

/-- C13. Empty array boundary: for every runtime, the source `lazyArray a = []`
parses to the program of exactly one array binding named `a` with no values,
and a fresh generator emits for it the line `a := []interface\x7b\x7d\x7b\x7d`; in
general an array binding whose `[` is directly followed by `]` parses to the
binding with the empty value sequence, no element being required. -/
theorem empty_array (rt : GoRuntime) (fuel : Nat) :
    parseSource rt (fuel + 3) (String.toList "lazyArray a = []") =
      some { Statements := [Statement.ArrayStatement "a" []] } ∧
    (generateStatement rt NewCodeGen (Statement.ArrayStatement "a" [])).map Prod.fst =
      some "a := []interface\x7b\x7d\x7b\x7d" ∧
    (Generate rt NewCodeGen { Statements := [Statement.ArrayStatement "a" []] }).map Prod.fst =
      some "package main\n\nimport \"fmt\"\n\nfunc main() \x7b\n\ta := []interface\x7b\x7d\x7b\x7d\n\x7d\n" ∧
    (∀ p : Parser, p.currentToken.Kind = TokenType.ARRAY →
      p.peekToken.Kind = TokenType.IDENT →
      (p.skip rt 1).peekToken.Kind = TokenType.ASSIGN →
      (p.skip rt 2).peekToken.Kind = TokenType.LSBREC →
      (p.skip rt 3).peekToken.Kind = TokenType.RSBREC →
      parseStatement rt (fuel + 1) p =
        some (Statement.ArrayStatement p.peekToken.Literal [], p.skip rt 4)) := by
  refine ⟨rfl, ?_, ?_, ?_⟩
  · simp only [generateStatement, NewCodeGen, generateValues, Bool.false_eq_true, if_false,
      Option.map_some']
    decide
  · simp only [Generate, generateStatements, generateStatement, NewCodeGen, generateValues,
      Bool.false_eq_true, if_false, Option.map_some']
    decide
  · intro p h0 h1 h2 h3 h4
    rw [parseStatement]
    simp only [h0]
    exact parseArray_empty rt fuel p h1 h2 h3 h4

theorem empty_array_witness :
    parseStatement sampleRuntime 1
        (NewParser sampleRuntime (NewLexer sampleRuntime (String.toList "lazyArray b = [ ] ;"))) =
      some (Statement.ArrayStatement
          (NewParser sampleRuntime
            (NewLexer sampleRuntime (String.toList "lazyArray b = [ ] ;"))).peekToken.Literal [],
        Parser.skip sampleRuntime 4
          (NewParser sampleRuntime (NewLexer sampleRuntime (String.toList "lazyArray b = [ ] ;")))) :=
  (empty_array sampleRuntime 0).2.2.2
    (NewParser sampleRuntime (NewLexer sampleRuntime (String.toList "lazyArray b = [ ] ;")))
    (by decide) (by decide) (by decide) (by decide) (by decide)

/-- An index access on an identifier: on `c` `[` tokens of `e` `]`, with no
operator or `[` after the `]`, `parseExpression` returns the index expression of
the identifier `c` and of the expression parsed between the brackets. -/
theorem parseExpression_index (rt : GoRuntime) (fuel : Nat) (p p1 : Parser) (e : Expression)
    (hc : p.currentToken.Kind = TokenType.IDENT) (hp : p.peekToken.Kind = TokenType.LSBREC)
    (he : parseExpression rt fuel (p.skip rt 2) = some (e, p1))
    (hr : p1.peekToken.Kind = TokenType.RSBREC)
    (hend : precedence (p1.nextToken rt).peekToken.Kind = 0) :
    parseExpression rt (fuel + 4) p =
      some (Expression.IndexExpression (Expression.Identifier p.currentToken.Literal) e,
        p1.nextToken rt) := by
  simp only [Parser.skip] at he
  rw [parseExpression, parseExpressionWithPrecedence_primary rt _ p 0 (Or.inl hc),
    parseExpressionLoop]
  simp only [hp, ne_eq, reduceCtorEq, not_false_eq_true, precedence, Nat.lt_add_one,
    Nat.ofNat_pos, and_self, if_true, parseIndexExpression, he, Parser.expectPeek, hr,
    Parser.parsePrimary, hc]
  exact parseExpressionLoop_stop rt _ _ _ _ (by omega)

/-- The two body lines of an array binding of three numbers and of a print of an
indexed identifier, for any runtime in terms of its number format. -/
theorem generateEach_array_print (rt : GoRuntime) (name : String) (v1 v2 v3 i : Float64) :
    (generateEach rt NewCodeGen
      [Statement.ArrayStatement name [Expression.NumberLiteral v1, Expression.NumberLiteral v2,
          Expression.NumberLiteral v3],
        Statement.PrintStatement (Expression.IndexExpression (Expression.Identifier name)
          (Expression.NumberLiteral i))]).map Prod.fst =
      some [name ++ " := []interface\x7b\x7d\x7b" ++ (rt.FormatFloat v1 ++ ", " ++
          rt.FormatFloat v2 ++ ", " ++ rt.FormatFloat v3) ++ "\x7d",
        "fmt.Println(" ++ (name ++ "[" ++ rt.FormatFloat i ++ "]") ++ ")"] := by
  simp [generateEach, generateStatement, NewCodeGen, generateValues, generateValue,
    generateExpression, String.append_assoc]

/-- C14. Array round trip.  The source `lazyArray a = [1, 2, 3]; lazyPrint(a[1]);`
is lexed and parsed to a program of exactly two statements, the array binding of
`a` to 1, 2, 3 and the print of `a[1]`, and its generated body lines are
`a := []interface\x7b\x7d\x7b1, 2, 3\x7d` and `fmt.Println(a[1])` (for every runtime
that formats the three numbers as `1`, `2`, `3`).  In general an index access
`c[e]` on an identifier `c` is parsed to the index expression of `c` and `e`,
and an index expression is rendered as the array, `[`, the index, `]`. -/
theorem array_round_trip (rt : GoRuntime) :
    parseSource sampleRuntime 200
        (String.toList "lazyArray a = [1, 2, 3]; lazyPrint(a[1]);") =
      some { Statements :=
        [Statement.ArrayStatement "a" [Expression.NumberLiteral (sampleRuntime.ParseFloat "1"),
            Expression.NumberLiteral (sampleRuntime.ParseFloat "2"),
            Expression.NumberLiteral (sampleRuntime.ParseFloat "3")],
          Statement.PrintStatement (Expression.IndexExpression (Expression.Identifier "a")
            (Expression.NumberLiteral (sampleRuntime.ParseFloat "1")))] } ∧
    (∀ v1 v2 v3 : Float64, rt.FormatFloat v1 = "1" → rt.FormatFloat v2 = "2" →
      rt.FormatFloat v3 = "3" →
      (generateEach rt NewCodeGen
        [Statement.ArrayStatement "a" [Expression.NumberLiteral v1, Expression.NumberLiteral v2,
            Expression.NumberLiteral v3],
          Statement.PrintStatement (Expression.IndexExpression (Expression.Identifier "a")
            (Expression.NumberLiteral v1))]).map Prod.fst =
        some ["a := []interface\x7b\x7d\x7b1, 2, 3\x7d", "fmt.Println(a[1])"]) ∧
    (∀ (fuel : Nat) (p p1 : Parser) (e : Expression),
      p.currentToken.Kind = TokenType.IDENT → p.peekToken.Kind = TokenType.LSBREC →
      parseExpression rt fuel (p.skip rt 2) = some (e, p1) →
      p1.peekToken.Kind = TokenType.RSBREC →
      precedence (p1.nextToken rt).peekToken.Kind = 0 →
      parseExpression rt (fuel + 4) p =
        some (Expression.IndexExpression (Expression.Identifier p.currentToken.Literal) e,
          p1.nextToken rt)) ∧
    (∀ (c : String) (e : Expression),
      generateExpression rt (Expression.IndexExpression (Expression.Identifier c) e) =
        c ++ "[" ++ generateExpression rt e ++ "]") := by
  refine ⟨by decide, ?_, ?_, ?_⟩
  · intro v1 v2 v3 h1 h2 h3
    rw [generateEach_array_print, h1, h2, h3]
    decide
  · intro fuel p p1 e hc hp he hr hend
    exact parseExpression_index rt fuel p p1 e hc hp he hr hend
  · intro c e
    rfl

theorem array_round_trip_witness :
    (generateEach sampleRuntime NewCodeGen
        [Statement.ArrayStatement "a" [Expression.NumberLiteral ⟨1⟩, Expression.NumberLiteral ⟨2⟩,
            Expression.NumberLiteral ⟨3⟩],
          Statement.PrintStatement (Expression.IndexExpression (Expression.Identifier "a")
            (Expression.NumberLiteral ⟨1⟩))]).map Prod.fst =
        some ["a := []interface\x7b\x7d\x7b1, 2, 3\x7d", "fmt.Println(a[1])"] ∧
    parseExpression sampleRuntime 10
        (NewParser sampleRuntime (NewLexer sampleRuntime (String.toList "c[i + 1];"))) =
      some (Expression.IndexExpression (Expression.Identifier "c")
          (Expression.InfixExpression (Expression.Identifier "i") "+"
            (Expression.NumberLiteral ⟨1⟩)),
        Parser.skip sampleRuntime 5
          (NewParser sampleRuntime (NewLexer sampleRuntime (String.toList "c[i + 1];")))) :=
  ⟨(array_round_trip sampleRuntime).2.1 ⟨1⟩ ⟨2⟩ ⟨3⟩ (by decide) (by decide) (by decide),
    (array_round_trip sampleRuntime).2.2.1 6
      (NewParser sampleRuntime (NewLexer sampleRuntime (String.toList "c[i + 1];")))
      (Parser.skip sampleRuntime 4
        (NewParser sampleRuntime (NewLexer sampleRuntime (String.toList "c[i + 1];"))))
      (Expression.InfixExpression (Expression.Identifier "i") "+" (Expression.NumberLiteral ⟨1⟩))
      (by decide) (by decide) (by decide) (by decide) (by decide)⟩

/-! ## Source order of expressions -/

theorem skip_add (rt : GoRuntime) (a b : Nat) (p : Parser) :
    Parser.skip rt (a + b) p = Parser.skip rt b (Parser.skip rt a p) := by
  induction a generalizing p with
  | zero => simp [Parser.skip]
  | succ a ih =>
    rw [show a + 1 + b = (a + b) + 1 by omega]
    simp only [Parser.skip]
    exact ih _

theorem isBinaryOperator_precedence (k : TokenType) (h : isBinaryOperator k = true) :
    0 < precedence k ∧ precedence k ≤ 3 ∧ k ≠ TokenType.EOF ∧ k ≠ TokenType.SEMICOLON := by
  cases k <;> simp [isBinaryOperator, precedence] at h ⊢

/-- Past `k` operators and operands of a flat expression stands the flat
expression of the remaining ones. -/
theorem flatExpr_skip (rt : GoRuntime) (k m : Nat) (p : Parser)
    (h : flatExpr rt (k + m) p = true) : flatExpr rt m (p.skip rt (2 * k)) = true := by
  induction k generalizing p with
  | zero => simpa [Parser.skip] using h
  | succ k ih =>
    rw [show k + 1 + m = (k + m) + 1 by omega] at h
    simp only [flatExpr, Bool.and_eq_true] at h
    rw [show 2 * (k + 1) = 2 + 2 * k by omega, skip_add]
    exact ih _ h.2

theorem flatExpr_current (rt : GoRuntime) (m : Nat) (p : Parser)
    (h : flatExpr rt m p = true) : p.currentToken.Kind = TokenType.IDENT := by
  cases m <;> simp [flatExpr] at h
  · exact h.1
  · exact h.1.1

theorem flatTail_add (rt : GoRuntime) (a b : Nat) (p : Parser) :
    flatTail rt (a + b) p = flatTail rt a p ++ flatTail rt b (p.skip rt (2 * a)) := by
  induction a generalizing p with
  | zero => simp [flatTail, Parser.skip]
  | succ a ih =>
    rw [show a + 1 + b = (a + b) + 1 by omega, flatTail, flatTail, ih,
      show 2 * (a + 1) = 2 + 2 * a by omega, skip_add]
    simp

/-- What the expression rules return on a flat expression: they stop after `k`
of its `m` operators, at the end or before an operator that does not bind
tighter than the floor, and the tree holds the tokens read, in their order. -/
theorem parseExpression_flat (rt : GoRuntime) : ∀ n : Nat,
    (∀ (m : Nat) (q : Parser) (prec : Nat) (left e : Expression) (p1 : Parser),
      flatExpr rt m q = true → isInfixTree left = true →
      parseExpressionLoop rt n q prec left = some (e, p1) →
      ∃ k, k ≤ m ∧ p1 = q.skip rt (2 * k) ∧
        inorder rt e = inorder rt left ++ flatTail rt k q ∧
        infixCount e = infixCount left + k ∧ isInfixTree e = true ∧
        (k = m ∨ precedence (q.skip rt (2 * k)).peekToken.Kind ≤ prec)) ∧
    (∀ (m : Nat) (p : Parser) (prec : Nat) (e : Expression) (p1 : Parser),
      flatExpr rt m p = true → parseExpressionWithPrecedence rt n p prec = some (e, p1) →
      ∃ k, k ≤ m ∧ p1 = p.skip rt (2 * k) ∧
        inorder rt e = flatTokens rt k p ∧ infixCount e = k ∧ isInfixTree e = true ∧
        (k = m ∨ precedence (p.skip rt (2 * k)).peekToken.Kind ≤ prec)) ∧
    (∀ (m : Nat) (q : Parser) (left e : Expression) (p1 : Parser),
      flatExpr rt m (q.nextToken rt) = true → isInfixTree left = true →
      parseInfixExpression rt n q left = some (e, p1) →
      ∃ k, k ≤ m ∧ p1 = (q.nextToken rt).skip rt (2 * k) ∧
        inorder rt e =
          inorder rt left ++ q.currentToken.Literal :: flatTokens rt k (q.nextToken rt) ∧
        infixCount e = infixCount left + 1 + k ∧ isInfixTree e = true ∧
        (k = m ∨ precedence ((q.nextToken rt).skip rt (2 * k)).peekToken.Kind ≤
          precedence q.currentToken.Kind)) := by
  intro n
  induction n with
  | zero =>
    refine ⟨?_, ?_, ?_⟩
    · intro m q prec left e p1 _ _ h
      simp [parseExpressionLoop] at h
    · intro m p prec e p1 _ h
      simp [parseExpressionWithPrecedence] at h
    · intro m q left e p1 _ _ h
      simp [parseInfixExpression] at h
  | succ n ih =>
    obtain ⟨ihLoop, ihPrec, ihInfix⟩ := ih
    refine ⟨?_, ?_, ?_⟩
    · intro m q prec left e p1 hflat hl h
      cases m with
      | zero =>
        simp only [flatExpr, Bool.and_eq_true, Bool.or_eq_true, decide_eq_true_eq] at hflat
        have hstop : parseExpressionLoop rt (n + 1) q prec left = some (left, q) := by
          rw [parseExpressionLoop]
          rcases hflat.2 with hs | hs <;> simp [hs]
        rw [hstop] at h
        simp only [Option.some.injEq, Prod.mk.injEq] at h
        refine ⟨0, Nat.le_refl _, ?_, ?_, ?_, ?_, Or.inl rfl⟩
        · simp [Parser.skip, h.2]
        · simp [flatTail, h.1]
        · simp [h.1]
        · rw [← h.1]
          exact hl
      | succ m =>
        simp only [flatExpr, Bool.and_eq_true, decide_eq_true_eq] at hflat
        obtain ⟨⟨hcur, hop⟩, hrest⟩ := hflat
        obtain ⟨hpos, hle3, _, _⟩ := isBinaryOperator_precedence _ hop
        by_cases hlt : prec < precedence q.peekToken.Kind
        · rw [parseExpressionLoop_operator rt n q prec left hlt hle3] at h
          cases hi : parseInfixExpression rt n (q.nextToken rt) left with
          | none => simp [hi] at h
          | some v =>
            obtain ⟨e1, q1⟩ := v
            simp only [hi] at h
            have hrest1 : flatExpr rt m ((q.nextToken rt).nextToken rt) = true := by
              simpa [Parser.skip] using hrest
            obtain ⟨k1, hk1, hq1, hin1, hc1, ht1, _⟩ :=
              ihInfix m (q.nextToken rt) left e1 q1 hrest1 hl hi
            obtain ⟨m2, hm2⟩ : ∃ m2, m = k1 + m2 := ⟨m - k1, by omega⟩
            have hflat2 : flatExpr rt m2 q1 = true := by
              rw [hq1]
              exact flatExpr_skip rt k1 m2 _ (hm2 ▸ hrest1)
            obtain ⟨k2, hk2, hp1, hin2, hc2, ht2, hstop2⟩ :=
              ihLoop m2 q1 prec e1 e p1 hflat2 ht1 h
            have hskip : q1 = q.skip rt (2 * (1 + k1)) := by
              rw [hq1, show 2 * (1 + k1) = 2 + 2 * k1 by omega, skip_add]
              simp [Parser.skip]
            have hskip2 : q1.skip rt (2 * k2) = q.skip rt (2 * (1 + k1 + k2)) := by
              rw [hskip, ← skip_add]
              congr 1
              omega
            refine ⟨1 + k1 + k2, by omega, ?_, ?_, by omega, ht2, ?_⟩
            · rw [hp1, hskip2]
            · rw [hin2, hin1, flatTail_add rt (1 + k1) k2 q, ← hskip,
                show 1 + k1 = k1 + 1 by omega, flatTail]
              simp [flatTokens, Parser.skip, nextToken_currentToken]
            · rcases hstop2 with hs | hs
              · exact Or.inl (by omega)
              · exact Or.inr (by rw [← hskip2]; exact hs)
        · rw [parseExpressionLoop_stop rt n q prec left (by omega)] at h
          simp only [Option.some.injEq, Prod.mk.injEq] at h
          refine ⟨0, Nat.zero_le _, ?_, ?_, ?_, ?_, Or.inr ?_⟩
          · simp [Parser.skip, h.2]
          · simp [flatTail, h.1]
          · simp [h.1]
          · rw [← h.1]
            exact hl
          · simp only [Nat.mul_zero, Parser.skip]
            omega
    · intro m p prec e p1 hflat h
      have hcur := flatExpr_current rt m p hflat
      rw [parseExpressionWithPrecedence_primary rt n p prec (Or.inl hcur)] at h
      obtain ⟨k, hk, hp1, hin, hc, ht, hstop⟩ := ihLoop m p prec _ e p1 hflat
        (by simp [Parser.parsePrimary, hcur, isInfixTree]) h
      refine ⟨k, hk, hp1, ?_, ?_, ht, hstop⟩
      · rw [hin]
        simp [Parser.parsePrimary, hcur, inorder, flatTokens]
      · rw [hc]
        simp [Parser.parsePrimary, hcur, infixCount]
    · intro m q left e p1 hflat hl h
      rw [parseInfixExpression] at h
      cases hi : parseExpressionWithPrecedence rt n (q.nextToken rt)
          (precedence q.currentToken.Kind) with
      | none => simp [hi] at h
      | some v =>
        obtain ⟨right, q1⟩ := v
        simp only [hi, Option.some.injEq, Prod.mk.injEq] at h
        obtain ⟨k, hk, hq1, hin, hc, ht, hstop⟩ :=
          ihPrec m (q.nextToken rt) _ right q1 hflat hi
        refine ⟨k, hk, ?_, ?_, ?_, ?_, hstop⟩
        · rw [← h.2, hq1]
        · rw [← h.1]
          simp [inorder, hin]
        · rw [← h.1]
          simp only [infixCount, hc]
        · rw [← h.1]
          simp [isInfixTree, hl, ht]

theorem dropParens_append (a b : String) :
    dropParens (a ++ b) = dropParens a ++ dropParens b := by
  apply String.ext
  simp [dropParens, String.data_append, List.filter_append]

theorem dropParens_self (t : String) (h : ∀ c ∈ t.data, c ≠ '(' ∧ c ≠ ')') :
    dropParens t = t := by
  apply String.ext
  simp only [dropParens]
  rw [List.filter_eq_self]
  intro c hc
  have := h c hc
  simp [this.1, this.2]

theorem joinSpaces_cons (t : String) (ts : List String) (h : ts ≠ []) :
    joinSpaces (t :: ts) = t ++ " " ++ joinSpaces ts := by
  cases ts with
  | nil => exact absurd rfl h
  | cons u us => rfl

theorem joinSpaces_append (xs ys : List String) (hx : xs ≠ []) (hy : ys ≠ []) :
    joinSpaces (xs ++ ys) = joinSpaces xs ++ " " ++ joinSpaces ys := by
  induction xs with
  | nil => exact absurd rfl hx
  | cons x xs ih =>
    cases xs with
    | nil =>
      rw [List.singleton_append, joinSpaces_cons x ys hy]
      rfl
    | cons x1 xs1 =>
      rw [List.cons_append, joinSpaces_cons x _ (by simp), ih (by simp),
        joinSpaces_cons x _ (by simp)]
      simp [String.append_assoc]

theorem inorder_ne_nil (rt : GoRuntime) (e : Expression) (h : isInfixTree e = true) :
    inorder rt e ≠ [] := by
  cases e <;> simp [isInfixTree, inorder] at h ⊢

/-- The `String()` of a tree of infix nodes, without its parentheses, is the
in-order traversal joined by spaces, without its parentheses. -/
theorem String_dropParens (rt : GoRuntime) (e : Expression) (h : isInfixTree e = true) :
    ∃ s, e.String rt = some s ∧ dropParens s = dropParens (joinSpaces (inorder rt e)) := by
  induction e with
  | nil => simp [isInfixTree] at h
  | Identifier v => exact ⟨v, rfl, rfl⟩
  | NumberLiteral v => exact ⟨rt.FormatFloat v, rfl, rfl⟩
  | IndexExpression a i _ _ => simp [isInfixTree] at h
  | InfixExpression l op r ihl ihr =>
    simp only [isInfixTree, Bool.and_eq_true] at h
    obtain ⟨ls, hls, hdl⟩ := ihl h.1
    obtain ⟨rs, hrs, hdr⟩ := ihr h.2
    refine ⟨"(" ++ ls ++ " " ++ op ++ " " ++ rs ++ ")", by simp [Expression.String, hls, hrs], ?_⟩
    have hnl := inorder_ne_nil rt l h.1
    have hnr := inorder_ne_nil rt r h.2
    rw [inorder, joinSpaces_append _ _ hnl (by simp), joinSpaces_cons op _ hnr]
    simp only [dropParens_append, hdl, hdr]
    have h1 : dropParens "(" = "" := by decide
    have h2 : dropParens ")" = "" := by decide
    rw [h1, h2]
    simp [String.append_assoc]

theorem parseExpression_le (rt : GoRuntime) (p : Parser) (r : Expression × Parser) (n m : Nat)
    (hnm : n ≤ m) (h : parseExpression rt n p = some r) : parseExpression rt m p = some r := by
  induction m with
  | zero =>
    have h0 : n = 0 := by omega
    rw [← h0]
    exact h
  | succ m ih =>
    by_cases hm : n ≤ m
    · exact parseExpression_succ rt m p r (ih hm)
    · have h1 : n = m + 1 := by omega
      rw [← h1]
      exact h

/-- C21. Expression parsing preserves source order and consumes the whole
expression.  For every parser standing on a flat expression
`x0 op1 x1 ... opn xn` (identifiers, binary operators from `+ - * / > < == >= <=`)
followed by `;` or the end of input, there is a tree that `parseExpression`
returns under every step budget of at least four units per unit of input ahead
plus three; it leaves the parser on `xn`, has exactly `n` infix nodes and no
other inner node, and its in-order traversal is `x0, op1, x1, ..., opn, xn`.
Its `String()` without the parentheses is the token texts joined by spaces
(when no token text holds a parenthesis; in any case up to the parentheses of
the token texts). -/
theorem expression_source_order (rt : GoRuntime) (n : Nat) (p : Parser)
    (h : flatExpr rt n p = true) :
    ∃ e,
      (∀ fuel, 4 * p.size + 3 ≤ fuel →
        parseExpression rt fuel p = some (e, p.skip rt (2 * n))) ∧
      (p.skip rt (2 * n)).currentToken.Kind = TokenType.IDENT ∧
      inorder rt e = flatTokens rt n p ∧
      infixCount e = n ∧ isInfixTree e = true ∧
      ∃ s, e.String rt = some s ∧
        dropParens s = dropParens (joinSpaces (flatTokens rt n p)) ∧
        ((∀ t ∈ flatTokens rt n p, ∀ c ∈ t.data, c ≠ '(' ∧ c ≠ ')') →
          dropParens s = joinSpaces (flatTokens rt n p)) := by
  obtain ⟨e, p1, h1, _⟩ := parseExpression_returns rt (4 * p.size + 3) p (Nat.le_refl _)
  have h2 := h1
  rw [show 4 * p.size + 3 = (4 * p.size + 2) + 1 by omega, parseExpression] at h2
  obtain ⟨k, hk, hp1, hin, hc, ht, hstop⟩ :=
    (parseExpression_flat rt (4 * p.size + 2)).2.1 n p 0 e p1 h h2
  have hkn : k = n := by
    rcases hstop with hs | hs
    · exact hs
    · by_contra hne
      obtain ⟨m, hm⟩ : ∃ m, n = k + (m + 1) := ⟨n - k - 1, by omega⟩
      have hf := flatExpr_skip rt k (m + 1) p (hm ▸ h)
      simp only [flatExpr, Bool.and_eq_true] at hf
      have := (isBinaryOperator_precedence _ hf.1.2).1
      omega
  subst hkn
  obtain ⟨s, hs, hd⟩ := String_dropParens rt e ht
  refine ⟨e, ?_, ?_, hin, hc, ht, s, hs, ?_, ?_⟩
  · intro fuel hf
    rw [← hp1]
    exact parseExpression_le rt p (e, p1) _ fuel hf h1
  · have hf := flatExpr_skip rt k 0 p (by simpa using h)
    exact flatExpr_current rt 0 _ hf
  · rw [hd, hin]
  · intro hno
    rw [hd, hin]
    have hall : ∀ (ts : List String), (∀ t ∈ ts, ∀ c ∈ t.data, c ≠ '(' ∧ c ≠ ')') →
        dropParens (joinSpaces ts) = joinSpaces ts := by
      intro ts
      induction ts with
      | nil => intro _; rfl
      | cons t ts ih =>
        intro hts
        cases ts with
        | nil => exact dropParens_self t (hts t (List.mem_cons_self _ _))
        | cons u us =>
          rw [joinSpaces_cons t _ (by simp), dropParens_append, dropParens_append,
            dropParens_self t (hts t (List.mem_cons_self _ _)),
            ih (fun x hx => hts x (List.mem_cons_of_mem _ hx))]
          rfl
    exact hall _ hno

theorem expression_source_order_witness :
    ∃ e,
      (∀ fuel,
        4 * (NewParser sampleRuntime
          (NewLexer sampleRuntime (String.toList "a + b * c - d == e ;"))).size + 3 ≤ fuel →
        parseExpression sampleRuntime fuel
            (NewParser sampleRuntime
              (NewLexer sampleRuntime (String.toList "a + b * c - d == e ;"))) =
          some (e, Parser.skip sampleRuntime (2 * 4)
            (NewParser sampleRuntime
              (NewLexer sampleRuntime (String.toList "a + b * c - d == e ;"))))) ∧
      (Parser.skip sampleRuntime (2 * 4)
        (NewParser sampleRuntime
          (NewLexer sampleRuntime (String.toList "a + b * c - d == e ;")))).currentToken.Kind =
        TokenType.IDENT ∧
      inorder sampleRuntime e =
        flatTokens sampleRuntime 4
          (NewParser sampleRuntime
            (NewLexer sampleRuntime (String.toList "a + b * c - d == e ;"))) ∧
      infixCount e = 4 ∧ isInfixTree e = true ∧
      ∃ s, e.String sampleRuntime = some s ∧
        dropParens s = dropParens (joinSpaces (flatTokens sampleRuntime 4
          (NewParser sampleRuntime
            (NewLexer sampleRuntime (String.toList "a + b * c - d == e ;"))))) ∧
        ((∀ t ∈ flatTokens sampleRuntime 4
            (NewParser sampleRuntime
              (NewLexer sampleRuntime (String.toList "a + b * c - d == e ;"))),
            ∀ c ∈ t.data, c ≠ '(' ∧ c ≠ ')') →
          dropParens s = joinSpaces (flatTokens sampleRuntime 4
            (NewParser sampleRuntime
              (NewLexer sampleRuntime (String.toList "a + b * c - d == e ;"))))) :=
  expression_source_order sampleRuntime 4
    (NewParser sampleRuntime (NewLexer sampleRuntime (String.toList "a + b * c - d == e ;")))
    (by decide)

/-- The flat expression `a + b * c - d == e` through lexer and parser: the tree,
its in-order traversal and its `String()`. -/
theorem expression_source_order_example :
    parseExpression sampleRuntime 100
        (NewParser sampleRuntime (NewLexer sampleRuntime (String.toList "a + b * c - d == e ;"))) =
      some (Expression.InfixExpression
          (Expression.InfixExpression
            (Expression.InfixExpression (Expression.Identifier "a") "+"
              (Expression.InfixExpression (Expression.Identifier "b") "*"
                (Expression.Identifier "c")))
            "-" (Expression.Identifier "d"))
          "==" (Expression.Identifier "e"),
        Parser.skip sampleRuntime 8
          (NewParser sampleRuntime
            (NewLexer sampleRuntime (String.toList "a + b * c - d == e ;")))) ∧
    flatTokens sampleRuntime 4
        (NewParser sampleRuntime (NewLexer sampleRuntime (String.toList "a + b * c - d == e ;"))) =
      ["a", "+", "b", "*", "c", "-", "d", "==", "e"] ∧
    (Expression.InfixExpression
          (Expression.InfixExpression
            (Expression.InfixExpression (Expression.Identifier "a") "+"
              (Expression.InfixExpression (Expression.Identifier "b") "*"
                (Expression.Identifier "c")))
            "-" (Expression.Identifier "d"))
          "==" (Expression.Identifier "e")).String sampleRuntime =
      some "(((a + (b * c)) - d) == e)" ∧
    dropParens "(((a + (b * c)) - d) == e)" = "a + b * c - d == e" := by
  refine ⟨?_, ?_, ?_, ?_⟩ <;> decide

end LazyLang
